import Mathlib

/-!
Verification of the `dom_toml` configuration-file front end: a shallow
embedding of its TOML tree model, the schema-parser framework's validation
primitives (path rendering and type assertions), the PEP 621 field handlers
exercised by the test suite, the `loads`/`load` facade dispatch, and the
encoder/decoder round-trip contract.

The repository ships only `dom_toml/__init__.py` here; the companion modules
(`dom_toml/parser.py`, `dom_toml/encoder.py`, `dom_toml/decoder.py`) and the
third-party `toml` grammar collaborator are modelled from the specification,
with each such definition marked `Modelled from the spec:` in its doc string.
-/

set_option maxRecDepth 4000

namespace DomToml

/-- Python-side type tags for the dynamically-typed values a decoded TOML
tree can hold (the classes `type(value)` can report in this system). -/
inductive PyType where
  | pystr
  | pyint
  | pyfloat
  | pybool
  | pylist
  | pytuple
  | pydict
  deriving DecidableEq, Repr

/-- The decoded TOML tree model: scalars, sequences (Python lists and
tuples) and tables.  A table carries the `InlineTableDict` marker flag
(`inl`) used by the preserve-inline encoder strategy; floats are modelled
as signed decimal fixed-point numbers, `float m e` denoting
`m / 10 ^ (e + 1)` rendered with `e + 1` fractional digits. -/
inductive TomlValue where
  | str (s : String)
  | int (n : Int)
  | float (m : Int) (e : Nat)
  | bool (b : Bool)
  | arr (xs : List TomlValue)
  | tup (xs : List TomlValue)
  | table (inl : Bool) (es : List (String × TomlValue))
  deriving Repr

/-- Table entries: an insertion-ordered association list, the ordered
mapping of the tree model. -/
abbrev Entries := List (String × TomlValue)

/-- Ordered-mapping lookup on table entries (first match wins, as in a
Python dict where keys are unique). -/
def lookupKV : Entries → String → Option TomlValue
  | [], _ => none
  | (k, v) :: es, key => if k = key then some v else lookupKV es key

/-- The Python `type(value)` of a tree value. -/
def typeOf : TomlValue → PyType
  | .str _ => .pystr
  | .int _ => .pyint
  | .float _ _ => .pyfloat
  | .bool _ => .pybool
  | .arr _ => .pylist
  | .tup _ => .pytuple
  | .table _ _ => .pydict

/-- The host environment's canonical rendering of a type, as interpolating
the class into an error message prints it. -/
def typeRepr : PyType → String
  | .pystr => "<class 'str'>"
  | .pyint => "<class 'int'>"
  | .pyfloat => "<class 'float'>"
  | .pybool => "<class 'bool'>"
  | .pylist => "<class 'list'>"
  | .pytuple => "<class 'tuple'>"
  | .pydict => "<class 'dict'>"

/-- Python `isinstance` on the modelled types: exact class match, plus the
`bool`-is-a-subclass-of-`int` special case. -/
def isinstanceOf (v : TomlValue) (t : PyType) : Bool :=
  typeOf v == t || (typeOf v == .pybool && t == .pyint)

/-- A path step is unambiguous bare if every character is alphanumeric or
one of `_` `-` (the same safe-key alphabet the TOML encoder uses for bare
keys). -/
def isSafeKeyChar (c : Char) : Bool :=
  c.isAlpha || c.isDigit || c == '_' || c == '-'

/-- Render one step of a diagnostic path: wrapped in double quotes, with no
further escaping, when it contains whitespace or other characters that
would be ambiguous unquoted; bare otherwise. -/
def renderPathStep (s : String) : String :=
  if s ≠ "" ∧ s.data.all isSafeKeyChar then s else "\"" ++ s ++ "\""

/-- Modelled from the spec: `dom_toml.parser.construct_path` (the module is
not shipped in this snapshot).  Joins the steps of a key path with `.`,
double-quoting any step containing whitespace or other ambiguous
characters. -/
def construct_path (path : List String) : String :=
  String.intercalate "." (path.map renderPathStep)

/-- Modelled from the spec: `AbstractConfigParser.assert_type` from
`dom_toml.parser`.  Checks the value itself against an expected type,
raising (returning) a `TypeError` message of the specified exact shape. -/
def assert_type (v : TomlValue) (t : PyType) (path : List String) : Except String Unit :=
  if isinstanceOf v t then .ok ()
  else .error ("Invalid type for '" ++ construct_path path ++ "': expected "
      ++ typeRepr t ++ ", got " ++ typeRepr (typeOf v))

/-- Modelled from the spec: `AbstractConfigParser.assert_indexed_type` from
`dom_toml.parser`.  Checks the element at position `idx` of a sequence; the
message path appends the index in bracket form to the dotted path. -/
def assert_indexed_type (v : TomlValue) (t : PyType) (path : List String) (idx : Nat) :
    Except String Unit :=
  if isinstanceOf v t then .ok ()
  else .error ("Invalid type for '" ++ construct_path path ++ "[" ++ toString idx
      ++ "]': expected " ++ typeRepr t ++ ", got " ++ typeRepr (typeOf v))

/-- Modelled from the spec: `AbstractConfigParser.assert_value_type` from
`dom_toml.parser`.  Checks a value reached by a key inside a mapping, with
the `Invalid value type` wording. -/
def assert_value_type (v : TomlValue) (t : PyType) (path : List String) : Except String Unit :=
  if isinstanceOf v t then .ok ()
  else .error ("Invalid value type for '" ++ construct_path path ++ "': expected "
      ++ typeRepr t ++ ", got " ++ typeRepr (typeOf v))

/-- Lexicographic strict order on character sequences by code point. -/
def listLtChar : List Char → List Char → Bool
  | [], [] => false
  | [], _ :: _ => true
  | _ :: _, [] => false
  | c :: cs, d :: ds =>
      if c.toNat < d.toNat then true
      else if d.toNat < c.toNat then false
      else listLtChar cs ds

/-- The strict order Python `sorted` applies to strings: lexicographic by
code point. -/
def strLt (a b : String) : Bool := listLtChar a.data b.data

/-- Insert a string into a sorted duplicate-free list, keeping it sorted
and duplicate-free (the model of accumulating into a Python `set` that is
later rendered with `sorted`). -/
def sortedInsert (s : String) : List String → List String
  | [] => [s]
  | x :: xs =>
      if s = x then x :: xs
      else if strLt s x then s :: x :: xs
      else x :: sortedInsert s xs

/-- The sorted duplicate-free sequence of a list's members: the model of
Python `sorted(set(xs))`. -/
def sortDedup (ks : List String) : List String :=
  ks.foldl (fun acc s => sortedInsert s acc) []

/-- The string payload of a `TomlValue.str`; only applied to values that
`assert_indexed_type _ .pystr` has already accepted. -/
def pyStrVal : TomlValue → String
  | .str s => s
  | _ => ""

/-- Loop body of `PEP621Parser.parse_keywords` / `parse_classifiers` (from
`tests/test_parser.py`): assert each element at its index is a string, then
accumulate it into the set. -/
def parse_seq_go (path : List String) (i : Nat) (acc : List String) :
    List TomlValue → Except String (List String)
  | [] => .ok acc
  | x :: xs =>
      match assert_indexed_type x .pystr path i with
      | .error e => .error e
      | .ok _ => parse_seq_go path (i + 1) (sortedInsert (pyStrVal x) acc) xs

/-- `PEP621Parser.parse_keywords` from `tests/test_parser.py`: asserts every
element of `config["keywords"]` is a string and returns the sorted,
duplicate-free sequence of them. -/
def parse_keywords (config : Entries) : Except String (List String) :=
  match lookupKV config "keywords" with
  | none => .error "KeyError: 'keywords'"
  | some (.arr xs) => parse_seq_go ["project", "keywords"] 0 [] xs
  | some (.tup xs) => parse_seq_go ["project", "keywords"] 0 [] xs
  | some v => .error ("TypeError: '" ++ typeRepr (typeOf v) ++ "' object is not iterable")

/-- `PEP621Parser.parse_classifiers` from `tests/test_parser.py`: identical
to `parse_keywords` but for the `classifiers` key. -/
def parse_classifiers (config : Entries) : Except String (List String) :=
  match lookupKV config "classifiers" with
  | none => .error "KeyError: 'classifiers'"
  | some (.arr xs) => parse_seq_go ["project", "classifiers"] 0 [] xs
  | some (.tup xs) => parse_seq_go ["project", "classifiers"] 0 [] xs
  | some v => .error ("TypeError: '" ++ typeRepr (typeOf v) ++ "' object is not iterable")

/-- A concrete schema for the framework model: the declared keys in order,
each bound to its field handler (the handler receives the whole table). -/
abbrev Schema := List (String × (Entries → Except String TomlValue))

/-- Modelled from the spec: `AbstractConfigParser.parse` from
`dom_toml.parser`.  For each declared key present in the input table the
handler runs and its result is recorded under the key; absent declared keys
are skipped; a handler error aborts the remaining keys. -/
def parseSchema (schema : Schema) (config : Entries) : Except String Entries :=
  match schema with
  | [] => .ok []
  | (k, h) :: rest =>
      if (lookupKV config k).isSome then
        match h config with
        | .error e => .error e
        | .ok v =>
            match parseSchema rest config with
            | .error e => .error e
            | .ok r => .ok ((k, v) :: r)
      else parseSchema rest config

/-- An encoder strategy: the configuration axes of the encoder contract
that are observable on native-typed documents — whether tables carrying the
inline marker are preserved inline, and the array-element separator. -/
structure EncStrategy where
  preserve : Bool
  sep : String

/-- The default strategy: expand every table into a section block and
separate array elements with a comma and one space. -/
def defaultStrategy : EncStrategy := ⟨false, ", "⟩

/-- Well-formed array separators, as the array-separator strategy accepts
them: one comma followed by line-internal whitespace. -/
def WfSep (s : String) : Prop :=
  ∃ ws : List Char, s.data = ',' :: ws ∧ ∀ c ∈ ws, c = ' ' ∨ c = '\t'

/-- Decimal digit characters of a positive number, least significant
first. -/
def natDigitsRev (n : Nat) : List Char :=
  if h : n = 0 then []
  else Char.ofNat (48 + n % 10) :: natDigitsRev (n / 10)
  decreasing_by exact Nat.div_lt_self (Nat.pos_of_ne_zero h) (by decide)

/-- Decimal rendering of a natural number, most significant digit first. -/
def natToChars (n : Nat) : List Char :=
  if n = 0 then ['0'] else (natDigitsRev n).reverse

/-- Numeric value of a decimal digit character. -/
def digitVal (c : Char) : Nat := c.toNat - 48

/-- Decimal reading of a most-significant-first digit string. -/
def charsToNat (cs : List Char) : Nat := cs.foldl (fun a c => 10 * a + digitVal c) 0

/-- Decimal rendering of an integer. -/
def intToChars (m : Int) : List Char :=
  (if m < 0 then ['-'] else []) ++ natToChars m.natAbs

/-- Unsigned decimal rendering of `a / 10 ^ (e + 1)` with exactly `e + 1`
fractional digits: the digit string of `a` is zero-padded so a digit
remains before the point, then the point is inserted `e + 1` places from
the right. -/
def floatBody (a : Nat) (e : Nat) : List Char :=
  let d := natToChars a
  let pad := List.replicate (e + 2 - d.length) '0' ++ d
  pad.take (pad.length - (e + 1)) ++ '.' :: pad.drop (pad.length - (e + 1))

/-- Decimal rendering of the float `m / 10 ^ (e + 1)`. -/
def floatToChars (m : Int) (e : Nat) : List Char :=
  (if m < 0 then ['-'] else []) ++ floatBody m.natAbs e

/-- Hexadecimal digit character (lower case) for a value below 16. -/
def hexDigit (n : Nat) : Char :=
  if n < 10 then Char.ofNat (48 + n) else Char.ofNat (87 + n)

/-- Four-digit hexadecimal rendering of a code point below `0x10000`. -/
def hex4 (n : Nat) : List Char :=
  [hexDigit (n / 4096 % 16), hexDigit (n / 256 % 16), hexDigit (n / 16 % 16), hexDigit (n % 16)]

/-- Escape one character for a basic TOML string: the short escapes for
backslash, quote and the common control characters, `\uXXXX` for the
remaining control characters, and every other character verbatim. -/
def escChar (c : Char) : List Char :=
  if c = '\\' then ['\\', '\\']
  else if c = '"' then ['\\', '"']
  else if c = '\x08' then ['\\', 'b']
  else if c = '\t' then ['\\', 't']
  else if c = '\n' then ['\\', 'n']
  else if c = '\x0c' then ['\\', 'f']
  else if c = '\r' then ['\\', 'r']
  else if c.toNat < 32 then '\\' :: 'u' :: hex4 c.toNat
  else [c]

/-- Escape a character sequence for a basic TOML string. -/
def escapeChars : List Char → List Char
  | [] => []
  | c :: cs => escChar c ++ escapeChars cs

/-- Render a string as a quoted, escaped basic TOML string. -/
def renderStr (s : String) : List Char :=
  '"' :: (escapeChars s.data ++ ['"'])

/-- A key can be written bare when it is nonempty and uses only the
safe-key alphabet. -/
def isBareKey (s : String) : Bool :=
  s ≠ "" && s.data.all isSafeKeyChar

/-- Render a key: bare when possible, quoted-and-escaped otherwise. -/
def renderKey (s : String) : List Char :=
  if isBareKey s then s.data else renderStr s

mutual

/-- Modelled from the spec: the encoder contract's value renderer
(`dump_value` of the `TomlEncoder` in the missing `dom_toml.encoder` /
external grammar collaborator).  Scalars render to their literal form,
sequences to bracketed lists joined by the strategy's separator, and tables
reached through a value position to single-line inline tables. -/
def renderValue (st : EncStrategy) : TomlValue → List Char
  | .str s => renderStr s
  | .int n => intToChars n
  | .float m e => floatToChars m e
  | .bool b => if b then ['t', 'r', 'u', 'e'] else ['f', 'a', 'l', 's', 'e']
  | .arr xs => '[' :: (renderList st xs ++ [']'])
  | .tup xs => '[' :: (renderList st xs ++ [']'])
  | .table _ es => '\x7b' :: (renderInline st es ++ ['\x7d'])

/-- Array elements joined by the strategy's separator. -/
def renderList (st : EncStrategy) : List TomlValue → List Char
  | [] => []
  | [x] => renderValue st x
  | x :: y :: xs => renderValue st x ++ (st.sep.data ++ renderList st (y :: xs))

/-- Inline-table pairs `k = v` joined by a comma and a space. -/
def renderInline (st : EncStrategy) : Entries → List Char
  | [] => []
  | [(k, v)] => renderKey k ++ (' ' :: '=' :: ' ' :: renderValue st v)
  | (k, v) :: e :: es =>
      renderKey k ++ (' ' :: '=' :: ' ' :: renderValue st v)
        ++ (',' :: ' ' :: renderInline st (e :: es))

end

/-- One line of an encoded document: blank, a `[section]` header naming an
absolute key path, or a `key = value` pair in the current section. -/
inductive Line where
  | blank
  | header (path : List String)
  | kv (k : String) (v : TomlValue)

/-- Render a dotted section path, quoting components as keys. -/
def renderPath : List String → List Char
  | [] => []
  | [k] => renderKey k
  | k :: k' :: ks => renderKey k ++ ('.' :: renderPath (k' :: ks))

/-- Render one document line (without its trailing newline). -/
def renderLine (st : EncStrategy) : Line → List Char
  | .blank => []
  | .header p => '[' :: (renderPath p ++ [']'])
  | .kv k v => renderKey k ++ (' ' :: '=' :: ' ' :: renderValue st v)

/-- Whether a table entry is expanded into a `[section]` block (rather than
written as a `key = value` line): every table value is, except an
inline-marked table under the preserve-inline strategy. -/
def isSectionEntry (st : EncStrategy) : String × TomlValue → Bool
  | (_, .table inl _) => !(st.preserve && inl)
  | _ => false

/-- Modelled from the spec: the encoder's section traversal
(`dump_sections` of the missing `dom_toml.encoder` / external grammar
collaborator).  Produces the `key = value` lines of a table and, after
them, the `[section]` blocks of its table-valued entries, each block
recursively laid out the same way under the extended path.  The two
components are returned separately so a parent can emit all of its own
`key = value` lines before any section block. -/
def encLines (st : EncStrategy) (pfx : List String) : Entries → List Line × List Line
  | [] => ([], [])
  | (k, .table inl sub) :: rest =>
      if st.preserve && inl then
        let pr := encLines st pfx rest
        (Line.kv k (.table inl sub) :: pr.1, pr.2)
      else
        let subPr := encLines st (pfx ++ [k]) sub
        let pr := encLines st pfx rest
        (pr.1, (Line.header (pfx ++ [k]) :: (subPr.1 ++ subPr.2)) ++ pr.2)
  | (k, v) :: rest =>
      let pr := encLines st pfx rest
      (Line.kv k v :: pr.1, pr.2)

/-- Concatenate rendered lines, each terminated by a newline. -/
def linesToChars (st : EncStrategy) : List Line → List Char
  | [] => []
  | l :: ls => renderLine st l ++ ('\n' :: linesToChars st ls)

/-- Modelled from the spec: `dom_toml.dumps`' serialization of a document
tree to TOML text under a strategy (the text-layout half is the external
grammar collaborator). -/
def encodeDoc (st : EncStrategy) (es : Entries) : String :=
  let pr := encLines st [] es
  ⟨linesToChars st (pr.1 ++ pr.2)⟩

/-- Skip line-internal whitespace (spaces and tabs). -/
def skipWs : List Char → List Char
  | [] => []
  | c :: cs => if c = ' ' || c = '\t' then skipWs cs else c :: cs

/-- Decimal digit test. -/
def isDigitChar (c : Char) : Bool := 48 ≤ c.toNat && c.toNat ≤ 57

/-- Lower-case hexadecimal digit test. -/
def isHexChar (c : Char) : Bool :=
  (48 ≤ c.toNat && c.toNat ≤ 57) || (97 ≤ c.toNat && c.toNat ≤ 102)

/-- Numeric value of a lower-case hexadecimal digit character. -/
def hexVal (c : Char) : Nat :=
  if c.toNat ≤ 57 then c.toNat - 48 else c.toNat - 87

mutual

/-- Parse the body of a basic TOML string after its opening quote,
unescaping as it goes; returns the content and the input remaining after
the closing quote. -/
def parseStrBody : List Char → Option (List Char × List Char)
  | [] => none
  | c :: rest =>
      if c = '"' then some ([], rest)
      else if c = '\\' then parseEsc rest
      else (parseStrBody rest).map (fun p => (c :: p.1, p.2))

/-- Parse one escape sequence after a backslash, then the remainder of the
string body. -/
def parseEsc : List Char → Option (List Char × List Char)
  | 'b' :: rest => (parseStrBody rest).map (fun p => ('\x08' :: p.1, p.2))
  | 't' :: rest => (parseStrBody rest).map (fun p => ('\t' :: p.1, p.2))
  | 'n' :: rest => (parseStrBody rest).map (fun p => ('\n' :: p.1, p.2))
  | 'f' :: rest => (parseStrBody rest).map (fun p => ('\x0c' :: p.1, p.2))
  | 'r' :: rest => (parseStrBody rest).map (fun p => ('\r' :: p.1, p.2))
  | '"' :: rest => (parseStrBody rest).map (fun p => ('"' :: p.1, p.2))
  | '\\' :: rest => (parseStrBody rest).map (fun p => ('\\' :: p.1, p.2))
  | 'u' :: a :: b :: c :: d :: rest =>
      if isHexChar a && isHexChar b && isHexChar c && isHexChar d then
        (parseStrBody rest).map (fun p =>
          (Char.ofNat (4096 * hexVal a + 256 * hexVal b + 16 * hexVal c + hexVal d) :: p.1,
            p.2))
      else none
  | _ => none

end

/-- Parse the unsigned part of a number: digits, optionally a point and
more digits; returns the digits' value, the fractional digit count less
one, the float flag, and the rest. -/
def parseNumCore (ds : List Char) : Option (Nat × Nat × Bool × List Char) :=
  let d1 := ds.takeWhile isDigitChar
  let r1 := ds.dropWhile isDigitChar
  if d1 = [] then none
  else if r1.head? = some '.' then
    let r2 := r1.tail
    let d2 := r2.takeWhile isDigitChar
    let r3 := r2.dropWhile isDigitChar
    if d2 = [] then none
    else some (charsToNat (d1 ++ d2), d2.length - 1, true, r3)
  else some (charsToNat d1, 0, false, r1)

/-- Build the numeric value a parsed number denotes. -/
def numFromCore (neg : Bool) (q : Nat × Nat × Bool × List Char) : TomlValue × List Char :=
  (if q.2.2.1 then TomlValue.float (if neg then -(q.1 : Int) else (q.1 : Int)) q.2.1
    else TomlValue.int (if neg then -(q.1 : Int) else (q.1 : Int)), q.2.2.2)

/-- Parse a decimal integer or float literal: an optional minus sign,
digits, and an optional point followed by more digits. -/
def parseNumber (cs : List Char) : Option (TomlValue × List Char) :=
  match cs with
  | '-' :: ds => (parseNumCore ds).map (numFromCore true)
  | ds => (parseNumCore ds).map (numFromCore false)

/-- Parse a key: quoted-and-escaped, or a nonempty bare run of safe-key
characters. -/
def parseKey (cs : List Char) : Option (String × List Char) :=
  if cs.head? = some '"' then
    (parseStrBody cs.tail).map (fun p => (⟨p.1⟩, p.2))
  else
    let bare := cs.takeWhile isSafeKeyChar
    if bare = [] then none else some (⟨bare⟩, cs.dropWhile isSafeKeyChar)

mutual

/-- Modelled from the spec: the decode collaborator's value grammar.
Dispatches on the first character to a string, array, inline table,
boolean, or number; fuelled, with the fuel a bound on nesting work. -/
def parseValue : Nat → List Char → Option (TomlValue × List Char)
  | 0, _ => none
  | fuel + 1, cs =>
      if cs.head? = some '"' then
        (parseStrBody cs.tail).map (fun p => (.str ⟨p.1⟩, p.2))
      else if cs.head? = some '[' then
        let r := skipWs cs.tail
        if r.head? = some ']' then some (.arr [], r.tail)
        else (parseArrayElems fuel r).map (fun p => (.arr p.1, p.2))
      else if cs.head? = some '\x7b' then
        let r := skipWs cs.tail
        if r.head? = some '\x7d' then some (.table true [], r.tail)
        else (parseInlinePairs fuel r).map (fun p => (.table true p.1, p.2))
      else if cs.take 4 = ['t', 'r', 'u', 'e'] then some (.bool true, cs.drop 4)
      else if cs.take 5 = ['f', 'a', 'l', 's', 'e'] then some (.bool false, cs.drop 5)
      else parseNumber cs

/-- Array elements separated by commas (with surrounding whitespace),
terminated by a closing bracket. -/
def parseArrayElems : Nat → List Char → Option (List TomlValue × List Char)
  | 0, _ => none
  | fuel + 1, cs =>
      (parseValue fuel cs).bind (fun p =>
        let r := skipWs p.2
        if r.head? = some ',' then
          (parseArrayElems fuel (skipWs r.tail)).map (fun q => (p.1 :: q.1, q.2))
        else if r.head? = some ']' then some ([p.1], r.tail)
        else none)

/-- Inline-table pairs separated by commas, terminated by a closing
brace. -/
def parseInlinePairs : Nat → List Char → Option (Entries × List Char)
  | 0, _ => none
  | fuel + 1, cs =>
      (parseKey cs).bind (fun kp =>
        let r1 := skipWs kp.2
        if r1.head? = some '=' then
          (parseValue fuel (skipWs r1.tail)).bind (fun p =>
            let r2 := skipWs p.2
            if r2.head? = some ',' then
              (parseInlinePairs fuel (skipWs r2.tail)).map
                (fun q => ((kp.1, p.1) :: q.1, q.2))
            else if r2.head? = some '\x7d' then some ([(kp.1, p.1)], r2.tail)
            else none)
        else none)

end

/-- Parse a dotted section-header path after the opening bracket, through
the closing bracket. -/
def parseHeaderPath : Nat → List Char → Option (List String × List Char)
  | 0, _ => none
  | fuel + 1, cs =>
      (parseKey cs).bind (fun kp =>
        if kp.2.head? = some '.' then
          (parseHeaderPath fuel kp.2.tail).map (fun q => (kp.1 :: q.1, q.2))
        else if kp.2.head? = some ']' then some ([kp.1], kp.2.tail)
        else none)

/-- Parse one document line: blank, `[section]` header, or
`key = value`. -/
def parseLine (cs : List Char) : Option Line :=
  if cs = [] then some .blank
  else if cs.head? = some '[' then
    (parseHeaderPath (cs.length + 1) cs.tail).bind (fun p =>
      if p.2 = [] then some (.header p.1) else none)
  else
    (parseKey cs).bind (fun kp =>
      let r1 := skipWs kp.2
      if r1.head? = some '=' then
        (parseValue (cs.length + 1) (skipWs r1.tail)).bind (fun p =>
          if p.2 = [] then some (.kv kp.1 p.1) else none)
      else none)

/-- Split character input into its newline-separated lines. -/
def splitLines : List Char → List (List Char)
  | [] => [[]]
  | c :: cs =>
      if c = '\n' then [] :: splitLines cs
      else
        match splitLines cs with
        | [] => [[c]]
        | l :: ls => (c :: l) :: ls

/-- Lookup with presence only. -/
def containsKey (es : Entries) (k : String) : Bool := (lookupKV es k).isSome

/-- Replace the value stored under an existing key, in place. -/
def replaceKV : Entries → String → TomlValue → Entries
  | [], _, _ => []
  | (k, v) :: es, key, w => if k = key then (key, w) :: es else (k, v) :: replaceKV es key w

/-- Follow a key path through nested tables. -/
def getPath : Entries → List String → Option Entries
  | es, [] => some es
  | es, k :: p =>
      match lookupKV es k with
      | some (.table _ sub) => getPath sub p
      | _ => none

/-- Rewrite the entries found at the end of a key path through an
entry-level action; fails where the path fails. -/
def updateAt : Entries → List String → (Entries → Option Entries) → Option Entries
  | es, [], f => f es
  | es, k :: p, f =>
      match lookupKV es k with
      | some (.table inl sub) => (updateAt sub p f).map (fun sub' => replaceKV es k (.table inl sub'))
      | _ => none

/-- Store the given entries at the end of a key path. -/
def setAt (root : Entries) (p : List String) (t : Entries) : Option Entries :=
  updateAt root p (fun _ => some t)

/-- Walk a section-header path from the root, creating empty tables where
a component is absent and failing where it names a non-table. -/
def ensurePath : Entries → List String → Option Entries
  | es, [] => some es
  | es, k :: p =>
      match lookupKV es k with
      | some (.table inl sub) => (ensurePath sub p).map (fun sub' => replaceKV es k (.table inl sub'))
      | some _ => none
      | none => (ensurePath [] p).map (fun sub' => es ++ [(k, .table false sub')])

/-- Decoder state: the document built so far and the absolute path of the
section currently receiving `key = value` lines. -/
abbrev DecState := Entries × List String

/-- Apply one line to the decoder state: blanks are skipped, a header
switches (and creates) the current section, and a pair appends a new key
to the current section, rejecting duplicates. -/
def procLine : DecState → Line → Option DecState
  | s, .blank => some s
  | (root, _), .header p => (ensurePath root p).map (fun root' => (root', p))
  | (root, cur), .kv k v =>
      (updateAt root cur (fun es =>
        if containsKey es k then none else some (es ++ [(k, v)]))).map (fun root' => (root', cur))

/-- Fold the decoder state through a list of parsed lines. -/
def procLines : DecState → List Line → Option DecState
  | s, [] => some s
  | s, l :: ls => (procLine s l).bind (fun s' => procLines s' ls)

/-- Parse every line, failing on the first malformed one. -/
def parseAllLines : List (List Char) → Option (List Line)
  | [] => some []
  | l :: ls => (parseLine l).bind (fun x => (parseAllLines ls).map (x :: ·))

/-- Modelled from the spec: the decode collaborator (`toml.loads`' grammar
layer).  Splits the text into lines, parses each, and folds the section
state from an empty document. -/
def decodeChars (cs : List Char) : Option Entries :=
  ((parseAllLines (splitLines cs)).bind (procLines ([], []))).map Prod.fst

/-- Decode TOML text into the tree model. -/
def decode (s : String) : Option Entries := decodeChars s.data

mutual

/-- Nesting work of a value: a fuel bound for the value grammar. -/
def vsize : TomlValue → Nat
  | .arr xs => 1 + lsize xs
  | .tup xs => 1 + lsize xs
  | .table _ es => 1 + psize es
  | _ => 1

/-- Nesting work of a sequence of array elements. -/
def lsize : List TomlValue → Nat
  | [] => 0
  | x :: xs => 1 + max (vsize x) (lsize xs)

/-- Nesting work of a sequence of inline-table pairs. -/
def psize : Entries → Nat
  | [] => 0
  | (_, v) :: es => 1 + max (vsize v) (psize es)

end

mutual

/-- Structural size of a value, for the nested document induction. -/
def valSize : TomlValue → Nat
  | .arr xs => 1 + seqSize xs
  | .tup xs => 1 + seqSize xs
  | .table _ es => 1 + entsSize es
  | _ => 1

/-- Structural size of a sequence of values. -/
def seqSize : List TomlValue → Nat
  | [] => 0
  | x :: xs => 1 + valSize x + seqSize xs

/-- Structural size of table entries. -/
def entsSize : Entries → Nat
  | [] => 0
  | (_, v) :: es => 1 + valSize v + entsSize es

end

mutual

/-- The normal form a value takes after one render/parse cycle in value
(inline) position: tuples become lists, and every table acquires the
inline marker, since it was read back from an inline-table literal. -/
def reparseVal : TomlValue → TomlValue
  | .arr xs => .arr (reparseValL xs)
  | .tup xs => .arr (reparseValL xs)
  | .table _ es => .table true (reparseValEnt es)
  | v => v

/-- `reparseVal` over array elements. -/
def reparseValL : List TomlValue → List TomlValue
  | [] => []
  | x :: xs => reparseVal x :: reparseValL xs

/-- `reparseVal` over inline-table entries. -/
def reparseValEnt : Entries → Entries
  | [] => []
  | (k, v) :: es => (k, reparseVal v) :: reparseValEnt es

end

/-- The normal form of a section table after one encode/decode cycle,
returned as its `key = value` part and its section part: pair entries keep
their order with reparsed values, section entries follow in order as
unmarked tables whose bodies took the same normal form. -/
def reparseTable (st : EncStrategy) : Entries → Entries × Entries
  | [] => ([], [])
  | (k, .table inl sub) :: rest =>
      if st.preserve && inl then
        let pr := reparseTable st rest
        ((k, reparseVal (.table inl sub)) :: pr.1, pr.2)
      else
        let subPr := reparseTable st sub
        let pr := reparseTable st rest
        (pr.1, (k, .table false (subPr.1 ++ subPr.2)) :: pr.2)
  | (k, v) :: rest =>
      let pr := reparseTable st rest
      ((k, reparseVal v) :: pr.1, pr.2)

/-- The whole-document normal form after one encode/decode cycle. -/
def reparseDoc (st : EncStrategy) (es : Entries) : Entries :=
  let pr := reparseTable st es
  pr.1 ++ pr.2

/-- The effect of a render/parse cycle on one document line. -/
def reparseLine : Line → Line
  | .kv k v => .kv k (reparseVal v)
  | l => l

mutual

/-- Replace every tuple by the list of the same elements (the sequence
type a tuple round-trips to). -/
def seqifyV : TomlValue → TomlValue
  | .arr xs => .arr (seqifyL xs)
  | .tup xs => .arr (seqifyL xs)
  | .table inl es => .table inl (seqifyEnt es)
  | v => v

/-- `seqifyV` over sequence elements. -/
def seqifyL : List TomlValue → List TomlValue
  | [] => []
  | x :: xs => seqifyV x :: seqifyL xs

/-- `seqifyV` over table entries. -/
def seqifyEnt : Entries → Entries
  | [] => []
  | (k, v) :: es => (k, seqifyV v) :: seqifyEnt es

end

mutual

/-- A value free of tuples. -/
def tupFreeV : TomlValue → Bool
  | .arr xs => tupFreeL xs
  | .tup _ => false
  | .table _ es => tupFreeEnt es
  | _ => true

/-- `tupFreeV` over sequence elements. -/
def tupFreeL : List TomlValue → Bool
  | [] => true
  | x :: xs => tupFreeV x && tupFreeL xs

/-- `tupFreeV` over table entries. -/
def tupFreeEnt : Entries → Bool
  | [] => true
  | (_, v) :: es => tupFreeV v && tupFreeEnt es

end

/-- Keys of a table are pairwise distinct (a Python dict invariant). -/
def nodupKeys : Entries → Bool
  | [] => true
  | (k, _) :: es => !containsKey es k && nodupKeys es

mutual

/-- Well-formed document values: every table, at every depth, has distinct
keys (true of anything a Python mapping can hold). -/
def wfV : TomlValue → Bool
  | .arr xs => wfL xs
  | .tup xs => wfL xs
  | .table _ es => nodupKeys es && wfEnt es
  | _ => true

/-- `wfV` over sequence elements. -/
def wfL : List TomlValue → Bool
  | [] => true
  | x :: xs => wfV x && wfL xs

/-- `wfV` over table entries (not itself asserting key distinctness at the
outermost level; pair with `nodupKeys`). -/
def wfEnt : Entries → Bool
  | [] => true
  | (_, v) :: es => wfV v && wfEnt es

end

mutual

/-- Modelled Python `==` on decoded values: numeric values compare by
value across `int`/`float`/`bool`, lists compare pointwise in order,
tables compare as unordered key-to-value maps (insertion order and the
inline marker do not participate), and a list never equals a tuple. -/
def pyEqV : TomlValue → TomlValue → Bool
  | .str a, .str b => a == b
  | .int a, .int b => a == b
  | .int a, .float m e => a * (10 : Int) ^ (e + 1) == m
  | .float m e, .int a => m == a * (10 : Int) ^ (e + 1)
  | .float m1 e1, .float m2 e2 => m1 * (10 : Int) ^ (e2 + 1) == m2 * (10 : Int) ^ (e1 + 1)
  | .bool a, .bool b => a == b
  | .bool a, .int b => (if a then (1 : Int) else 0) == b
  | .int a, .bool b => a == (if b then (1 : Int) else 0)
  | .bool a, .float m e => (if a then (1 : Int) else 0) * (10 : Int) ^ (e + 1) == m
  | .float m e, .bool b => m == (if b then (1 : Int) else 0) * (10 : Int) ^ (e + 1)
  | .arr xs, .arr ys => pyEqL xs ys
  | .tup xs, .tup ys => pyEqL xs ys
  | .table _ es1, .table _ es2 => es1.length == es2.length && pyEqVals es1 es2
  | _, _ => false

/-- Pointwise `==` on sequences. -/
def pyEqL : List TomlValue → List TomlValue → Bool
  | [], [] => true
  | x :: xs, y :: ys => pyEqV x y && pyEqL xs ys
  | _, _ => false

/-- Every key of the first table maps in the second to an equal value. -/
def pyEqVals : Entries → Entries → Bool
  | [], _ => true
  | (k, v) :: es, es2 =>
      (match lookupKV es2 k with
        | some w => pyEqV v w
        | none => false) && pyEqVals es es2

end

/-- Python `==` on whole documents (top-level tables). -/
def pyEqEnt (es1 es2 : Entries) : Bool :=
  es1.length == es2.length && pyEqVals es1 es2

/-- The concrete mapping class instantiated for a decode result's tables:
the plain `dict`, or a caller-defined mapping subclass identified by
name. -/
inductive MapCls where
  | dict
  | custom (name : String)
  deriving DecidableEq, Repr

/-- A constructed `toml.TomlDecoder` instance; its state is the container
class its tables are instantiated from. -/
structure TomlDecoderInst where
  dictCls : MapCls
  deriving DecidableEq, Repr

/-- A decoder class as passable through the `decoder` parameter:
`c.mkDefault` models constructing it with no argument, `c.mkWith d` models
constructing it with a container class. -/
structure TomlDecoderCls where
  mkDefault : TomlDecoderInst
  mkWith : MapCls → TomlDecoderInst

/-- The `toml.TomlDecoder` class itself, the default `decoder` argument:
no-argument construction uses `dict`. -/
def tomlDecoderCls : TomlDecoderCls where
  mkDefault := ⟨.dict⟩
  mkWith := fun d => ⟨d⟩

/-- The `decoder` argument of `dom_toml.loads` and `load`: `None`
(deprecated), a decoder class, or an already-constructed instance. -/
inductive DecoderArg where
  | noneArg
  | cls (c : TomlDecoderCls)
  | inst (d : TomlDecoderInst)

/-- A decode result: the mapping class its tables were instantiated from,
together with the parsed data (or a parse failure). -/
structure PyMapping where
  cls : MapCls
  data : Option Entries

/-- Modelled from the spec: the external `toml.loads` collaborator.  It
parses the text and instantiates every table level from the decoder's
container factory. -/
def toml_loads (s : String) (d : TomlDecoderInst) : PyMapping :=
  { cls := d.dictCls, data := decode s }

/-- The decoder-resolution logic of `dom_toml.loads`
(`src/dom_toml/__init__.py` lines 158-170): `None` falls back to
`toml.TomlDecoder(dict_)` after a deprecation warning; a class is
constructed with no argument when `dict_` is the plain `dict`, and with
`dict_` otherwise; an instance is used as given. -/
def resolveDecoder (dict_ : MapCls) : DecoderArg → TomlDecoderInst
  | .noneArg => ⟨dict_⟩
  | .cls c => if dict_ = MapCls.dict then c.mkDefault else c.mkWith dict_
  | .inst d => d

/-- `dom_toml.loads` (`src/dom_toml/__init__.py` lines 136-174): resolve
the decoder from `dict_` and `decoder`, then delegate to `toml.loads`. -/
def loads (s : String) (dict_ : MapCls) (decoder : DecoderArg) : PyMapping :=
  toml_loads s (resolveDecoder dict_ decoder)

/-- The `filename` argument of `dom_toml.load`, over the argument kinds the
tests exercise: a string path, a `pathlib` path object, an integer, a
list, or a bytes value. -/
inductive PathArg where
  | strPath (s : String)
  | pathObj (s : String)
  | intArg (n : Int)
  | listArg
  | bytesArg (s : String)

/-- A filesystem model: the readable files, as a path-to-contents map. -/
abbrev FileSys := List (String × String)

/-- Errors the load boundary surfaces. -/
inductive LoadErr where
  | fileNotFound (path : String)
  | typeError
  deriving DecidableEq, Repr

/-- Modelled from the spec: `PathPlus(filename).read_text()`, the file
access collaborator of `dom_toml.load`.  A non-string, non-path argument
fails with a TypeError-kind error; a path not naming a readable file fails
with a FileNotFound-kind error. -/
def readTextArg (fs : FileSys) : PathArg → Except LoadErr String
  | .strPath p =>
      match fs.lookup p with
      | some text => .ok text
      | none => .error (.fileNotFound p)
  | .pathObj p =>
      match fs.lookup p with
      | some text => .ok text
      | none => .error (.fileNotFound p)
  | _ => .error .typeError

/-- `dom_toml.load` (`src/dom_toml/__init__.py` lines 193-221): read the
file's text, then delegate to `loads` with the same `dict_` and
`decoder`. -/
def load (fs : FileSys) (filename : PathArg) (dict_ : MapCls) (decoder : DecoderArg) :
    Except LoadErr PyMapping :=
  match readTextArg fs filename with
  | .error e => .error e
  | .ok text => .ok (loads text dict_ decoder)

/-- A node of the object-graph model used for cycle detection: scalars, or
containers holding references (Python object ids) to other nodes.  Unlike
the tree model, a store of nodes can represent the self-referential
structures a Python program can build. -/
inductive GNode where
  | scalar
  | table (refs : List Nat)
  | array (refs : List Nat)
  deriving DecidableEq, Repr

/-- An object store: node `i` is `nodes[i]`. -/
abbrev GStore := List GNode

/-- The outgoing references of a node. -/
def GNode.refs : GNode → List Nat
  | .scalar => []
  | .table rs => rs
  | .array rs => rs

/-- Whether a node is a container (participates in cycle tracking). -/
def GNode.isContainer : GNode → Bool
  | .scalar => false
  | _ => true

/-- Encoder outcomes over the object graph. -/
inductive GErr where
  | cyclic
  | dangling
  | fuelout
  deriving DecidableEq, Repr

mutual

/-- Modelled from the spec: the encoder's traversal over the object graph,
carrying the ids of the container ancestors of the current node.  Meeting
an id already on that path means a table or array contains itself as a
descendant: the traversal stops at once with the ValueError-kind cyclic
error, returning no output.  Fuel bounds the nesting depth only. -/
def gVisit (store : GStore) : Nat → List Nat → Nat → Except GErr Unit
  | 0, _, _ => .error .fuelout
  | fuel + 1, seen, id =>
      if id ∈ seen then .error .cyclic
      else
        match store.get? id with
        | none => .error .dangling
        | some .scalar => .ok ()
        | some (.table rs) => gVisitList store fuel (seen ++ [id]) rs
        | some (.array rs) => gVisitList store fuel (seen ++ [id]) rs
  termination_by fuel _ _ => (fuel, 0)

/-- Visit each referenced node in turn, stopping at the first error. -/
def gVisitList (store : GStore) : Nat → List Nat → List Nat → Except GErr Unit
  | _, _, [] => .ok ()
  | fuel, seen, r :: rs =>
      match gVisit store fuel seen r with
      | .error e => .error e
      | .ok _ => gVisitList store fuel seen rs
  termination_by fuel _ rs => (fuel, rs.length + 1)

end

/-- Modelled from the spec: serializing the object graph rooted at `root`;
only the error behavior is modelled, the text itself being the tree-model
encoder's concern. -/
def gDumps (store : GStore) (root : Nat) : Except GErr Unit :=
  gVisit store (store.length + 1) [] root

/-- One containment step: container node `i` holds a reference to node
`j`. -/
def GStep (store : GStore) (i j : Nat) : Prop :=
  ∃ n, store.get? i = some n ∧ j ∈ n.refs

/-- Node `j` is a descendant of node `i` (one or more containment
steps). -/
def GDesc (store : GStore) : Nat → Nat → Prop := Relation.TransGen (GStep store)

/-- The graph reachable from `root` contains a table or array that is its
own descendant. -/
def GCyclicFrom (store : GStore) (root : Nat) : Prop :=
  ∃ i, (root = i ∨ GDesc store root i) ∧ GDesc store i i

/-- Every reference in the store names a node. -/
def gWf (store : GStore) : Prop :=
  ∀ n ∈ store, ∀ r ∈ n.refs, r < store.length

/-- The object store of the spec's cycle example: node 0 is the table `a`
holding `b`; node 1 is `b`, holding the scalar `4` and itself; node 2 is
the scalar. -/
def gStoreAB : GStore := [.table [1], .table [2, 1], .scalar]

/-- A concrete document exercising every supported value shape: scalars,
arrays, a tuple, an inline-marked table and a nested section table. -/
def sampleDoc : Entries :=
  [("title", .str "x y"), ("n", .int (-3)), ("f", .float 25 1), ("ok", .bool true),
    ("xs", .arr [.int 1, .int 2]), ("tp", .tup [.int 1, .str "a"]),
    ("tbl", .table true [("u", .int 7)]),
    ("sec", .table false [("v", .str "w"), ("inner", .table false [])])]

/-- The tuple-free variant of the sample document. -/
def sampleDocTF : Entries :=
  [("title", .str "x y"), ("n", .int (-3)), ("f", .float 25 1), ("ok", .bool true),
    ("xs", .arr [.int 1, .int 2]),
    ("sec", .table false [("v", .str "w"), ("inner", .table false [])])]

theorem listLtChar_irrefl : ∀ l : List Char, listLtChar l l = false := by
  intro l
  induction l with
  | nil => rfl
  | cons c cs ih => simp [listLtChar, ih]

theorem listLtChar_connex : ∀ a b : List Char, a ≠ b →
    listLtChar a b = true ∨ listLtChar b a = true := by
  intro a
  induction a with
  | nil =>
      intro b hb
      cases b with
      | nil => exact absurd rfl hb
      | cons d ds => left; rfl
  | cons c cs ih =>
      intro b hb
      cases b with
      | nil => right; rfl
      | cons d ds =>
          by_cases hcd : c.toNat < d.toNat
          · left; simp [listLtChar, hcd]
          · by_cases hdc : d.toNat < c.toNat
            · right; simp [listLtChar, hdc]
            · have hc : c = d := by
                have h2 : c.toNat = d.toNat :=
                  Nat.le_antisymm (Nat.le_of_not_lt hdc) (Nat.le_of_not_lt hcd)
                exact Char.ext (UInt32.ext h2)
              subst hc
              have hcs : cs ≠ ds := fun h => hb (by rw [h])
              rcases ih ds hcs with h | h
              · left; simp [listLtChar, h]
              · right; simp [listLtChar, h]

theorem listLtChar_trans : ∀ a b c : List Char, listLtChar a b = true →
    listLtChar b c = true → listLtChar a c = true := by
  intro a
  induction a with
  | nil =>
      intro b c hab hbc
      cases b with
      | nil => exact absurd hab (by simp [listLtChar])
      | cons d ds =>
          cases c with
          | nil => exact absurd hbc (by simp [listLtChar])
          | cons e es => rfl
  | cons x xs ih =>
      intro b c hab hbc
      cases b with
      | nil => exact absurd hab (by simp [listLtChar])
      | cons d ds =>
          cases c with
          | nil => exact absurd hbc (by simp [listLtChar])
          | cons e es =>
              simp only [listLtChar] at hab hbc ⊢
              by_cases hxd : x.toNat < d.toNat
              · by_cases hde : d.toNat < e.toNat
                · simp [Nat.lt_trans hxd hde]
                · by_cases hed : e.toNat < d.toNat
                  · simp [hde, hed] at hbc
                  · have : d.toNat = e.toNat :=
                      Nat.le_antisymm (Nat.le_of_not_lt hed) (Nat.le_of_not_lt hde)
                    simp [this ▸ hxd]
              · by_cases hdx : d.toNat < x.toNat
                · simp [hxd, hdx] at hab
                · have hxd' : x.toNat = d.toNat :=
                    Nat.le_antisymm (Nat.le_of_not_lt hdx) (Nat.le_of_not_lt hxd)
                  by_cases hde : d.toNat < e.toNat
                  · simp [hxd' ▸ hde]
                  · by_cases hed : e.toNat < d.toNat
                    · simp [hde, hed] at hbc
                    · have hde' : d.toNat = e.toNat :=
                        Nat.le_antisymm (Nat.le_of_not_lt hed) (Nat.le_of_not_lt hde)
                      simp only [hxd', hde', Nat.lt_irrefl, if_false]
                      simp [hxd', hde', Nat.lt_irrefl] at hab hbc
                      exact ih ds es hab hbc

theorem strLt_irrefl (a : String) : strLt a a = false := listLtChar_irrefl a.data

theorem strLt_trans {a b c : String} (hab : strLt a b = true) (hbc : strLt b c = true) :
    strLt a c = true := listLtChar_trans a.data b.data c.data hab hbc

theorem strLt_connex {a b : String} (h : a ≠ b) : strLt a b = true ∨ strLt b a = true := by
  refine listLtChar_connex a.data b.data (fun hd => h ?_)
  cases a; cases b; exact congrArg String.mk hd

theorem sortedInsert_cons (s x : String) (xs : List String) :
    sortedInsert s (x :: xs)
      = if s = x then x :: xs
        else if strLt s x then s :: x :: xs
        else x :: sortedInsert s xs := rfl

theorem mem_sortedInsert (a s : String) : ∀ l : List String,
    (a ∈ sortedInsert s l ↔ a = s ∨ a ∈ l) := by
  intro l
  induction l with
  | nil => simp [sortedInsert]
  | cons x xs ih =>
      rw [sortedInsert_cons]
      by_cases hsx : s = x
      · rw [if_pos hsx]
        subst hsx
        constructor
        · intro h; right; exact h
        · rintro (h | h)
          · subst h; exact List.mem_cons_self _ _
          · exact h
      · rw [if_neg hsx]
        by_cases hlt : strLt s x = true
        · rw [if_pos hlt]
          simp only [List.mem_cons]
        · rw [if_neg hlt]
          simp only [List.mem_cons, ih]
          tauto

theorem sorted_sortedInsert (s : String) : ∀ l : List String,
    l.Sorted (fun a b => strLt a b = true) →
    (sortedInsert s l).Sorted (fun a b => strLt a b = true) := by
  intro l
  induction l with
  | nil => intro _; simp [sortedInsert]
  | cons x xs ih =>
      intro hs
      rw [List.sorted_cons] at hs
      obtain ⟨hx, hxs⟩ := hs
      rw [sortedInsert_cons]
      by_cases hsx : s = x
      · rw [if_pos hsx]
        exact List.sorted_cons.mpr ⟨hx, hxs⟩
      · rw [if_neg hsx]
        by_cases hlt : strLt s x = true
        · rw [if_pos hlt]
          refine List.sorted_cons.mpr ⟨?_, List.sorted_cons.mpr ⟨hx, hxs⟩⟩
          intro b hb
          rcases List.mem_cons.mp hb with hb | hb
          · subst hb; exact hlt
          · exact strLt_trans hlt (hx b hb)
        · rw [if_neg hlt]
          refine List.sorted_cons.mpr ⟨?_, ih hxs⟩
          intro b hb
          rcases (mem_sortedInsert b s xs).mp hb with hb | hb
          · subst hb
            rcases strLt_connex hsx with h | h
            · exact absurd h hlt
            · exact h
          · exact hx b hb

theorem sorted_nodup {l : List String} (h : l.Sorted (fun a b => strLt a b = true)) :
    l.Nodup := by
  refine List.Pairwise.imp ?_ h
  intro a b hab he
  subst he
  rw [strLt_irrefl a] at hab
  exact Bool.noConfusion hab

theorem sortDedup_fold_sorted : ∀ (ks : List String) (acc : List String),
    acc.Sorted (fun a b => strLt a b = true) →
    (ks.foldl (fun a s => sortedInsert s a) acc).Sorted (fun a b => strLt a b = true) := by
  intro ks
  induction ks with
  | nil => intro acc h; simpa using h
  | cons k ks ih =>
      intro acc h
      simpa using ih (sortedInsert k acc) (sorted_sortedInsert k acc h)

theorem mem_sortDedup_fold : ∀ (ks : List String) (acc : List String) (s : String),
    (s ∈ ks.foldl (fun a t => sortedInsert t a) acc ↔ s ∈ acc ∨ s ∈ ks) := by
  intro ks
  induction ks with
  | nil => intro acc s; simp
  | cons k ks ih =>
      intro acc s
      simp only [List.foldl_cons, ih, mem_sortedInsert, List.mem_cons]
      tauto

theorem parse_seq_go_strings : ∀ (ks : List String) (p : List String) (i : Nat)
    (acc : List String),
    parse_seq_go p i acc (ks.map TomlValue.str)
      = .ok (ks.foldl (fun a s => sortedInsert s a) acc) := by
  intro ks
  induction ks with
  | nil => intro p i acc; rfl
  | cons k ks ih =>
      intro p i acc
      simp only [List.map_cons, parse_seq_go, assert_indexed_type, isinstanceOf, typeOf]
      simp only [List.foldl_cons]
      exact ih p (i + 1) (sortedInsert k acc)

/-- C5: `construct_path` is a pure function joining string steps with `.`,
wrapping a step containing whitespace (or other ambiguous characters) in
double quotes with no further escaping; in particular
`construct_path ["foo"] = "foo"`, `construct_path ["foo","bar"] =
"foo.bar"`, and `construct_path ["foo","hello world"] =
"foo.\"hello world\""`. -/
theorem construct_path_spec :
    construct_path ["foo"] = "foo"
    ∧ construct_path ["foo", "bar"] = "foo.bar"
    ∧ construct_path ["foo", "hello world"] = "foo.\"hello world\""
    ∧ (∀ steps : List String,
        construct_path steps = String.intercalate "." (steps.map renderPathStep))
    ∧ (∀ s : String, s.data.any (fun c => c.isWhitespace) = true →
        renderPathStep s = "\"" ++ s ++ "\"") := by
  refine ⟨by decide, by decide, by decide, fun steps => rfl, ?_⟩
  intro s hs
  rw [List.any_eq_true] at hs
  obtain ⟨c, hc, hw⟩ := hs
  have hnot : ¬(s ≠ "" ∧ s.data.all isSafeKeyChar) := by
    rintro ⟨-, hall⟩
    rw [List.all_eq_true] at hall
    have hsafe := hall c hc
    have : c = ' ' ∨ c = '\t' ∨ c = '\r' ∨ c = '\n' := by
      revert hw
      simp only [Char.isWhitespace]
      intro hw
      rcases Bool.or_eq_true_iff.mp hw with h | h
      · rcases Bool.or_eq_true_iff.mp h with h | h
        · rcases Bool.or_eq_true_iff.mp h with h | h
          · exact Or.inl (by simpa using h)
          · exact Or.inr (Or.inl (by simpa using h))
        · exact Or.inr (Or.inr (Or.inl (by simpa using h)))
      · exact Or.inr (Or.inr (Or.inr (by simpa using h)))
    rcases this with h | h | h | h <;> subst h <;> exact absurd hsafe (by decide)
  rw [renderPathStep, if_neg hnot]

/-- Witness for C5 at a concrete whitespace-bearing step. -/
theorem construct_path_spec_witness :
    ("hello world").data.any (fun c => c.isWhitespace) = true
    ∧ renderPathStep "hello world" = "\"hello world\"" :=
  ⟨by decide, construct_path_spec.2.2.2.2 "hello world" (by decide)⟩

/-- C4: the keywords and classifiers handlers map every input list of
keyword strings to a sorted, duplicate-free sequence — preserving neither
order nor duplicates — and in particular `["egg","bacon","egg"]` parses to
`["bacon","egg"]`. -/
theorem parse_keywords_sorted_dedup :
    ∀ ks : List String,
      parse_keywords [("keywords", TomlValue.arr (ks.map TomlValue.str))]
          = .ok (sortDedup ks)
      ∧ parse_classifiers [("classifiers", TomlValue.arr (ks.map TomlValue.str))]
          = .ok (sortDedup ks)
      ∧ (sortDedup ks).Sorted (fun a b => strLt a b = true)
      ∧ (sortDedup ks).Nodup
      ∧ (∀ s, s ∈ sortDedup ks ↔ s ∈ ks)
      ∧ parse_keywords
            [("keywords", TomlValue.arr [.str "egg", .str "bacon", .str "egg"])]
          = .ok ["bacon", "egg"] := by
  intro ks
  have hsorted := sortDedup_fold_sorted ks [] (by simp)
  refine ⟨?_, ?_, hsorted, sorted_nodup hsorted, ?_, by rfl⟩
  · show parse_keywords [("keywords", TomlValue.arr (ks.map TomlValue.str))] = _
    simp only [parse_keywords, lookupKV, if_pos rfl]
    exact parse_seq_go_strings ks _ 0 []
  · simp only [parse_classifiers, lookupKV, if_pos rfl]
    exact parse_seq_go_strings ks _ 0 []
  · intro s
    rw [sortDedup, mem_sortDedup_fold]
    simp

/-- C2: each validation primitive either accepts the value or fails with
the exact specified message: `assert_type` and `assert_indexed_type` with
the `Invalid type for '<path>'` wording (the latter appending the index in
bracket form to the dotted path), `assert_value_type` with the
`Invalid value type for '<path>'` wording, all rendering types as the
host's canonical `<class '...'>` form — pinned by the concrete messages the
test suite expects. -/
theorem assert_primitives_spec :
    (∀ v t path, isinstanceOf v t = true → assert_type v t path = .ok ())
    ∧ (∀ v t path, isinstanceOf v t = false →
        assert_type v t path = .error ("Invalid type for '" ++ construct_path path
          ++ "': expected " ++ typeRepr t ++ ", got " ++ typeRepr (typeOf v)))
    ∧ (∀ v t path idx, isinstanceOf v t = true → assert_indexed_type v t path idx = .ok ())
    ∧ (∀ v t path idx, isinstanceOf v t = false →
        assert_indexed_type v t path idx
          = .error ("Invalid type for '" ++ construct_path path ++ "[" ++ toString idx
              ++ "]': expected " ++ typeRepr t ++ ", got " ++ typeRepr (typeOf v)))
    ∧ (∀ v t path, isinstanceOf v t = true → assert_value_type v t path = .ok ())
    ∧ (∀ v t path, isinstanceOf v t = false →
        assert_value_type v t path = .error ("Invalid value type for '"
          ++ construct_path path ++ "': expected " ++ typeRepr t ++ ", got "
          ++ typeRepr (typeOf v)))
    ∧ assert_indexed_type (.int 1) .pystr ["project", "keywords"] 0
        = .error "Invalid type for 'project.keywords[0]': expected <class 'str'>, got <class 'int'>"
    ∧ assert_type (.arr [.int 1]) .pystr ["project", "description"]
        = .error "Invalid type for 'project.description': expected <class 'str'>, got <class 'list'>"
    ∧ assert_value_type (.int 1234) .pystr ["project", "urls", "foo"]
        = .error "Invalid value type for 'project.urls.foo': expected <class 'str'>, got <class 'int'>" := by
  refine ⟨?_, ?_, ?_, ?_, ?_, ?_, by rfl, by rfl, by rfl⟩
  · intro v t path h; rw [assert_type, if_pos h]
  · intro v t path h; rw [assert_type, if_neg (by rw [h]; exact Bool.false_ne_true)]
  · intro v t path idx h; rw [assert_indexed_type, if_pos h]
  · intro v t path idx h; rw [assert_indexed_type, if_neg (by rw [h]; exact Bool.false_ne_true)]
  · intro v t path h; rw [assert_value_type, if_pos h]
  · intro v t path h; rw [assert_value_type, if_neg (by rw [h]; exact Bool.false_ne_true)]

/-- Witness for C2: the primitives applied at concrete inputs on both the
accepting and the failing side. -/
theorem assert_primitives_spec_witness :
    assert_type (.str "x") .pystr ["project", "description"] = .ok ()
    ∧ assert_type (.int 5) .pystr ["project", "description"]
        = .error "Invalid type for 'project.description': expected <class 'str'>, got <class 'int'>"
    ∧ assert_indexed_type (.bool true) .pystr ["project", "classifiers"] 2
        = .error "Invalid type for 'project.classifiers[2]': expected <class 'str'>, got <class 'bool'>"
    ∧ assert_value_type (.table false []) .pystr ["project", "urls", "home"]
        = .error "Invalid value type for 'project.urls.home': expected <class 'str'>, got <class 'dict'>" :=
  ⟨assert_primitives_spec.1 (.str "x") .pystr ["project", "description"] (by decide),
    by
      have h := assert_primitives_spec.2.1 (.int 5) .pystr ["project", "description"] (by decide)
      rw [h]; rfl,
    by
      have h := assert_primitives_spec.2.2.2.1 (.bool true) .pystr
        ["project", "classifiers"] 2 (by decide)
      rw [h]; rfl,
    by
      have h := assert_primitives_spec.2.2.2.2.2.1 (.table false []) .pystr
        ["project", "urls", "home"] (by decide)
      rw [h]; rfl⟩

/-- Helper for C6: a key absent from the input table never acquires an
entry in a successful schema-parse result. -/
theorem parseSchema_absent_aux : ∀ (schema : Schema) (config : Entries) (k : String)
    (r : Entries), lookupKV config k = none → parseSchema schema config = .ok r →
    lookupKV r k = none := by
  intro schema
  induction schema with
  | nil =>
      intro config k r _ hp
      cases hp
      rfl
  | cons e rest ih =>
      intro config k r hk hp
      obtain ⟨k', hnd⟩ := e
      rw [parseSchema] at hp
      by_cases hpres : (lookupKV config k').isSome = true
      · rw [if_pos hpres] at hp
        cases hh : hnd config with
        | error e => rw [hh] at hp; cases hp
        | ok v =>
            rw [hh] at hp
            cases hr : parseSchema rest config with
            | error e => rw [hr] at hp; cases hp
            | ok r' =>
                rw [hr] at hp
                cases hp
                have hkk : k' ≠ k := by
                  intro he
                  rw [he, hk] at hpres
                  exact Bool.noConfusion hpres
                rw [lookupKV, if_neg hkk]
                exact ih config k r' hk hr
      · rw [if_neg hpres] at hp
        exact ih config k r hk hp

/-- C6: a key declared in the schema but absent from the input table is
skipped: when every declared key is absent the parse succeeds with an
empty result, and an absent key never acquires an entry in a successful
result. -/
theorem parseSchema_skips_absent :
    (∀ (schema : Schema) (config : Entries),
        (∀ k ∈ schema.map Prod.fst, lookupKV config k = none) →
        parseSchema schema config = .ok [])
    ∧ (∀ (schema : Schema) (config : Entries) (k : String) (r : Entries),
        k ∈ schema.map Prod.fst → lookupKV config k = none →
        parseSchema schema config = .ok r → lookupKV r k = none) := by
  constructor
  · intro schema
    induction schema with
    | nil => intro config h; rfl
    | cons e rest ih =>
        intro config h
        obtain ⟨k, hnd⟩ := e
        have hk : lookupKV config k = none := h k (by simp)
        rw [parseSchema, hk]
        simp only [Option.isSome_none, Bool.false_eq_true, if_false]
        exact ih config (fun k' hk' => h k' (by simp [hk']))
  · intro schema config k r _ hk hp
    exact parseSchema_absent_aux schema config k r hk hp

/-- Witness for C6: a schema declaring `description` over a table lacking
it parses to a result with no `description` entry and raises nothing. -/
theorem parseSchema_skips_absent_witness :
    parseSchema [("description", fun _ => .ok (.int 0))] [("name", .str "spam")] = .ok []
    ∧ lookupKV [] "description" = none :=
  have h1 : parseSchema [("description", fun _ => .ok (.int 0))] [("name", .str "spam")]
      = .ok [] :=
    parseSchema_skips_absent.1 [("description", fun _ => .ok (.int 0))]
      [("name", .str "spam")] (by intro k hk; simp at hk; subst hk; rfl)
  ⟨h1, parseSchema_skips_absent.2 [("description", fun _ => .ok (.int 0))]
      [("name", .str "spam")] "description" [] (by simp) rfl h1⟩

/-- C8: `load` fails with a FileNotFound-kind error whenever the path does
not resolve to a readable file, and with a TypeError-kind error whenever
the filename argument is not string-like or path-like. -/
theorem load_error_spec :
    (∀ (fs : FileSys) (p : String) (dict_ : MapCls) (dec : DecoderArg),
        fs.lookup p = none →
        load fs (.strPath p) dict_ dec = .error (.fileNotFound p))
    ∧ (∀ (fs : FileSys) (p : String) (dict_ : MapCls) (dec : DecoderArg),
        fs.lookup p = none →
        load fs (.pathObj p) dict_ dec = .error (.fileNotFound p))
    ∧ (∀ (fs : FileSys) (n : Int) (dict_ : MapCls) (dec : DecoderArg),
        load fs (.intArg n) dict_ dec = .error .typeError)
    ∧ (∀ (fs : FileSys) (dict_ : MapCls) (dec : DecoderArg),
        load fs .listArg dict_ dec = .error .typeError)
    ∧ (∀ (fs : FileSys) (b : String) (dict_ : MapCls) (dec : DecoderArg),
        load fs (.bytesArg b) dict_ dec = .error .typeError) := by
  refine ⟨?_, ?_, ?_, ?_, ?_⟩
  · intro fs p dict_ dec h
    rw [load, readTextArg, h]
  · intro fs p dict_ dec h
    rw [load, readTextArg, h]
  · intro fs n dict_ dec; rfl
  · intro fs dict_ dec; rfl
  · intro fs b dict_ dec; rfl

/-- Witness for C8: loading a missing file and a non-path argument on a
concrete filesystem. -/
theorem load_error_spec_witness :
    load [("test.toml", "")] (.strPath "nonexist.toml") .dict (.cls tomlDecoderCls)
        = .error (.fileNotFound "nonexist.toml")
    ∧ load [("test.toml", "")] (.intArg 2) .dict (.cls tomlDecoderCls)
        = .error .typeError :=
  ⟨load_error_spec.1 [("test.toml", "")] "nonexist.toml" .dict (.cls tomlDecoderCls) (by decide),
    load_error_spec.2.2.1 [("test.toml", "")] 2 .dict (.cls tomlDecoderCls)⟩

/-- C9: with the default decoder class, the mapping `loads` returns is an
instance of the caller-supplied `dict_` class, for every input text and
every mapping class. -/
theorem loads_dict_cls_spec :
    ∀ (s : String) (d : MapCls),
      (loads s d (.cls tomlDecoderCls)).cls = d := by
  intro s d
  by_cases hd : d = MapCls.dict
  · subst hd; rfl
  · rw [loads, resolveDecoder, if_neg hd]; rfl

/-- C10: an already-constructed decoder instance makes `loads` ignore
`dict_` entirely — the result is the same for any two `dict_` arguments
and its mapping class is the instance's own — while a decoder class is
constructed with no argument exactly when `dict_` is the plain `dict`, and
from `dict_` otherwise. -/
theorem loads_decoder_inst_spec :
    (∀ (s : String) (d1 d2 : MapCls) (inst : TomlDecoderInst),
        loads s d1 (.inst inst) = loads s d2 (.inst inst))
    ∧ (∀ (s : String) (d : MapCls) (inst : TomlDecoderInst),
        (loads s d (.inst inst)).cls = inst.dictCls)
    ∧ (∀ (c : TomlDecoderCls),
        resolveDecoder MapCls.dict (.cls c) = c.mkDefault)
    ∧ (∀ (c : TomlDecoderCls) (d : MapCls), d ≠ MapCls.dict →
        resolveDecoder d (.cls c) = c.mkWith d) := by
  refine ⟨fun s d1 d2 inst => rfl, fun s d inst => rfl, fun c => rfl, ?_⟩
  intro c d hd
  rw [resolveDecoder, if_neg hd]

/-- Witness for C10 at a concrete custom class and decoder instance. -/
theorem loads_decoder_inst_spec_witness :
    loads "" (MapCls.custom "TestDict") (.inst ⟨MapCls.custom "OtherDict"⟩)
        = loads "" MapCls.dict (.inst ⟨MapCls.custom "OtherDict"⟩)
    ∧ (loads "" MapCls.dict (.inst ⟨MapCls.custom "OtherDict"⟩)).cls
        = MapCls.custom "OtherDict"
    ∧ resolveDecoder (MapCls.custom "TestDict") (.cls tomlDecoderCls)
        = tomlDecoderCls.mkWith (MapCls.custom "TestDict") :=
  ⟨loads_decoder_inst_spec.1 "" (MapCls.custom "TestDict") MapCls.dict ⟨MapCls.custom "OtherDict"⟩,
    loads_decoder_inst_spec.2.1 "" MapCls.dict ⟨MapCls.custom "OtherDict"⟩,
    loads_decoder_inst_spec.2.2.2 tomlDecoderCls (MapCls.custom "TestDict") (by decide)⟩

/-- A containment step out of a node determines membership in its refs. -/
theorem gStep_refs {store : GStore} {i j : Nat} {n : GNode}
    (hget : store.get? i = some n) (hstep : GStep store i j) : j ∈ n.refs := by
  obtain ⟨m, hm, hj⟩ := hstep
  rw [hget] at hm
  cases hm
  exact hj

/-- A successful graph visit guarantees no node reachable from the start
(reflexively) lies on the ancestor path or on a cycle. -/
theorem gVisit_ok_no_cycle (store : GStore) : ∀ fuel seen id,
    gVisit store fuel seen id = .ok () →
    ∀ j, Relation.ReflTransGen (GStep store) id j →
      j ∉ seen ∧ ¬GDesc store j j := by
  intro fuel
  induction fuel with
  | zero => intro seen id h; simp [gVisit] at h
  | succ fuel ih =>
      have ihl : ∀ seen rs, gVisitList store fuel seen rs = .ok () →
          ∀ r ∈ rs, ∀ j, Relation.ReflTransGen (GStep store) r j →
            j ∉ seen ∧ ¬GDesc store j j := by
        intro seen rs
        induction rs with
        | nil => intro _ r hr; simp at hr
        | cons r0 rs ihrs =>
            intro hok r hr j hj
            rw [gVisitList] at hok
            cases heq : gVisit store fuel seen r0 with
            | error e => rw [heq] at hok; cases hok
            | ok u =>
                rw [heq] at hok
                rcases List.mem_cons.mp hr with hr0 | hrs
                · subst hr0; exact ih seen r heq j hj
                · exact ihrs hok r hrs j hj
      intro seen id hok j hj
      rw [gVisit] at hok
      by_cases hid : id ∈ seen
      · rw [if_pos hid] at hok; cases hok
      · rw [if_neg hid] at hok
        cases hget : store.get? id with
        | none => rw [hget] at hok; cases hok
        | some n =>
            rw [hget] at hok
            cases n with
            | scalar =>
                rcases hj.cases_head with hj0 | ⟨k, hk, _⟩
                · subst hj0
                  refine ⟨hid, fun hd => ?_⟩
                  obtain ⟨k, hk, -⟩ := Relation.TransGen.head'_iff.mp hd
                  have : k ∈ GNode.refs .scalar := gStep_refs hget hk
                  simp [GNode.refs] at this
                · have : k ∈ GNode.refs .scalar := gStep_refs hget hk
                  simp [GNode.refs] at this
            | table rs =>
                rcases hj.cases_head with hj0 | ⟨k, hk, hkj⟩
                · subst hj0
                  refine ⟨hid, fun hd => ?_⟩
                  obtain ⟨k, hk, hkj⟩ := Relation.TransGen.head'_iff.mp hd
                  have hkrs : k ∈ GNode.refs (.table rs) := gStep_refs hget hk
                  have h5 := (ihl _ rs hok k hkrs id hkj).1
                  simp at h5
                · have hkrs : k ∈ GNode.refs (.table rs) := gStep_refs hget hk
                  have h2 := ihl _ rs hok k hkrs j hkj
                  exact ⟨fun hs => h2.1 (List.mem_append_left _ hs), h2.2⟩
            | array rs =>
                rcases hj.cases_head with hj0 | ⟨k, hk, hkj⟩
                · subst hj0
                  refine ⟨hid, fun hd => ?_⟩
                  obtain ⟨k, hk, hkj⟩ := Relation.TransGen.head'_iff.mp hd
                  have hkrs : k ∈ GNode.refs (.array rs) := gStep_refs hget hk
                  have h5 := (ihl _ rs hok k hkrs id hkj).1
                  simp at h5
                · have hkrs : k ∈ GNode.refs (.array rs) := gStep_refs hget hk
                  have h2 := ihl _ rs hok k hkrs j hkj
                  exact ⟨fun hs => h2.1 (List.mem_append_left _ hs), h2.2⟩

/-- A duplicate-free list of naturals below a bound is no longer than the
bound. -/
theorem nodup_bounded_length {l : List Nat} {L : Nat} (hnd : l.Nodup)
    (hb : ∀ s ∈ l, s < L) : l.length ≤ L := by
  have hsub : l.toFinset ⊆ Finset.range L := by
    intro x hx
    rw [Finset.mem_range]
    exact hb x (List.mem_toFinset.mp hx)
  have := Finset.card_le_card hsub
  rwa [List.toFinset_card_of_nodup hnd, Finset.card_range] at this

/-- With well-formed references, a valid start and depth fuel beyond the
number of distinct nodes, the graph visit returns success or the cyclic
error — never fuel exhaustion or a dangling reference. -/
theorem gVisit_ok_or_cyclic (store : GStore) (hwf : gWf store) : ∀ fuel seen id,
    seen.Nodup → (∀ s ∈ seen, s < store.length) → id < store.length →
    store.length + 1 ≤ fuel + seen.length →
    gVisit store fuel seen id = .ok () ∨ gVisit store fuel seen id = .error .cyclic := by
  intro fuel
  induction fuel with
  | zero =>
      intro seen id hnd hb _ harith
      exact absurd (nodup_bounded_length hnd hb) (by omega)
  | succ fuel ih =>
      have ihl : ∀ seen rs, seen.Nodup → (∀ s ∈ seen, s < store.length) →
          (∀ r ∈ rs, r < store.length) →
          store.length + 1 ≤ fuel + seen.length →
          gVisitList store fuel seen rs = .ok ()
            ∨ gVisitList store fuel seen rs = .error .cyclic := by
        intro seen rs hnd hb hrs harith
        induction rs with
        | nil => left; simp [gVisitList]
        | cons r0 rs ihrs =>
            have h0 := ih seen r0 hnd hb (hrs r0 (by simp)) harith
            rcases h0 with h0 | h0
            · rw [gVisitList, h0]
              exact ihrs (fun r hr => hrs r (by simp [hr]))
            · right; rw [gVisitList, h0]
      intro seen id hnd hb hid harith
      rw [gVisit]
      by_cases hin : id ∈ seen
      · right; rw [if_pos hin]
      · rw [if_neg hin]
        cases hget : store.get? id with
        | none =>
            have := List.get?_eq_none.mp hget
            omega
        | some n =>
            have hmem : n ∈ store := List.get?_mem hget
            have hrefs : ∀ r ∈ n.refs, r < store.length := hwf n hmem
            have hnd' : (seen ++ [id]).Nodup := by
              simp [List.nodup_append, hnd, hin]
            have hb' : ∀ s ∈ seen ++ [id], s < store.length := by
              intro s hs
              rcases List.mem_append.mp hs with hs | hs
              · exact hb s hs
              · simp at hs; omega
            have harith' : store.length + 1 ≤ fuel + (seen ++ [id]).length := by
              simp [List.length_append]; omega
            cases n with
            | scalar => left; rfl
            | table rs => exact ihl (seen ++ [id]) rs hnd' hb' hrefs harith'
            | array rs => exact ihl (seen ++ [id]) rs hnd' hb' hrefs harith'

/-- C3: for every table or array that directly or transitively contains
itself as a descendant, encoding raises the ValueError-kind cyclic error
rather than recursing unboundedly, and returns no (partial) output. -/
theorem gDumps_cyclic (store : GStore) (root : Nat) (hwf : gWf store)
    (hroot : root < store.length) (hcyc : GCyclicFrom store root) :
    gDumps store root = .error .cyclic := by
  have hoc := gVisit_ok_or_cyclic store hwf (store.length + 1) [] root
    List.nodup_nil (by intro s hs; cases hs) hroot (by simp)
  rcases hoc with hok | hc
  · exfalso
    obtain ⟨i, hreach, hdesc⟩ := hcyc
    have hreach' : Relation.ReflTransGen (GStep store) root i := by
      rcases hreach with h | h
      · subst h; exact Relation.ReflTransGen.refl
      · exact h.to_reflTransGen
    exact (gVisit_ok_no_cycle store (store.length + 1) [] root hok i hreach').2 hdesc
  · exact hc

/-- Witness for C3: the spec's example `a = {b = {c = 4, self = b}}`; both
`dumps(a)` and `dumps(a["b"])` raise the cyclic error. -/
theorem gDumps_cyclic_witness :
    gWf gStoreAB
    ∧ GCyclicFrom gStoreAB 0 ∧ GCyclicFrom gStoreAB 1
    ∧ gDumps gStoreAB 0 = .error .cyclic
    ∧ gDumps gStoreAB 1 = .error .cyclic :=
  have hwf : gWf gStoreAB := by unfold gWf; decide
  have hc0 : GCyclicFrom gStoreAB 0 :=
    ⟨1, Or.inr (Relation.TransGen.single ⟨.table [1], rfl, by decide⟩),
      Relation.TransGen.single ⟨.table [2, 1], rfl, by decide⟩⟩
  have hc1 : GCyclicFrom gStoreAB 1 :=
    ⟨1, Or.inl rfl, Relation.TransGen.single ⟨.table [2, 1], rfl, by decide⟩⟩
  ⟨hwf, hc0, hc1,
    gDumps_cyclic gStoreAB 0 hwf (by decide) hc0,
    gDumps_cyclic gStoreAB 1 hwf (by decide) hc1⟩

theorem charOfNat_toNat {n : Nat} (h : n < 55296) : (Char.ofNat n).toNat = n := by
  have hv : Nat.isValidChar n := Or.inl h
  simp [Char.ofNat, hv, Char.ofNatAux, Char.toNat, UInt32.toNat, BitVec.toNat_ofNatLt]

theorem digitChar_toNat {d : Nat} (h : d < 10) : (Char.ofNat (48 + d)).toNat = 48 + d :=
  charOfNat_toNat (by omega)

theorem digitChar_isDigit {d : Nat} (h : d < 10) : isDigitChar (Char.ofNat (48 + d)) = true := by
  simp [isDigitChar, digitChar_toNat h]
  omega

theorem digitChar_val {d : Nat} (h : d < 10) : digitVal (Char.ofNat (48 + d)) = d := by
  simp [digitVal, digitChar_toNat h]

theorem natDigitsRev_digits : ∀ n, ∀ c ∈ natDigitsRev n, isDigitChar c = true := by
  intro n
  induction n using Nat.strong_induction_on with
  | _ n ih =>
      intro c hc
      rw [natDigitsRev] at hc
      by_cases h0 : n = 0
      · simp [h0] at hc
      · rw [dif_neg h0] at hc
        rcases List.mem_cons.mp hc with hc | hc
        · subst hc; exact digitChar_isDigit (Nat.mod_lt n (by omega))
        · exact ih (n / 10) (Nat.div_lt_self (Nat.pos_of_ne_zero h0) (by omega)) c hc

theorem natToChars_digits : ∀ n, ∀ c ∈ natToChars n, isDigitChar c = true := by
  intro n c hc
  rw [natToChars] at hc
  by_cases h0 : n = 0
  · rw [if_pos h0] at hc
    simp at hc
    subst hc
    decide
  · rw [if_neg h0] at hc
    exact natDigitsRev_digits n c (List.mem_reverse.mp hc)

theorem natToChars_ne_nil (n : Nat) : natToChars n ≠ [] := by
  rw [natToChars]
  by_cases h0 : n = 0
  · simp [h0]
  · rw [if_neg h0]
    rw [natDigitsRev, dif_neg h0]
    simp

theorem charsToNat_append_one (xs : List Char) (c : Char) :
    charsToNat (xs ++ [c]) = 10 * charsToNat xs + digitVal c := by
  simp [charsToNat, List.foldl_append]

theorem charsToNat_natDigitsRev : ∀ n, charsToNat (natDigitsRev n).reverse = n := by
  intro n
  induction n using Nat.strong_induction_on with
  | _ n ih =>
      by_cases h0 : n = 0
      · subst h0
        rw [natDigitsRev]
        simp [charsToNat]
      · rw [natDigitsRev, dif_neg h0]
        rw [List.reverse_cons, charsToNat_append_one]
        rw [ih (n / 10) (Nat.div_lt_self (Nat.pos_of_ne_zero h0) (by omega))]
        rw [digitChar_val (Nat.mod_lt n (by omega))]
        omega

theorem charsToNat_natToChars (n : Nat) : charsToNat (natToChars n) = n := by
  rw [natToChars]
  by_cases h0 : n = 0
  · subst h0; rfl
  · rw [if_neg h0]
    exact charsToNat_natDigitsRev n

theorem charsToNat_zeros (k : Nat) (cs : List Char) :
    charsToNat (List.replicate k '0' ++ cs) = charsToNat cs := by
  induction k with
  | zero => simp
  | succ k ih =>
      rw [List.replicate_succ, List.cons_append]
      show charsToNat (List.replicate k '0' ++ cs) = _
      exact ih

theorem span_append {p : Char → Bool} : ∀ (ds rest : List Char),
    (∀ c ∈ ds, p c = true) → (∀ c, rest.head? = some c → p c = false) →
    (ds ++ rest).takeWhile p = ds ∧ (ds ++ rest).dropWhile p = rest := by
  intro ds
  induction ds with
  | nil =>
      intro rest _ hrest
      cases rest with
      | nil => exact ⟨rfl, rfl⟩
      | cons c cs =>
          have hpc := hrest c rfl
          constructor
          · exact List.takeWhile_cons_of_neg (by simp [hpc])
          · exact List.dropWhile_cons_of_neg (by simp [hpc])
  | cons d ds ih =>
      intro rest hds hrest
      have hd : p d = true := hds d (by simp)
      have hih := ih rest (fun c hc => hds c (by simp [hc])) hrest
      constructor
      · rw [List.cons_append, List.takeWhile_cons_of_pos (by simp [hd]), hih.1]
      · rw [List.cons_append, List.dropWhile_cons_of_pos (by simp [hd]), hih.2]

theorem parseNumCore_int (n : Nat) (rest : List Char)
    (hb : ∀ c, rest.head? = some c → isDigitChar c = false ∧ c ≠ '.') :
    parseNumCore (natToChars n ++ rest) = some (n, 0, false, rest) := by
  have hsp := span_append (natToChars n) rest (natToChars_digits n)
    (fun c hc => (hb c hc).1)
  rw [parseNumCore]
  simp only [hsp.1, hsp.2]
  rw [if_neg (natToChars_ne_nil n)]
  have hdot : rest.head? ≠ some '.' := by
    cases hrest : rest with
    | nil => simp
    | cons c cs =>
        have := (hb c (by rw [hrest]; rfl)).2
        simp [this]
  rw [if_neg hdot, charsToNat_natToChars]

theorem isDigit_ne {c : Char} (h : isDigitChar c = true) :
    c ≠ '-' ∧ c ≠ '.' ∧ c ≠ '"' ∧ c ≠ '[' ∧ c ≠ ']' ∧ c ≠ '\x7b' ∧ c ≠ '\x7d'
      ∧ c ≠ ',' ∧ c ≠ ' ' ∧ c ≠ '\t' ∧ c ≠ '\n' ∧ c ≠ 't' ∧ c ≠ 'f' ∧ c ≠ '=' := by
  refine ⟨?_, ?_, ?_, ?_, ?_, ?_, ?_, ?_, ?_, ?_, ?_, ?_, ?_, ?_⟩ <;>
    (intro he; subst he; exact absurd h (by decide))

theorem floatBody_spec (a e : Nat) :
    ∃ ip fp, floatBody a e = ip ++ '.' :: fp
      ∧ (∀ c ∈ ip, isDigitChar c = true) ∧ (∀ c ∈ fp, isDigitChar c = true)
      ∧ ip ≠ [] ∧ fp.length = e + 1
      ∧ charsToNat (ip ++ fp) = a := by
  have hdl : (natToChars a).length ≥ 1 :=
    List.length_pos.mpr (natToChars_ne_nil a)
  set d := natToChars a with hd
  set pad := List.replicate (e + 2 - d.length) '0' ++ d with hpad
  have hpaddig : ∀ c ∈ pad, isDigitChar c = true := by
    intro c hc
    rcases List.mem_append.mp hc with hc | hc
    · rw [List.eq_of_mem_replicate hc]; decide
    · exact natToChars_digits a c hc
  have hL : pad.length = (e + 2 - d.length) + d.length := by
    simp [hpad]
  have hLge : pad.length ≥ e + 2 := by omega
  refine ⟨pad.take (pad.length - (e + 1)), pad.drop (pad.length - (e + 1)), rfl,
    fun c hc => hpaddig c (List.take_subset _ _ hc),
    fun c hc => hpaddig c (List.drop_subset _ _ hc), ?_, ?_, ?_⟩
  · have : (pad.take (pad.length - (e + 1))).length = pad.length - (e + 1) := by
      rw [List.length_take]
      omega
    intro hnil
    rw [hnil] at this
    simp at this
    omega
  · rw [List.length_drop]
    omega
  · rw [List.take_append_drop]
    rw [hpad, charsToNat_zeros, hd, charsToNat_natToChars]

theorem parseNumCore_float (a e : Nat) (rest : List Char)
    (hb : ∀ c, rest.head? = some c → isDigitChar c = false ∧ c ≠ '.') :
    parseNumCore (floatBody a e ++ rest) = some (a, e, true, rest) := by
  obtain ⟨ip, fp, hfb, hip, hfp, hipne, hfplen, hval⟩ := floatBody_spec a e
  rw [hfb]
  have hsp1 := span_append ip ('.' :: (fp ++ rest)) hip
    (fun c hc => by
      injection hc with hc
      subst hc
      decide)
  have hsp2 := span_append fp rest hfp (fun c hc => (hb c hc).1)
  rw [parseNumCore]
  rw [List.append_assoc, List.cons_append]
  simp only [hsp1.1, hsp1.2]
  have hcond : ('.' :: (fp ++ rest)).head? = some '.' := rfl
  rw [if_neg hipne, if_pos hcond]
  simp only [List.tail_cons, hsp2.1, hsp2.2]
  rw [if_neg (by intro hnil; rw [hnil] at hfplen; simp at hfplen)]
  rw [hval, hfplen]
  simp

theorem parseNumber_pos_head {cs : List Char}
    (h : ∀ c, cs.head? = some c → c ≠ '-') :
    parseNumber cs = (parseNumCore cs).map (numFromCore false) := by
  cases cs with
  | nil => rfl
  | cons c cs' =>
      have hc := h c rfl
      rw [parseNumber.eq_def]
      split
      · rename_i heq
        injection heq with h1 _
        exact absurd h1 hc
      · rfl

theorem parseNumber_int (m : Int) (rest : List Char)
    (hb : ∀ c, rest.head? = some c → isDigitChar c = false ∧ c ≠ '.') :
    parseNumber (intToChars m ++ rest) = some (.int m, rest) := by
  rw [intToChars]
  by_cases hm : m < 0
  · rw [if_pos hm]
    show parseNumber ('-' :: (natToChars m.natAbs ++ rest)) = _
    rw [parseNumber]
    rw [parseNumCore_int m.natAbs rest hb]
    simp [numFromCore, Int.ofNat_natAbs_of_nonpos (Int.le_of_lt hm)]
  · rw [if_neg hm]
    simp only [List.nil_append]
    rw [parseNumber_pos_head]
    · rw [parseNumCore_int m.natAbs rest hb]
      simp [numFromCore, Int.natAbs_of_nonneg (Int.not_lt.mp hm)]
    · intro c hc
      cases hnc : natToChars m.natAbs with
      | nil => exact absurd hnc (natToChars_ne_nil m.natAbs)
      | cons c0 cs0 =>
          rw [hnc] at hc
          simp at hc
          subst hc
          exact (isDigit_ne (natToChars_digits m.natAbs c0 (by rw [hnc]; simp))).1

theorem parseNumber_float (m : Int) (e : Nat) (rest : List Char)
    (hb : ∀ c, rest.head? = some c → isDigitChar c = false ∧ c ≠ '.') :
    parseNumber (floatToChars m e ++ rest) = some (.float m e, rest) := by
  rw [floatToChars]
  by_cases hm : m < 0
  · rw [if_pos hm]
    show parseNumber ('-' :: (floatBody m.natAbs e ++ rest)) = _
    rw [parseNumber]
    rw [parseNumCore_float m.natAbs e rest hb]
    simp [numFromCore, Int.ofNat_natAbs_of_nonpos (Int.le_of_lt hm)]
  · rw [if_neg hm]
    simp only [List.nil_append]
    obtain ⟨ip, fp, hfb, hip, _, hipne, _, _⟩ := floatBody_spec m.natAbs e
    rw [parseNumber_pos_head]
    · rw [parseNumCore_float m.natAbs e rest hb]
      simp [numFromCore, Int.natAbs_of_nonneg (Int.not_lt.mp hm)]
    · intro c hc
      rw [hfb] at hc
      cases hnc : ip with
      | nil => exact absurd hnc hipne
      | cons c0 cs0 =>
          rw [hnc] at hc
          simp at hc
          subst hc
          exact (isDigit_ne (hip c0 (by rw [hnc]; simp))).1

theorem hexDigit_spec {x : Nat} (h : x < 16) :
    isHexChar (hexDigit x) = true ∧ hexVal (hexDigit x) = x := by
  rw [hexDigit]
  by_cases h10 : x < 10
  · rw [if_pos h10]
    have ht : (Char.ofNat (48 + x)).toNat = 48 + x := charOfNat_toNat (by omega)
    constructor
    · rw [isHexChar, ht]
      simp only [Bool.or_eq_true, Bool.and_eq_true, decide_eq_true_eq]
      omega
    · rw [hexVal, ht, if_pos (by omega)]
      omega
  · rw [if_neg h10]
    have ht : (Char.ofNat (87 + x)).toNat = 87 + x := charOfNat_toNat (by omega)
    constructor
    · rw [isHexChar, ht]
      simp only [Bool.or_eq_true, Bool.and_eq_true, decide_eq_true_eq]
      omega
    · rw [hexVal, ht, if_neg (by omega)]
      omega

theorem hex4_spec {n : Nat} (h : n < 65536) :
    ∃ a b c d, hex4 n = [a, b, c, d]
      ∧ isHexChar a = true ∧ isHexChar b = true ∧ isHexChar c = true ∧ isHexChar d = true
      ∧ 4096 * hexVal a + 256 * hexVal b + 16 * hexVal c + hexVal d = n := by
  have h1 := hexDigit_spec (x := n / 4096 % 16) (Nat.mod_lt _ (by omega))
  have h2 := hexDigit_spec (x := n / 256 % 16) (Nat.mod_lt _ (by omega))
  have h3 := hexDigit_spec (x := n / 16 % 16) (Nat.mod_lt _ (by omega))
  have h4 := hexDigit_spec (x := n % 16) (Nat.mod_lt _ (by omega))
  exact ⟨_, _, _, _, rfl, h1.1, h2.1, h3.1, h4.1, by
    rw [h1.2, h2.2, h3.2, h4.2]
    omega⟩

theorem parseStrBody_escape : ∀ (cs rest : List Char),
    parseStrBody (escapeChars cs ++ '"' :: rest) = some (cs, rest) := by
  intro cs
  induction cs with
  | nil =>
      intro rest
      show parseStrBody ('"' :: rest) = _
      rfl
  | cons c cs ih =>
      intro rest
      show parseStrBody (escChar c ++ escapeChars cs ++ '"' :: rest) = _
      rw [escChar]
      by_cases h1 : c = '\\'
      · subst h1
        rw [if_pos rfl]
        show (parseStrBody (escapeChars cs ++ '"' :: rest)).map
          (fun p => ('\\' :: p.1, p.2)) = _
        rw [ih]
        rfl
      next =>
      rw [if_neg h1]
      by_cases h2 : c = '"'
      · subst h2
        rw [if_pos rfl]
        show (parseStrBody (escapeChars cs ++ '"' :: rest)).map
          (fun p => ('"' :: p.1, p.2)) = _
        rw [ih]
        rfl
      next =>
      rw [if_neg h2]
      by_cases h3 : c = '\x08'
      · subst h3
        rw [if_pos rfl]
        show (parseStrBody (escapeChars cs ++ '"' :: rest)).map
          (fun p => ('\x08' :: p.1, p.2)) = _
        rw [ih]
        rfl
      next =>
      rw [if_neg h3]
      by_cases h4 : c = '\t'
      · subst h4
        rw [if_pos rfl]
        show (parseStrBody (escapeChars cs ++ '"' :: rest)).map
          (fun p => ('\t' :: p.1, p.2)) = _
        rw [ih]
        rfl
      next =>
      rw [if_neg h4]
      by_cases h5 : c = '\n'
      · subst h5
        rw [if_pos rfl]
        show (parseStrBody (escapeChars cs ++ '"' :: rest)).map
          (fun p => ('\n' :: p.1, p.2)) = _
        rw [ih]
        rfl
      next =>
      rw [if_neg h5]
      by_cases h6 : c = '\x0c'
      · subst h6
        rw [if_pos rfl]
        show (parseStrBody (escapeChars cs ++ '"' :: rest)).map
          (fun p => ('\x0c' :: p.1, p.2)) = _
        rw [ih]
        rfl
      next =>
      rw [if_neg h6]
      by_cases h7 : c = '\r'
      · subst h7
        rw [if_pos rfl]
        show (parseStrBody (escapeChars cs ++ '"' :: rest)).map
          (fun p => ('\r' :: p.1, p.2)) = _
        rw [ih]
        rfl
      next =>
      rw [if_neg h7]
      by_cases h8 : c.toNat < 32
      · rw [if_pos h8]
        obtain ⟨a, b, c', d, hh, ha, hb', hc, hd, hval⟩ :=
          hex4_spec (n := c.toNat) (by omega)
        rw [hh]
        show (if isHexChar a && isHexChar b && isHexChar c' && isHexChar d then
            (parseStrBody (escapeChars cs ++ '"' :: rest)).map
              (fun p =>
                (Char.ofNat (4096 * hexVal a + 256 * hexVal b + 16 * hexVal c'
                    + hexVal d) :: p.1, p.2))
          else none) = _
        rw [if_pos (by simp [ha, hb', hc, hd])]
        rw [ih, hval, Char.ofNat_toNat]
        rfl
      · rw [if_neg h8]
        show parseStrBody (c :: (escapeChars cs ++ '"' :: rest)) = _
        rw [parseStrBody]
        rw [if_neg h2, if_neg h1, ih]
        rfl

theorem string_eta (s : String) : String.mk s.data = s := rfl

theorem safe_ne {c : Char} (h : isSafeKeyChar c = true) :
    c ≠ '"' ∧ c ≠ ' ' ∧ c ≠ '\t' ∧ c ≠ '=' ∧ c ≠ '.' ∧ c ≠ '[' ∧ c ≠ ']'
      ∧ c ≠ '\x7b' ∧ c ≠ '\x7d' ∧ c ≠ ',' ∧ c ≠ '\n' := by
  refine ⟨?_, ?_, ?_, ?_, ?_, ?_, ?_, ?_, ?_, ?_, ?_⟩ <;>
    (intro he; subst he; exact absurd h (by decide))

theorem skipWs_cons_not_ws {c : Char} (cs : List Char) (h1 : c ≠ ' ') (h2 : c ≠ '\t') :
    skipWs (c :: cs) = c :: cs := by
  rw [skipWs, if_neg (by simp [h1, h2])]

theorem skipWs_append_ws : ∀ (ws cs : List Char), (∀ c ∈ ws, c = ' ' ∨ c = '\t') →
    skipWs (ws ++ cs) = skipWs cs := by
  intro ws
  induction ws with
  | nil => intro cs _; rfl
  | cons w ws ih =>
      intro cs h
      rw [List.cons_append, skipWs, if_pos ?_]
      · exact ih cs (fun c hc => h c (by simp [hc]))
      · rcases h w (by simp) with hw | hw <;> simp [hw]

theorem parseKey_renderKey (k : String) (rest : List Char)
    (hb : ∀ c, rest.head? = some c → isSafeKeyChar c = false) :
    parseKey (renderKey k ++ rest) = some (k, rest) := by
  rw [renderKey]
  by_cases hbk : isBareKey k = true
  · rw [if_pos hbk]
    obtain ⟨data⟩ := k
    rw [isBareKey, Bool.and_eq_true] at hbk
    have hall : ∀ c ∈ data, isSafeKeyChar c = true := List.all_eq_true.mp hbk.2
    have hne : data ≠ [] := by
      intro hd
      subst hd
      simp at hbk
    cases data with
    | nil => exact absurd rfl hne
    | cons c0 cs0 =>
        have hc0 := hall c0 (by simp)
        have hsp := span_append (c0 :: cs0) rest hall hb
        rw [parseKey]
        rw [if_neg (by
          simp only [List.cons_append, List.head?_cons, Option.some.injEq]
          exact (safe_ne hc0).1)]
        simp only [List.cons_append] at hsp
        simp only [List.cons_append, hsp.1, hsp.2]
        rw [if_neg (by simp)]
  · rw [if_neg hbk]
    show parseKey (('"' :: (escapeChars k.data ++ ['"'])) ++ rest) = _
    rw [parseKey]
    rw [if_pos (by simp)]
    simp only [List.cons_append, List.tail_cons, List.append_assoc, List.singleton_append]
    rw [parseStrBody_escape]
    rfl

theorem renderKey_head (k : String) :
    ∃ c cs, renderKey k = c :: cs ∧ (c = '"' ∨ isSafeKeyChar c = true) := by
  rw [renderKey]
  by_cases hbk : isBareKey k = true
  · rw [if_pos hbk]
    obtain ⟨data⟩ := k
    rw [isBareKey, Bool.and_eq_true] at hbk
    have hall := List.all_eq_true.mp hbk.2
    cases data with
    | nil => exfalso; simp at hbk
    | cons c0 cs0 => exact ⟨c0, cs0, rfl, Or.inr (hall c0 (by simp))⟩
  · rw [if_neg hbk]
    exact ⟨'"', _, rfl, Or.inl rfl⟩

theorem renderValue_head (st : EncStrategy) (v : TomlValue) :
    ∃ c cs, renderValue st v = c :: cs
      ∧ (c = '"' ∨ c = '-' ∨ isDigitChar c = true ∨ c = 't' ∨ c = 'f'
          ∨ c = '[' ∨ c = '\x7b') := by
  cases v with
  | str s => exact ⟨'"', _, rfl, Or.inl rfl⟩
  | int n =>
      rw [renderValue, intToChars]
      by_cases hn : n < 0
      · rw [if_pos hn]
        exact ⟨'-', _, rfl, Or.inr (Or.inl rfl)⟩
      · rw [if_neg hn]
        cases hnc : natToChars n.natAbs with
        | nil => exact absurd hnc (natToChars_ne_nil n.natAbs)
        | cons c0 cs0 =>
            exact ⟨c0, cs0 ++ [], by simp, Or.inr (Or.inr (Or.inl
              (natToChars_digits n.natAbs c0 (by rw [hnc]; simp))))⟩
  | float m e =>
      rw [renderValue, floatToChars]
      by_cases hm : m < 0
      · rw [if_pos hm]
        exact ⟨'-', _, rfl, Or.inr (Or.inl rfl)⟩
      · rw [if_neg hm]
        obtain ⟨ip, fp, hfb, hip, _, hipne, _, _⟩ := floatBody_spec m.natAbs e
        cases hnc : ip with
        | nil => exact absurd hnc hipne
        | cons c0 cs0 =>
            refine ⟨c0, cs0 ++ '.' :: fp, ?_, Or.inr (Or.inr (Or.inl
              (hip c0 (by rw [hnc]; simp))))⟩
            rw [List.nil_append, hfb, hnc]
            rfl
  | bool b =>
      cases b
      · exact ⟨'f', _, rfl, by simp⟩
      · exact ⟨'t', _, rfl, by simp⟩
  | arr xs => exact ⟨'[', _, rfl, by simp⟩
  | tup xs => exact ⟨'[', _, rfl, by simp⟩
  | table inl es => exact ⟨'\x7b', _, rfl, by simp⟩

theorem value_head_ne {c : Char}
    (h : c = '"' ∨ c = '-' ∨ isDigitChar c = true ∨ c = 't' ∨ c = 'f'
        ∨ c = '[' ∨ c = '\x7b') :
    c ≠ ' ' ∧ c ≠ '\t' ∧ c ≠ ']' ∧ c ≠ '\x7d' ∧ c ≠ ',' := by
  rcases h with h | h | h | h | h | h | h
  · subst h; exact ⟨by decide, by decide, by decide, by decide, by decide⟩
  · subst h; exact ⟨by decide, by decide, by decide, by decide, by decide⟩
  · obtain ⟨-, -, -, -, h5, -, h7, h8, h9, h10, -, -, -, -⟩ := isDigit_ne h
    exact ⟨h9, h10, h5, h7, h8⟩
  · subst h; exact ⟨by decide, by decide, by decide, by decide, by decide⟩
  · subst h; exact ⟨by decide, by decide, by decide, by decide, by decide⟩
  · subst h; exact ⟨by decide, by decide, by decide, by decide, by decide⟩
  · subst h; exact ⟨by decide, by decide, by decide, by decide, by decide⟩

theorem parseValue_number (fuel : Nat) (cs : List Char)
    (h : ∀ c, cs.head? = some c → (c = '-' ∨ isDigitChar c = true)) :
    parseValue (fuel + 1) cs = parseNumber cs := by
  cases cs with
  | nil =>
      rw [parseValue]
      rw [if_neg (by simp), if_neg (by simp), if_neg (by simp)]
      rw [if_neg (by simp), if_neg (by simp)]
  | cons c0 l =>
      have hc := h c0 rfl
      have h1 : c0 ≠ '"' := by
        rcases hc with h' | h'
        · subst h'; decide
        · exact (isDigit_ne h').2.2.1
      have h2 : c0 ≠ '[' := by
        rcases hc with h' | h'
        · subst h'; decide
        · exact (isDigit_ne h').2.2.2.1
      have h3 : c0 ≠ '\x7b' := by
        rcases hc with h' | h'
        · subst h'; decide
        · exact (isDigit_ne h').2.2.2.2.2.1
      have h4 : c0 ≠ 't' := by
        rcases hc with h' | h'
        · subst h'; decide
        · exact (isDigit_ne h').2.2.2.2.2.2.2.2.2.2.2.1
      have h5 : c0 ≠ 'f' := by
        rcases hc with h' | h'
        · subst h'; decide
        · exact (isDigit_ne h').2.2.2.2.2.2.2.2.2.2.2.2.1
      rw [parseValue]
      rw [if_neg (by simp [h1]), if_neg (by simp [h2]), if_neg (by simp [h3])]
      rw [if_neg (by simp [List.take_succ_cons, h4]),
        if_neg (by simp [List.take_succ_cons, h5])]

theorem intToChars_head : ∀ (n : Int) (c : Char),
    (intToChars n).head? = some c → (c = '-' ∨ isDigitChar c = true) := by
  intro n c hc
  rw [intToChars] at hc
  by_cases hn : n < 0
  · rw [if_pos hn] at hc
    simp at hc
    exact Or.inl hc.symm
  · rw [if_neg hn, List.nil_append] at hc
    cases hnc : natToChars n.natAbs with
    | nil => exact absurd hnc (natToChars_ne_nil n.natAbs)
    | cons c0 cs0 =>
        rw [hnc] at hc
        simp at hc
        subst hc
        exact Or.inr (natToChars_digits n.natAbs c0 (by rw [hnc]; simp))

theorem floatToChars_head : ∀ (m : Int) (e : Nat) (c : Char),
    (floatToChars m e).head? = some c → (c = '-' ∨ isDigitChar c = true) := by
  intro m e c hc
  rw [floatToChars] at hc
  by_cases hm : m < 0
  · rw [if_pos hm] at hc
    simp at hc
    exact Or.inl hc.symm
  · rw [if_neg hm, List.nil_append] at hc
    obtain ⟨ip, fp, hfb, hip, _, hipne, _, _⟩ := floatBody_spec m.natAbs e
    rw [hfb] at hc
    cases hnc : ip with
    | nil => exact absurd hnc hipne
    | cons c0 cs0 =>
        rw [hnc] at hc
        simp at hc
        subst hc
        exact Or.inr (hip c0 (by rw [hnc]; simp))

theorem head_of_append_head {cs rest : List Char} {c : Char}
    (h : cs.head? = some c) : (cs ++ rest).head? = some c := by
  cases cs with
  | nil => cases h
  | cons c0 l => simpa using h

theorem parseValue_int (fuel : Nat) (n : Int) (rest : List Char)
    (hb : ∀ c, rest.head? = some c → isDigitChar c = false ∧ c ≠ '.') :
    parseValue (fuel + 1) (intToChars n ++ rest) = some (.int n, rest) := by
  rw [parseValue_number fuel _ ?_, parseNumber_int n rest hb]
  intro c hc
  cases hnc : intToChars n with
  | nil => exact absurd hnc (by
      rw [intToChars]
      by_cases hn : n < 0 <;> simp [hn, natToChars_ne_nil])
  | cons c0 l =>
      rw [hnc] at hc
      simp at hc
      subst hc
      exact intToChars_head n c0 (by rw [hnc]; rfl)

theorem parseValue_float (fuel : Nat) (m : Int) (e : Nat) (rest : List Char)
    (hb : ∀ c, rest.head? = some c → isDigitChar c = false ∧ c ≠ '.') :
    parseValue (fuel + 1) (floatToChars m e ++ rest) = some (.float m e, rest) := by
  rw [parseValue_number fuel _ ?_, parseNumber_float m e rest hb]
  intro c hc
  cases hnc : floatToChars m e with
  | nil =>
      exfalso
      obtain ⟨ip, fp, hfb, _, _, hipne, _, _⟩ := floatBody_spec m.natAbs e
      rw [floatToChars, hfb] at hnc
      rcases List.append_eq_nil.mp hnc with ⟨-, h2⟩
      rcases List.append_eq_nil.mp h2 with ⟨-, h3⟩
      cases h3
  | cons c0 l =>
      rw [hnc] at hc
      simp at hc
      subst hc
      exact floatToChars_head m e c0 (by rw [hnc]; rfl)

theorem parseValue_str (fuel : Nat) (s : String) (rest : List Char) :
    parseValue (fuel + 1) (renderStr s ++ rest) = some (.str s, rest) := by
  show parseValue (fuel + 1) ('"' :: ((escapeChars s.data ++ ['"']) ++ rest)) = _
  rw [parseValue]
  rw [if_pos (by simp)]
  simp only [List.tail_cons, List.append_assoc, List.singleton_append]
  rw [parseStrBody_escape]
  rfl

theorem parseValue_boolT (fuel : Nat) (rest : List Char) :
    parseValue (fuel + 1) ('t' :: 'r' :: 'u' :: 'e' :: rest) = some (.bool true, rest) := by
  rw [parseValue]
  rw [if_neg (by simp), if_neg (by simp), if_neg (by simp)]
  rw [if_pos (by rfl)]
  rfl

theorem parseValue_boolF (fuel : Nat) (rest : List Char) :
    parseValue (fuel + 1) ('f' :: 'a' :: 'l' :: 's' :: 'e' :: rest)
      = some (.bool false, rest) := by
  rw [parseValue]
  rw [if_neg (by simp), if_neg (by simp), if_neg (by simp)]
  rw [if_neg (by
    intro h
    rw [show List.take 4 ('f' :: 'a' :: 'l' :: 's' :: 'e' :: rest) = ['f', 'a', 'l', 's']
      from rfl] at h
    exact absurd h (by decide))]
  rw [if_pos (by rfl)]
  rfl

theorem skipWs_space (X : List Char) : skipWs (' ' :: X) = skipWs X := rfl

theorem skipWs_eq_self {cs : List Char} {c : Char} (h : cs.head? = some c)
    (h1 : c ≠ ' ') (h2 : c ≠ '\t') : skipWs cs = cs := by
  cases cs with
  | nil => cases h
  | cons c0 l =>
      simp at h
      subst h
      exact skipWs_cons_not_ws l h1 h2

theorem renderList_head (st : EncStrategy) (x : TomlValue) (xs : List TomlValue) :
    ∃ z, renderList st (x :: xs) = renderValue st x ++ z := by
  cases xs with
  | nil => exact ⟨[], (List.append_nil _).symm⟩
  | cons y ys => exact ⟨_, rfl⟩

theorem renderInline_head (st : EncStrategy) (k : String) (v : TomlValue) (es : Entries) :
    ∃ z, renderInline st ((k, v) :: es) = renderKey k ++ z := by
  cases es with
  | nil => exact ⟨_, rfl⟩
  | cons e es' =>
      obtain ⟨k2, v2⟩ := e
      exact ⟨(' ' :: '=' :: ' ' :: renderValue st v)
        ++ (',' :: ' ' :: renderInline st ((k2, v2) :: es')), List.append_assoc _ _ _⟩

theorem parse_render_roundtrip (st : EncStrategy) (hsep : WfSep st.sep) : ∀ fuel : Nat,
    (∀ v rest, vsize v < fuel →
        (∀ c, rest.head? = some c → isDigitChar c = false ∧ c ≠ '.') →
        parseValue fuel (renderValue st v ++ rest) = some (reparseVal v, rest))
    ∧ (∀ xs rest, lsize xs < fuel → xs ≠ [] →
        parseArrayElems fuel (renderList st xs ++ ']' :: rest)
          = some (reparseValL xs, rest))
    ∧ (∀ es rest, psize es < fuel → es ≠ [] →
        parseInlinePairs fuel (renderInline st es ++ '\x7d' :: rest)
          = some (reparseValEnt es, rest)) := by
  obtain ⟨ws, hws, hwsall⟩ := hsep
  intro fuel
  induction fuel with
  | zero =>
      exact ⟨fun v rest h _ => absurd h (Nat.not_lt_zero _),
        fun xs rest h _ => absurd h (Nat.not_lt_zero _),
        fun es rest h _ => absurd h (Nat.not_lt_zero _)⟩
  | succ fuel ih =>
      obtain ⟨ihv, ihl, ihp⟩ := ih
      refine ⟨?_, ?_, ?_⟩
      · intro v rest hsize hb
        cases v with
        | str s => exact parseValue_str fuel s rest
        | int n => exact parseValue_int fuel n rest hb
        | float m e => exact parseValue_float fuel m e rest hb
        | bool b =>
            cases b
            · exact parseValue_boolF fuel rest
            · exact parseValue_boolT fuel rest
        | arr xs =>
            cases xs with
            | nil =>
                show parseValue (fuel + 1) ('[' :: ']' :: rest) = _
                rw [parseValue]
                rw [if_neg (by simp only [List.head?_cons, Option.some.injEq]; decide),
                  if_pos (by rfl)]
                simp only [List.tail_cons]
                rw [skipWs_cons_not_ws _ (by decide) (by decide)]
                rw [if_pos (by rfl)]
                rfl
            | cons x xs' =>
                obtain ⟨z, hz⟩ := renderList_head st x xs'
                obtain ⟨c0, cs0, hhead, hshape⟩ := renderValue_head st x
                have hLhead : (renderList st (x :: xs')).head? = some c0 := by
                  rw [hz, hhead]
                  rfl
                have hfullhead :
                    (renderList st (x :: xs') ++ ']' :: rest).head? = some c0 :=
                  head_of_append_head hLhead
                have hne := value_head_ne hshape
                show parseValue (fuel + 1)
                  ('[' :: ((renderList st (x :: xs') ++ [']']) ++ rest)) = _
                rw [List.append_assoc]
                simp only [List.singleton_append]
                rw [parseValue]
                rw [if_neg (by simp only [List.head?_cons, Option.some.injEq]; decide),
                  if_pos (by rfl)]
                simp only [List.tail_cons]
                rw [skipWs_eq_self hfullhead hne.1 hne.2.1]
                rw [if_neg (by
                  rw [hfullhead]
                  simp only [Option.some.injEq]
                  exact hne.2.2.1)]
                rw [ihl (x :: xs') rest (by simp only [vsize] at hsize; omega) (by simp)]
                rfl
        | tup xs =>
            cases xs with
            | nil =>
                show parseValue (fuel + 1) ('[' :: ']' :: rest) = _
                rw [parseValue]
                rw [if_neg (by simp only [List.head?_cons, Option.some.injEq]; decide),
                  if_pos (by rfl)]
                simp only [List.tail_cons]
                rw [skipWs_cons_not_ws _ (by decide) (by decide)]
                rw [if_pos (by rfl)]
                rfl
            | cons x xs' =>
                obtain ⟨z, hz⟩ := renderList_head st x xs'
                obtain ⟨c0, cs0, hhead, hshape⟩ := renderValue_head st x
                have hLhead : (renderList st (x :: xs')).head? = some c0 := by
                  rw [hz, hhead]
                  rfl
                have hfullhead :
                    (renderList st (x :: xs') ++ ']' :: rest).head? = some c0 :=
                  head_of_append_head hLhead
                have hne := value_head_ne hshape
                show parseValue (fuel + 1)
                  ('[' :: ((renderList st (x :: xs') ++ [']']) ++ rest)) = _
                rw [List.append_assoc]
                simp only [List.singleton_append]
                rw [parseValue]
                rw [if_neg (by simp only [List.head?_cons, Option.some.injEq]; decide),
                  if_pos (by rfl)]
                simp only [List.tail_cons]
                rw [skipWs_eq_self hfullhead hne.1 hne.2.1]
                rw [if_neg (by
                  rw [hfullhead]
                  simp only [Option.some.injEq]
                  exact hne.2.2.1)]
                rw [ihl (x :: xs') rest (by simp only [vsize] at hsize; omega) (by simp)]
                rfl
        | table inl es =>
            cases es with
            | nil =>
                show parseValue (fuel + 1) ('\x7b' :: '\x7d' :: rest) = _
                rw [parseValue]
                rw [if_neg (by simp only [List.head?_cons, Option.some.injEq]; decide),
                  if_neg (by simp only [List.head?_cons, Option.some.injEq]; decide),
                  if_pos (by rfl)]
                simp only [List.tail_cons]
                rw [skipWs_cons_not_ws _ (by decide) (by decide)]
                rw [if_pos (by rfl)]
                rfl
            | cons e es' =>
                obtain ⟨k, v⟩ := e
                obtain ⟨z, hz⟩ := renderInline_head st k v es'
                obtain ⟨c0, cs0, hhead, hshape⟩ := renderKey_head k
                have hc0 : c0 ≠ ' ' ∧ c0 ≠ '\t' ∧ c0 ≠ '\x7d' := by
                  rcases hshape with h | h
                  · subst h; exact ⟨by decide, by decide, by decide⟩
                  · obtain ⟨-, h2, h3, -, -, -, -, -, h9, -, -⟩ := safe_ne h
                    exact ⟨h2, h3, h9⟩
                have hLhead : (renderInline st ((k, v) :: es')).head? = some c0 := by
                  rw [hz, hhead]
                  rfl
                have hfullhead :
                    (renderInline st ((k, v) :: es') ++ '\x7d' :: rest).head? = some c0 :=
                  head_of_append_head hLhead
                show parseValue (fuel + 1)
                  ('\x7b' :: ((renderInline st ((k, v) :: es') ++ ['\x7d']) ++ rest)) = _
                rw [List.append_assoc]
                simp only [List.singleton_append]
                rw [parseValue]
                rw [if_neg (by simp only [List.head?_cons, Option.some.injEq]; decide),
                  if_neg (by simp only [List.head?_cons, Option.some.injEq]; decide),
                  if_pos (by rfl)]
                simp only [List.tail_cons]
                rw [skipWs_eq_self hfullhead hc0.1 hc0.2.1]
                rw [if_neg (by
                  rw [hfullhead]
                  simp only [Option.some.injEq]
                  exact hc0.2.2)]
                rw [ihp ((k, v) :: es') rest (by simp only [vsize] at hsize; omega) (by simp)]
                rfl
      · intro xs rest hsize hne
        cases xs with
        | nil => exact absurd rfl hne
        | cons x xs' =>
            cases xs' with
            | nil =>
                show parseArrayElems (fuel + 1) (renderValue st x ++ ']' :: rest) = _
                rw [parseArrayElems]
                rw [ihv x (']' :: rest) (by simp only [lsize] at hsize; omega)
                  (by
                    intro c hc
                    simp at hc
                    subst hc
                    exact ⟨by decide, by decide⟩)]
                rw [Option.some_bind]
                rw [skipWs_cons_not_ws _ (by decide) (by decide)]
                rw [if_neg (by simp only [List.head?_cons, Option.some.injEq]; decide)]
                rw [if_pos (by rfl)]
                rfl
            | cons y ys =>
                obtain ⟨z, hz⟩ := renderList_head st y ys
                obtain ⟨c0, cs0, hhead, hshape⟩ := renderValue_head st y
                have hLhead : (renderList st (y :: ys)).head? = some c0 := by
                  rw [hz, hhead]
                  rfl
                have hfullhead :
                    (renderList st (y :: ys) ++ ']' :: rest).head? = some c0 :=
                  head_of_append_head hLhead
                have hne0 := value_head_ne hshape
                show parseArrayElems (fuel + 1)
                  ((renderValue st x ++ (st.sep.data ++ renderList st (y :: ys)))
                    ++ ']' :: rest) = _
                rw [List.append_assoc, List.append_assoc]
                rw [parseArrayElems]
                rw [ihv x _ (by simp only [lsize] at hsize; omega)
                  (by
                    intro c hc
                    rw [hws] at hc
                    simp at hc
                    subst hc
                    exact ⟨by decide, by decide⟩)]
                rw [Option.some_bind]
                rw [hws, List.cons_append]
                rw [skipWs_cons_not_ws _ (by decide) (by decide)]
                rw [if_pos (by rfl)]
                simp only [List.tail_cons]
                rw [skipWs_append_ws ws _ hwsall]
                rw [skipWs_eq_self hfullhead hne0.1 hne0.2.1]
                rw [ihl (y :: ys) rest (by simp only [lsize] at hsize ⊢; omega) (by simp)]
                rfl
      · intro es rest hsize hne
        cases es with
        | nil => exact absurd rfl hne
        | cons e es' =>
            obtain ⟨k, v⟩ := e
            cases es' with
            | nil =>
                show parseInlinePairs (fuel + 1)
                  ((renderKey k ++ (' ' :: '=' :: ' ' :: renderValue st v))
                    ++ '\x7d' :: rest) = _
                rw [List.append_assoc]
                rw [parseInlinePairs]
                rw [parseKey_renderKey k _ (by
                  intro c hc
                  simp at hc
                  subst hc
                  decide)]
                rw [Option.some_bind]
                rw [List.cons_append, skipWs_space]
                rw [List.cons_append, skipWs_cons_not_ws _ (by decide) (by decide)]
                rw [if_pos (by rfl)]
                simp only [List.tail_cons, List.cons_append]
                rw [skipWs_space]
                obtain ⟨c0, cs0, hhead, hshape⟩ := renderValue_head st v
                have hvhead : (renderValue st v ++ '\x7d' :: rest).head? = some c0 :=
                  head_of_append_head (by rw [hhead]; rfl)
                have hne0 := value_head_ne hshape
                rw [skipWs_eq_self hvhead hne0.1 hne0.2.1]
                rw [ihv v ('\x7d' :: rest) (by simp only [psize, lsize] at hsize; omega)
                  (by
                    intro c hc
                    simp at hc
                    subst hc
                    exact ⟨by decide, by decide⟩)]
                rw [Option.some_bind]
                rw [skipWs_cons_not_ws _ (by decide) (by decide)]
                rw [if_neg (by simp only [List.head?_cons, Option.some.injEq]; decide)]
                rw [if_pos (by rfl)]
                rfl
            | cons e2 es2 =>
                obtain ⟨k2, v2⟩ := e2
                obtain ⟨z2, hz2⟩ := renderInline_head st k2 v2 es2
                obtain ⟨c2, cs2, hhead2, hshape2⟩ := renderKey_head k2
                have hc2 : c2 ≠ ' ' ∧ c2 ≠ '\t' := by
                  rcases hshape2 with h | h
                  · subst h; exact ⟨by decide, by decide⟩
                  · obtain ⟨-, h2', h3', -⟩ := safe_ne h
                    exact ⟨h2', h3'⟩
                have hri : renderInline st ((k, v) :: (k2, v2) :: es2)
                    = (renderKey k ++ (' ' :: '=' :: ' ' :: renderValue st v))
                      ++ (',' :: ' ' :: renderInline st ((k2, v2) :: es2)) := rfl
                rw [hri, List.append_assoc, List.append_assoc]
                rw [parseInlinePairs]
                rw [parseKey_renderKey k _ (by
                  intro c hc
                  simp at hc
                  subst hc
                  decide)]
                rw [Option.some_bind]
                rw [List.cons_append, skipWs_space]
                rw [List.cons_append, skipWs_cons_not_ws _ (by decide) (by decide)]
                rw [if_pos (by rfl)]
                simp only [List.tail_cons, List.cons_append]
                rw [skipWs_space]
                obtain ⟨c0, cs0, hhead, hshape⟩ := renderValue_head st v
                have hne0 := value_head_ne hshape
                have hvhead :
                    (renderValue st v
                      ++ ',' :: ' ' :: (renderInline st ((k2, v2) :: es2)
                          ++ '\x7d' :: rest)).head? = some c0 :=
                  head_of_append_head (by rw [hhead]; rfl)
                rw [skipWs_eq_self hvhead hne0.1 hne0.2.1]
                rw [ihv v _ (by simp only [psize] at hsize; omega)
                  (by
                    intro c hc
                    simp at hc
                    subst hc
                    exact ⟨by decide, by decide⟩)]
                rw [Option.some_bind]
                rw [skipWs_cons_not_ws _ (by decide) (by decide)]
                rw [if_pos (by rfl)]
                simp only [List.tail_cons]
                rw [skipWs_space]
                have hIhead :
                    (renderInline st ((k2, v2) :: es2) ++ '\x7d' :: rest).head? = some c2 :=
                  head_of_append_head (by rw [hz2, hhead2]; rfl)
                rw [skipWs_eq_self hIhead hc2.1 hc2.2]
                rw [ihp ((k2, v2) :: es2) rest (by simp only [psize] at hsize ⊢; omega)
                  (by simp)]
                rfl

theorem renderValue_ne_nil (st : EncStrategy) (v : TomlValue) : renderValue st v ≠ [] := by
  obtain ⟨c, cs, hc, -⟩ := renderValue_head st v
  rw [hc]
  simp

theorem renderKey_ne_nil (k : String) : renderKey k ≠ [] := by
  obtain ⟨c, cs, hc, -⟩ := renderKey_head k
  rw [hc]
  simp

theorem vsize_le_render (st : EncStrategy) : ∀ n : Nat,
    (∀ v, valSize v ≤ n → vsize v ≤ (renderValue st v).length)
    ∧ (∀ xs, seqSize xs ≤ n → lsize xs ≤ 1 + (renderList st xs).length)
    ∧ (∀ es, entsSize es ≤ n → psize es ≤ 1 + (renderInline st es).length) := by
  intro n
  induction n with
  | zero =>
      refine ⟨?_, ?_, ?_⟩
      · intro v hv
        exfalso
        cases v <;> simp [valSize, seqSize, entsSize] at hv
      · intro xs hxs
        cases xs with
        | nil => simp [lsize]
        | cons x xs =>
            exfalso
            simp [seqSize] at hxs
      · intro es hes
        cases es with
        | nil => simp [psize]
        | cons e es =>
            obtain ⟨k, v⟩ := e
            exfalso
            simp [entsSize] at hes
  | succ n ih =>
      obtain ⟨ihv, ihl, ihp⟩ := ih
      refine ⟨?_, ?_, ?_⟩
      · intro v hv
        cases v with
        | str s =>
            have := renderValue_ne_nil st (.str s)
            have hlen : 1 ≤ (renderValue st (.str s)).length :=
              List.length_pos.mpr this
            simp only [vsize]
            omega
        | int m =>
            have hlen : 1 ≤ (renderValue st (.int m)).length :=
              List.length_pos.mpr (renderValue_ne_nil st (.int m))
            simp only [vsize]
            omega
        | float m e =>
            have hlen : 1 ≤ (renderValue st (.float m e)).length :=
              List.length_pos.mpr (renderValue_ne_nil st (.float m e))
            simp only [vsize]
            omega
        | bool b =>
            have hlen : 1 ≤ (renderValue st (.bool b)).length :=
              List.length_pos.mpr (renderValue_ne_nil st (.bool b))
            simp only [vsize]
            omega
        | arr xs =>
            simp only [valSize] at hv
            have h1 := ihl xs (by omega)
            show 1 + lsize xs ≤ ('[' :: (renderList st xs ++ [']'])).length
            simp only [List.length_cons, List.length_append, List.length_singleton]
            omega
        | tup xs =>
            simp only [valSize] at hv
            have h1 := ihl xs (by omega)
            show 1 + lsize xs ≤ ('[' :: (renderList st xs ++ [']'])).length
            simp only [List.length_cons, List.length_append, List.length_singleton]
            omega
        | table inl es =>
            simp only [valSize] at hv
            have h1 := ihp es (by omega)
            show 1 + psize es ≤ ('\x7b' :: (renderInline st es ++ ['\x7d'])).length
            simp only [List.length_cons, List.length_append, List.length_singleton]
            omega
      · intro xs hxs
        cases xs with
        | nil => simp [lsize]
        | cons x xs' =>
            simp only [seqSize] at hxs
            have h1 := ihv x (by omega)
            cases xs' with
            | nil =>
                show 1 + max (vsize x) (lsize []) ≤ 1 + (renderValue st x).length
                simp only [lsize]
                omega
            | cons y ys =>
                have h2 := ihl (y :: ys) (by
                  simp only [seqSize] at hxs ⊢
                  omega)
                have h3 : 1 ≤ (renderValue st x).length :=
                  List.length_pos.mpr (renderValue_ne_nil st x)
                show 1 + max (vsize x) (lsize (y :: ys))
                  ≤ 1 + (renderValue st x ++ (st.sep.data ++ renderList st (y :: ys))).length
                simp only [List.length_append]
                omega
      · intro es hes
        cases es with
        | nil => simp [psize]
        | cons e es' =>
            obtain ⟨k, v⟩ := e
            simp only [entsSize] at hes
            have h1 := ihv v (by omega)
            have hk : 1 ≤ (renderKey k).length := List.length_pos.mpr (renderKey_ne_nil k)
            cases es' with
            | nil =>
                show 1 + max (vsize v) (psize [])
                  ≤ 1 + (renderKey k ++ (' ' :: '=' :: ' ' :: renderValue st v)).length
                simp only [psize, List.length_append, List.length_cons]
                omega
            | cons e2 es2 =>
                obtain ⟨k2, v2⟩ := e2
                have h2 := ihp ((k2, v2) :: es2) (by
                  simp only [entsSize] at hes ⊢
                  omega)
                show 1 + max (vsize v) (psize ((k2, v2) :: es2))
                  ≤ 1 + ((renderKey k ++ (' ' :: '=' :: ' ' :: renderValue st v)
                      ++ (',' :: ' ' :: renderInline st ((k2, v2) :: es2))).length)
                simp only [List.length_append, List.length_cons]
                omega

theorem renderPath_len : ∀ p : List String, p.length ≤ (renderPath p).length := by
  intro p
  induction p with
  | nil => simp [renderPath]
  | cons k p' ih =>
      cases p' with
      | nil =>
          have := List.length_pos.mpr (renderKey_ne_nil k)
          show 1 ≤ (renderKey k).length
          omega
      | cons k2 ks =>
          have := List.length_pos.mpr (renderKey_ne_nil k)
          show (k2 :: ks).length + 1 ≤ (renderKey k ++ ('.' :: renderPath (k2 :: ks))).length
          simp only [List.length_append, List.length_cons]
          have h2 : (k2 :: ks).length ≤ (renderPath (k2 :: ks)).length := ih
          simp only [List.length_cons] at h2
          omega

theorem parseHeaderPath_renderPath : ∀ (p : List String) (fuel : Nat) (rest : List Char),
    p ≠ [] → p.length ≤ fuel →
    parseHeaderPath fuel (renderPath p ++ ']' :: rest) = some (p, rest) := by
  intro p
  induction p with
  | nil => intro fuel rest h _; exact absurd rfl h
  | cons k p' ih =>
      intro fuel rest _ hlen
      cases fuel with
      | zero => simp at hlen
      | succ fuel =>
          cases p' with
          | nil =>
              show parseHeaderPath (fuel + 1) (renderKey k ++ ']' :: rest) = _
              rw [parseHeaderPath]
              rw [parseKey_renderKey k _ (by
                intro c hc
                simp at hc
                subst hc
                decide)]
              rw [Option.some_bind]
              rw [if_neg (by simp only [List.head?_cons, Option.some.injEq]; decide)]
              rw [if_pos (by rfl)]
              rfl
          | cons k2 ks =>
              show parseHeaderPath (fuel + 1)
                ((renderKey k ++ ('.' :: renderPath (k2 :: ks))) ++ ']' :: rest) = _
              rw [List.append_assoc]
              rw [parseHeaderPath]
              rw [parseKey_renderKey k _ (by
                intro c hc
                simp at hc
                subst hc
                decide)]
              rw [Option.some_bind]
              rw [if_pos (by rfl)]
              simp only [List.tail_cons, List.cons_append]
              rw [ih fuel rest (by simp) (by simp at hlen ⊢; omega)]
              rfl

theorem parseLine_header (st : EncStrategy) (p : List String) (hp : p ≠ []) :
    parseLine (renderLine st (.header p)) = some (.header p) := by
  show parseLine ('[' :: (renderPath p ++ [']'])) = _
  rw [parseLine]
  rw [if_neg (by simp), if_pos (by rfl)]
  simp only [List.tail_cons, List.length_cons]
  rw [show renderPath p ++ [']'] = renderPath p ++ ']' :: [] from rfl]
  rw [parseHeaderPath_renderPath p _ [] hp (by
    have h1 := renderPath_len p
    simp only [List.length_append, List.length_cons]
    omega)]
  rw [Option.some_bind]
  rw [if_pos rfl]

theorem parseLine_kv (st : EncStrategy) (hsep : WfSep st.sep) (k : String) (v : TomlValue) :
    parseLine (renderLine st (.kv k v)) = some (.kv k (reparseVal v)) := by
  obtain ⟨ck, csk, hck, hkshape⟩ := renderKey_head k
  show parseLine (renderKey k ++ (' ' :: '=' :: ' ' :: renderValue st v)) = _
  rw [parseLine]
  rw [if_neg (by
    rw [hck]
    simp)]
  rw [if_neg (by
    rw [hck]
    simp only [List.cons_append, List.head?_cons, Option.some.injEq]
    rcases hkshape with h | h
    · subst h; decide
    · exact (safe_ne h).2.2.2.2.2.1)]
  rw [parseKey_renderKey k _ (by
    intro c hc
    simp at hc
    subst hc
    decide)]
  rw [Option.some_bind]
  rw [skipWs_space, skipWs_cons_not_ws _ (by decide) (by decide)]
  rw [if_pos (by rfl)]
  simp only [List.tail_cons]
  rw [skipWs_space]
  obtain ⟨c0, cs0, hhead, hshape⟩ := renderValue_head st v
  have hne0 := value_head_ne hshape
  rw [skipWs_eq_self (by rw [hhead]; rfl) hne0.1 hne0.2.1]
  have hlen : (renderKey k ++ (' ' :: '=' :: ' ' :: renderValue st v)).length
      = (renderKey k).length + 3 + (renderValue st v).length := by
    simp only [List.length_append, List.length_cons]
    omega
  have hvs : vsize v ≤ (renderValue st v).length :=
    (vsize_le_render st (valSize v)).1 v (Nat.le_refl _)
  have hrt := (parse_render_roundtrip st hsep
    ((renderKey k ++ (' ' :: '=' :: ' ' :: renderValue st v)).length + 1)).1 v []
    (by rw [hlen]; omega) (by intro c hc; cases hc)
  rw [List.append_nil] at hrt
  rw [hrt]
  rw [Option.some_bind]
  rw [if_pos rfl]

theorem natToChars_no_nl (n : Nat) : ∀ c ∈ natToChars n, c ≠ '\n' :=
  fun c hc => (isDigit_ne (natToChars_digits n c hc)).2.2.2.2.2.2.2.2.2.2.1

theorem intToChars_no_nl (m : Int) : ∀ c ∈ intToChars m, c ≠ '\n' := by
  intro c hc
  rw [intToChars] at hc
  rcases List.mem_append.mp hc with h | h
  · by_cases hm : m < 0
    · rw [if_pos hm] at h
      simp at h
      subst h
      decide
    · rw [if_neg hm] at h
      simp at h
  · exact natToChars_no_nl _ c h

theorem floatBody_no_nl (a e : Nat) : ∀ c ∈ floatBody a e, c ≠ '\n' := by
  obtain ⟨ip, fp, heq, hip, hfp, _, _, _⟩ := floatBody_spec a e
  intro c hc
  rw [heq] at hc
  rcases List.mem_append.mp hc with h | h
  · exact (isDigit_ne (hip c h)).2.2.2.2.2.2.2.2.2.2.1
  · rcases List.mem_cons.mp h with h | h
    · subst h; decide
    · exact (isDigit_ne (hfp c h)).2.2.2.2.2.2.2.2.2.2.1

theorem floatToChars_no_nl (m : Int) (e : Nat) : ∀ c ∈ floatToChars m e, c ≠ '\n' := by
  intro c hc
  rw [floatToChars] at hc
  rcases List.mem_append.mp hc with h | h
  · by_cases hm : m < 0
    · rw [if_pos hm] at h
      simp at h
      subst h
      decide
    · rw [if_neg hm] at h
      simp at h
  · exact floatBody_no_nl _ _ c h

theorem hex4_no_nl (n : Nat) : ∀ c ∈ hex4 n, c ≠ '\n' := by
  have hne : ∀ x : Nat, x < 16 → hexDigit x ≠ '\n' := by
    intro x hx he
    have hh := (hexDigit_spec hx).1
    rw [he] at hh
    exact absurd hh (by decide)
  intro c hc
  rw [hex4] at hc
  simp only [List.mem_cons, List.not_mem_nil, or_false] at hc
  rcases hc with h | h | h | h <;>
    (subst h; exact hne _ (Nat.mod_lt _ (by omega)))

theorem escChar_no_nl (c : Char) : ∀ d ∈ escChar c, d ≠ '\n' := by
  intro d hd
  rw [escChar] at hd
  split_ifs at hd with h1 h2 h3 h4 h5 h6 h7 h8
  · simp only [List.mem_cons, List.not_mem_nil, or_false] at hd
    rcases hd with h | h <;> (subst h; decide)
  · simp only [List.mem_cons, List.not_mem_nil, or_false] at hd
    rcases hd with h | h <;> (subst h; decide)
  · simp only [List.mem_cons, List.not_mem_nil, or_false] at hd
    rcases hd with h | h <;> (subst h; decide)
  · simp only [List.mem_cons, List.not_mem_nil, or_false] at hd
    rcases hd with h | h <;> (subst h; decide)
  · simp only [List.mem_cons, List.not_mem_nil, or_false] at hd
    rcases hd with h | h <;> (subst h; decide)
  · simp only [List.mem_cons, List.not_mem_nil, or_false] at hd
    rcases hd with h | h <;> (subst h; decide)
  · simp only [List.mem_cons, List.not_mem_nil, or_false] at hd
    rcases hd with h | h <;> (subst h; decide)
  · rcases List.mem_cons.mp hd with h | h
    · subst h; decide
    · rcases List.mem_cons.mp h with h | h
      · subst h; decide
      · exact hex4_no_nl _ d h
  · simp only [List.mem_singleton] at hd
    subst hd
    intro he
    subst he
    exact h8 (by decide)

theorem escapeChars_no_nl : ∀ cs : List Char, ∀ d ∈ escapeChars cs, d ≠ '\n' := by
  intro cs
  induction cs with
  | nil => intro d hd; simp [escapeChars] at hd
  | cons c cs ih =>
      intro d hd
      rw [escapeChars] at hd
      rcases List.mem_append.mp hd with h | h
      · exact escChar_no_nl c d h
      · exact ih d h

theorem renderStr_no_nl (s : String) : ∀ c ∈ renderStr s, c ≠ '\n' := by
  intro c hc
  rw [renderStr] at hc
  rcases List.mem_cons.mp hc with h | h
  · subst h; decide
  · rcases List.mem_append.mp h with h | h
    · exact escapeChars_no_nl _ c h
    · simp at h; subst h; decide

theorem renderKey_no_nl (k : String) : ∀ c ∈ renderKey k, c ≠ '\n' := by
  intro c hc
  rw [renderKey] at hc
  by_cases hb : isBareKey k
  · rw [if_pos hb] at hc
    rw [isBareKey] at hb
    simp only [Bool.and_eq_true, List.all_eq_true] at hb
    exact (safe_ne (hb.2 c hc)).2.2.2.2.2.2.2.2.2.2
  · rw [if_neg hb] at hc
    exact renderStr_no_nl k c hc

theorem sep_no_nl {st : EncStrategy} (hsep : WfSep st.sep) :
    ∀ c ∈ st.sep.data, c ≠ '\n' := by
  obtain ⟨ws, hws, hall⟩ := hsep
  intro c hc
  rw [hws] at hc
  rcases List.mem_cons.mp hc with h | h
  · subst h; decide
  · rcases hall c h with h' | h' <;> (subst h'; decide)

theorem render_no_nl (st : EncStrategy) (hsep : WfSep st.sep) : ∀ n : Nat,
    (∀ v, valSize v ≤ n → ∀ c ∈ renderValue st v, c ≠ '\n')
    ∧ (∀ xs, seqSize xs ≤ n → ∀ c ∈ renderList st xs, c ≠ '\n')
    ∧ (∀ es, entsSize es ≤ n → ∀ c ∈ renderInline st es, c ≠ '\n') := by
  intro n
  induction n with
  | zero =>
      refine ⟨?_, ?_, ?_⟩
      · intro v hv
        cases v <;> simp [valSize] at hv
      · intro xs hxs
        cases xs with
        | nil => intro c hc; simp [renderList] at hc
        | cons x xs =>
            simp only [seqSize] at hxs
            omega
      · intro es hes
        cases es with
        | nil => intro c hc; simp [renderInline] at hc
        | cons e es =>
            obtain ⟨k, v⟩ := e
            simp only [entsSize] at hes
            omega
  | succ n ih =>
      refine ⟨?_, ?_, ?_⟩
      · intro v hv c hc
        cases v with
        | str s => exact renderStr_no_nl s c hc
        | int m => exact intToChars_no_nl m c hc
        | float m e => exact floatToChars_no_nl m e c hc
        | bool b =>
            cases b with
            | false =>
                have hc' : c ∈ ['f', 'a', 'l', 's', 'e'] := hc
                simp only [List.mem_cons, List.not_mem_nil, or_false] at hc'
                rcases hc' with h | h | h | h | h <;> (subst h; decide)
            | true =>
                have hc' : c ∈ ['t', 'r', 'u', 'e'] := hc
                simp only [List.mem_cons, List.not_mem_nil, or_false] at hc'
                rcases hc' with h | h | h | h <;> (subst h; decide)
        | arr xs =>
            simp only [renderValue] at hc
            rcases List.mem_cons.mp hc with h | h
            · subst h; decide
            · rcases List.mem_append.mp h with h | h
              · simp only [valSize] at hv
                exact ih.2.1 xs (by omega) c h
              · simp at h; subst h; decide
        | tup xs =>
            simp only [renderValue] at hc
            rcases List.mem_cons.mp hc with h | h
            · subst h; decide
            · rcases List.mem_append.mp h with h | h
              · simp only [valSize] at hv
                exact ih.2.1 xs (by omega) c h
              · simp at h; subst h; decide
        | table inl es =>
            simp only [renderValue] at hc
            rcases List.mem_cons.mp hc with h | h
            · subst h; decide
            · rcases List.mem_append.mp h with h | h
              · simp only [valSize] at hv
                exact ih.2.2 es (by omega) c h
              · simp at h; subst h; decide
      · intro xs hxs c hc
        cases xs with
        | nil => simp [renderList] at hc
        | cons x xs =>
            cases xs with
            | nil =>
                simp only [seqSize] at hxs
                exact ih.1 x (by simp [seqSize] at hxs; omega) c hc
            | cons y ys =>
                simp only [renderList] at hc
                simp only [seqSize] at hxs
                rcases List.mem_append.mp hc with h | h
                · exact ih.1 x (by omega) c h
                · rcases List.mem_append.mp h with h | h
                  · exact sep_no_nl hsep c h
                  · exact ih.2.1 (y :: ys) (by simp only [seqSize]; omega) c h
      · intro es hes c hc
        cases es with
        | nil => simp [renderInline] at hc
        | cons e es =>
            obtain ⟨k, v⟩ := e
            cases es with
            | nil =>
                simp only [renderInline] at hc
                rcases List.mem_append.mp hc with h | h
                · exact renderKey_no_nl k c h
                · simp only [entsSize] at hes
                  rcases List.mem_cons.mp h with h | h
                  · subst h; decide
                  · rcases List.mem_cons.mp h with h | h
                    · subst h; decide
                    · rcases List.mem_cons.mp h with h | h
                      · subst h; decide
                      · exact ih.1 v (by omega) c h
            | cons e2 es2 =>
                simp only [renderInline] at hc
                simp only [entsSize] at hes
                rcases List.mem_append.mp hc with h | h
                · rcases List.mem_append.mp h with h | h
                  · exact renderKey_no_nl k c h
                  · rcases List.mem_cons.mp h with h | h
                    · subst h; decide
                    · rcases List.mem_cons.mp h with h | h
                      · subst h; decide
                      · rcases List.mem_cons.mp h with h | h
                        · subst h; decide
                        · exact ih.1 v (by omega) c h
                · rcases List.mem_cons.mp h with h | h
                  · subst h; decide
                  · rcases List.mem_cons.mp h with h | h
                    · subst h; decide
                    · exact ih.2.2 (e2 :: es2) (by simp only [entsSize]; omega) c h

theorem renderValue_no_nl (st : EncStrategy) (hsep : WfSep st.sep) (v : TomlValue) :
    ∀ c ∈ renderValue st v, c ≠ '\n' :=
  (render_no_nl st hsep (valSize v)).1 v (Nat.le_refl _)

theorem renderPath_no_nl : ∀ p : List String, ∀ c ∈ renderPath p, c ≠ '\n' := by
  intro p
  induction p with
  | nil => intro c hc; simp [renderPath] at hc
  | cons k p' ih =>
      cases p' with
      | nil => exact fun c hc => renderKey_no_nl k c hc
      | cons k2 ks =>
          intro c hc
          rcases List.mem_append.mp hc with h | h
          · exact renderKey_no_nl k c h
          · rcases List.mem_cons.mp h with h | h
            · subst h; decide
            · exact ih c h

theorem renderLine_no_nl (st : EncStrategy) (hsep : WfSep st.sep) (l : Line) :
    ∀ c ∈ renderLine st l, c ≠ '\n' := by
  intro c hc
  cases l with
  | blank => simp [renderLine] at hc
  | header p =>
      simp only [renderLine] at hc
      rcases List.mem_cons.mp hc with h | h
      · subst h; decide
      · rcases List.mem_append.mp h with h | h
        · exact renderPath_no_nl p c h
        · simp at h; subst h; decide
  | kv k v =>
      simp only [renderLine] at hc
      rcases List.mem_append.mp hc with h | h
      · exact renderKey_no_nl k c h
      · rcases List.mem_cons.mp h with h | h
        · subst h; decide
        · rcases List.mem_cons.mp h with h | h
          · subst h; decide
          · rcases List.mem_cons.mp h with h | h
            · subst h; decide
            · exact renderValue_no_nl st hsep v c h

theorem splitLines_append (l rest : List Char) (h : ∀ c ∈ l, c ≠ '\n') :
    splitLines (l ++ '\n' :: rest) = l :: splitLines rest := by
  induction l with
  | nil =>
      show splitLines ('\n' :: rest) = _
      rw [splitLines, if_pos rfl]
  | cons c cs ih =>
      show splitLines (c :: (cs ++ '\n' :: rest)) = _
      rw [splitLines, if_neg (h c (by simp))]
      rw [ih (fun d hd => h d (by simp [hd]))]

theorem splitLines_linesToChars (st : EncStrategy) (hsep : WfSep st.sep) :
    ∀ ls : List Line, splitLines (linesToChars st ls) = ls.map (renderLine st) ++ [[]] := by
  intro ls
  induction ls with
  | nil => rfl
  | cons l ls ih =>
      show splitLines (renderLine st l ++ '\n' :: linesToChars st ls) = _
      rw [splitLines_append _ _ (renderLine_no_nl st hsep l), ih]
      rfl

theorem parseAllLines_map (st : EncStrategy) (hsep : WfSep st.sep) :
    ∀ ls : List Line, (∀ p, Line.header p ∈ ls → p ≠ []) →
    parseAllLines (ls.map (renderLine st) ++ [[]])
      = some (ls.map reparseLine ++ [Line.blank]) := by
  intro ls
  induction ls with
  | nil => intro _; rfl
  | cons l ls ih =>
      intro hh
      show parseAllLines (renderLine st l :: (ls.map (renderLine st) ++ [[]])) = _
      rw [parseAllLines]
      have hl : parseLine (renderLine st l) = some (reparseLine l) := by
        cases l with
        | blank => rfl
        | header p => exact parseLine_header st p (hh p (by simp))
        | kv k v => exact parseLine_kv st hsep k v
      rw [hl, Option.some_bind, ih (fun p hp => hh p (by simp [hp]))]
      rfl

theorem procLines_append (xs ys : List Line) : ∀ s : DecState,
    procLines s (xs ++ ys) = (procLines s xs).bind (fun s2 => procLines s2 ys) := by
  induction xs with
  | nil => intro s; rfl
  | cons x xs ih =>
      intro s
      show procLines s (x :: (xs ++ ys)) = _
      rw [procLines, procLines, Option.bind_assoc]
      cases procLine s x with
      | none => rfl
      | some s1 =>
          rw [Option.some_bind, Option.some_bind, ih s1]

theorem lookupKV_cons_self (k : String) (v : TomlValue) (es : Entries) :
    lookupKV ((k, v) :: es) k = some v := by
  rw [lookupKV, if_pos rfl]

theorem containsKey_cons_self (k : String) (v : TomlValue) (es : Entries) :
    containsKey ((k, v) :: es) k = true := by
  rw [containsKey, lookupKV_cons_self]
  rfl

theorem containsKey_cons_of_mem (k0 k : String) (v : TomlValue) (es : Entries)
    (h : containsKey es k = true) : containsKey ((k0, v) :: es) k = true := by
  rw [containsKey, lookupKV]
  by_cases he : k0 = k
  · rw [if_pos he]; rfl
  · rw [if_neg he]; exact h

theorem containsKey_cons_elim {k0 k : String} {v : TomlValue} {es : Entries}
    (h : containsKey ((k0, v) :: es) k = true) : k0 = k ∨ containsKey es k = true := by
  rw [containsKey, lookupKV] at h
  by_cases he : k0 = k
  · exact Or.inl he
  · rw [if_neg he] at h
    exact Or.inr h

theorem containsKey_cons_false {k0 k : String} {v : TomlValue} {es : Entries}
    (hne : k0 ≠ k) (h : containsKey es k = false) :
    containsKey ((k0, v) :: es) k = false := by
  rw [containsKey, lookupKV, if_neg hne]
  exact h

theorem lookupKV_append_left_none : ∀ (t u : Entries) (k : String),
    containsKey t k = false → lookupKV (t ++ u) k = lookupKV u k := by
  intro t
  induction t with
  | nil => intro u k _; rfl
  | cons e t ih =>
      intro u k h
      obtain ⟨k0, v⟩ := e
      have hne : k0 ≠ k := by
        intro he
        subst he
        rw [containsKey_cons_self] at h
        exact absurd h (by simp)
      show lookupKV ((k0, v) :: (t ++ u)) k = _
      rw [lookupKV, if_neg hne]
      exact ih u k (by
        rw [containsKey, lookupKV, if_neg hne] at h
        exact h)

theorem lookupKV_append_fresh (t : Entries) (k : String) (x : TomlValue)
    (h : containsKey t k = false) : lookupKV (t ++ [(k, x)]) k = some x := by
  rw [lookupKV_append_left_none t _ k h, lookupKV_cons_self]

theorem containsKey_append_false {t u : Entries} {k : String}
    (ht : containsKey t k = false) (hu : containsKey u k = false) :
    containsKey (t ++ u) k = false := by
  rw [containsKey, lookupKV_append_left_none t u k ht]
  exact hu

theorem containsKey_single_false {k0 k : String} {x : TomlValue} (hne : k0 ≠ k) :
    containsKey [(k0, x)] k = false := by
  rw [containsKey, lookupKV, if_neg hne]
  rfl

theorem replaceKV_lookup_self : ∀ (es : Entries) (k : String) (w : TomlValue),
    lookupKV es k = some w → replaceKV es k w = es := by
  intro es
  induction es with
  | nil => intro k w h; simp [lookupKV] at h
  | cons e es ih =>
      intro k w h
      obtain ⟨k0, v⟩ := e
      rw [lookupKV] at h
      rw [replaceKV]
      by_cases he : k0 = k
      · rw [if_pos he] at h ⊢
        subst he
        simp at h
        rw [h]
      · rw [if_neg he] at h ⊢
        rw [ih k w h]

theorem lookupKV_replaceKV_self : ∀ (es : Entries) (k : String) (w : TomlValue),
    containsKey es k = true → lookupKV (replaceKV es k w) k = some w := by
  intro es
  induction es with
  | nil => intro k w h; simp [containsKey, lookupKV] at h
  | cons e es ih =>
      intro k w h
      obtain ⟨k0, v⟩ := e
      rw [replaceKV]
      by_cases he : k0 = k
      · rw [if_pos he, lookupKV_cons_self]
      · rw [if_neg he]
        rw [lookupKV, if_neg he]
        rcases containsKey_cons_elim h with h' | h'
        · exact absurd h' he
        · exact ih k w h'

theorem lookupKV_replaceKV_other : ∀ (es : Entries) (k k2 : String) (w : TomlValue),
    k ≠ k2 → lookupKV (replaceKV es k w) k2 = lookupKV es k2 := by
  intro es
  induction es with
  | nil => intro k k2 w _; rfl
  | cons e es ih =>
      intro k k2 w hne
      obtain ⟨k0, v⟩ := e
      rw [replaceKV]
      by_cases he : k0 = k
      · rw [if_pos he]
        subst he
        rw [lookupKV, lookupKV, if_neg hne]
        rw [if_neg hne]
      · rw [if_neg he]
        rw [lookupKV, lookupKV]
        by_cases he2 : k0 = k2
        · rw [if_pos he2, if_pos he2]
        · rw [if_neg he2, if_neg he2]
          exact ih k k2 w hne

theorem replaceKV_replaceKV : ∀ (es : Entries) (k : String) (w w2 : TomlValue),
    replaceKV (replaceKV es k w) k w2 = replaceKV es k w2 := by
  intro es
  induction es with
  | nil => intro k w w2; rfl
  | cons e es ih =>
      intro k w w2
      obtain ⟨k0, v⟩ := e
      rw [replaceKV]
      by_cases he : k0 = k
      · rw [if_pos he]
        rw [replaceKV, if_pos rfl, replaceKV, if_pos he]
      · rw [if_neg he]
        rw [replaceKV, if_neg he, replaceKV, if_neg he, ih]

theorem replaceKV_append_fresh (t : Entries) (k : String) (x w : TomlValue)
    (h : containsKey t k = false) :
    replaceKV (t ++ [(k, x)]) k w = t ++ [(k, w)] := by
  induction t with
  | nil => rw [List.nil_append, List.nil_append, replaceKV, if_pos rfl]
  | cons e t ih =>
      obtain ⟨k0, v⟩ := e
      have hne : k0 ≠ k := by
        intro he
        subst he
        rw [containsKey_cons_self] at h
        exact absurd h (by simp)
      show replaceKV ((k0, v) :: (t ++ [(k, x)])) k w = (k0, v) :: (t ++ [(k, w)])
      rw [replaceKV, if_neg hne]
      rw [ih (by
        rw [containsKey, lookupKV, if_neg hne] at h
        exact h)]

theorem lookupKV_eq_none_of_not_contains {es : Entries} {k : String}
    (h : containsKey es k = false) : lookupKV es k = none := by
  rw [containsKey] at h
  cases hl : lookupKV es k with
  | none => rfl
  | some v => rw [hl] at h; exact absurd h (by simp)

theorem containsKey_of_lookup_some {es : Entries} {k : String} {v : TomlValue}
    (h : lookupKV es k = some v) : containsKey es k = true := by
  rw [containsKey, h]
  rfl

theorem getPath_cons_table {R : Entries} {k : String} {inl : Bool} {sub : Entries}
    (h : lookupKV R k = some (.table inl sub)) (p : List String) :
    getPath R (k :: p) = getPath sub p := by
  rw [getPath, h]

theorem updateAt_cons_table {R : Entries} {k : String} {inl : Bool} {sub : Entries}
    (h : lookupKV R k = some (.table inl sub)) (p : List String)
    (f : Entries → Option Entries) :
    updateAt R (k :: p) f
      = (updateAt sub p f).map (fun s => replaceKV R k (TomlValue.table inl s)) := by
  rw [updateAt, h]

theorem ensurePath_cons_table {R : Entries} {k : String} {inl : Bool} {sub : Entries}
    (h : lookupKV R k = some (.table inl sub)) (p : List String) :
    ensurePath R (k :: p)
      = (ensurePath sub p).map (fun s => replaceKV R k (TomlValue.table inl s)) := by
  rw [ensurePath, h]

theorem getPath_append : ∀ (p q : List String) (R : Entries),
    getPath R (p ++ q) = (getPath R p).bind (fun t => getPath t q) := by
  intro p
  induction p with
  | nil => intro q R; rfl
  | cons k p' ih =>
      intro q R
      show getPath R (k :: (p' ++ q)) = _
      rw [getPath]
      cases h : lookupKV R k with
      | none => rw [getPath, h]; rfl
      | some v =>
          cases v with
          | table inl sub =>
              rw [getPath, h]
              exact ih q sub
          | str s => rw [getPath, h]; rfl
          | int n => rw [getPath, h]; rfl
          | float m e => rw [getPath, h]; rfl
          | bool b => rw [getPath, h]; rfl
          | arr xs => rw [getPath, h]; rfl
          | tup xs => rw [getPath, h]; rfl

theorem updateAt_append : ∀ (p q : List String) (R : Entries)
    (f : Entries → Option Entries),
    updateAt R (p ++ q) f = updateAt R p (fun es => updateAt es q f) := by
  intro p
  induction p with
  | nil => intro q R f; rfl
  | cons k p' ih =>
      intro q R f
      show updateAt R (k :: (p' ++ q)) f = _
      rw [updateAt]
      cases h : lookupKV R k with
      | none => rw [updateAt, h]
      | some v =>
          cases v with
          | table inl sub =>
              rw [updateAt, h]
              exact congrArg
                (Option.map (fun s => replaceKV R k (TomlValue.table inl s))) (ih q sub f)
          | str s => rw [updateAt, h]
          | int n => rw [updateAt, h]
          | float m e => rw [updateAt, h]
          | bool b => rw [updateAt, h]
          | arr xs => rw [updateAt, h]
          | tup xs => rw [updateAt, h]

theorem updateAt_eq_of_agree : ∀ (p : List String) (R t : Entries)
    (f g : Entries → Option Entries),
    getPath R p = some t → f t = g t → updateAt R p f = updateAt R p g := by
  intro p
  induction p with
  | nil =>
      intro R t f g hget hfg
      have ht : R = t := by
        have : some R = some t := hget
        exact Option.some.inj this
      subst ht
      exact hfg
  | cons k p' ih =>
      intro R t f g hget hfg
      rw [getPath] at hget
      cases h : lookupKV R k with
      | none => rw [h] at hget; exact absurd hget (by simp)
      | some v =>
          cases v with
          | table inl sub =>
              rw [h] at hget
              have hget2 : getPath sub p' = some t := hget
              rw [updateAt_cons_table h, updateAt_cons_table h]
              rw [ih sub t f g hget2 hfg]
          | str s => rw [h] at hget; exact absurd hget (by simp)
          | int n => rw [h] at hget; exact absurd hget (by simp)
          | float m e => rw [h] at hget; exact absurd hget (by simp)
          | bool b => rw [h] at hget; exact absurd hget (by simp)
          | arr xs => rw [h] at hget; exact absurd hget (by simp)
          | tup xs => rw [h] at hget; exact absurd hget (by simp)

theorem updateAt_exists : ∀ (p : List String) (R t : Entries)
    (f : Entries → Option Entries) (t' : Entries),
    getPath R p = some t → f t = some t' →
    ∃ R', updateAt R p f = some R' ∧ getPath R' p = some t' := by
  intro p
  induction p with
  | nil =>
      intro R t f t' hget hf
      have ht : R = t := Option.some.inj hget
      subst ht
      exact ⟨t', hf, rfl⟩
  | cons k p' ih =>
      intro R t f t' hget hf
      rw [getPath] at hget
      cases h : lookupKV R k with
      | none => rw [h] at hget; exact absurd hget (by simp)
      | some v =>
          cases v with
          | table inl sub =>
              rw [h] at hget
              have hget2 : getPath sub p' = some t := hget
              obtain ⟨sub', hup, hgp⟩ := ih sub t f t' hget2 hf
              refine ⟨replaceKV R k (.table inl sub'), ?_, ?_⟩
              · rw [updateAt_cons_table h, hup]
                rfl
              · rw [getPath_cons_table
                  (lookupKV_replaceKV_self R k _ (containsKey_of_lookup_some h))]
                exact hgp
          | str s => rw [h] at hget; exact absurd hget (by simp)
          | int n => rw [h] at hget; exact absurd hget (by simp)
          | float m e => rw [h] at hget; exact absurd hget (by simp)
          | bool b => rw [h] at hget; exact absurd hget (by simp)
          | arr xs => rw [h] at hget; exact absurd hget (by simp)
          | tup xs => rw [h] at hget; exact absurd hget (by simp)

theorem updateAt_some_id : ∀ (p : List String) (R t : Entries),
    getPath R p = some t → updateAt R p some = some R := by
  intro p
  induction p with
  | nil => intro R t _; rfl
  | cons k p' ih =>
      intro R t hget
      rw [getPath] at hget
      cases h : lookupKV R k with
      | none => rw [h] at hget; exact absurd hget (by simp)
      | some v =>
          cases v with
          | table inl sub =>
              rw [h] at hget
              have hget2 : getPath sub p' = some t := hget
              rw [updateAt_cons_table h, ih sub t hget2]
              show some (replaceKV R k (.table inl sub)) = some R
              rw [replaceKV_lookup_self R k _ h]
          | str s => rw [h] at hget; exact absurd hget (by simp)
          | int n => rw [h] at hget; exact absurd hget (by simp)
          | float m e => rw [h] at hget; exact absurd hget (by simp)
          | bool b => rw [h] at hget; exact absurd hget (by simp)
          | arr xs => rw [h] at hget; exact absurd hget (by simp)
          | tup xs => rw [h] at hget; exact absurd hget (by simp)

theorem updateAt_comp : ∀ (p : List String) (R R1 R2 : Entries)
    (f g : Entries → Option Entries),
    updateAt R p f = some R1 → updateAt R1 p g = some R2 →
    updateAt R p (fun t => (f t).bind g) = some R2 := by
  intro p
  induction p with
  | nil =>
      intro R R1 R2 f g h1 h2
      show (f R).bind g = some R2
      have hf : f R = some R1 := h1
      rw [hf, Option.some_bind]
      exact h2
  | cons k p' ih =>
      intro R R1 R2 f g h1 h2
      rw [updateAt] at h1
      cases h : lookupKV R k with
      | none => rw [h] at h1; exact absurd h1 (by simp)
      | some v =>
          cases v with
          | table inl sub =>
              rw [h] at h1
              obtain ⟨sub1, hup1, hR1⟩ := Option.map_eq_some'.mp h1
              rw [updateAt] at h2
              have hl1 : lookupKV R1 k = some (.table inl sub1) := by
                rw [← hR1]
                exact lookupKV_replaceKV_self R k _ (containsKey_of_lookup_some h)
              rw [hl1] at h2
              obtain ⟨sub2, hup2, hR2⟩ := Option.map_eq_some'.mp h2
              rw [updateAt_cons_table h, ih sub sub1 sub2 f g hup1 hup2]
              show some (replaceKV R k (.table inl sub2)) = some R2
              rw [← hR2, ← hR1, replaceKV_replaceKV]
          | str s => rw [h] at h1; exact absurd h1 (by simp)
          | int n => rw [h] at h1; exact absurd h1 (by simp)
          | float m e => rw [h] at h1; exact absurd h1 (by simp)
          | bool b => rw [h] at h1; exact absurd h1 (by simp)
          | arr xs => rw [h] at h1; exact absurd h1 (by simp)
          | tup xs => rw [h] at h1; exact absurd h1 (by simp)

theorem ensurePath_append_one : ∀ (p : List String) (R t : Entries) (k : String),
    getPath R p = some t → containsKey t k = false →
    ensurePath R (p ++ [k])
      = updateAt R p (fun c => some (c ++ [(k, TomlValue.table false [])])) := by
  intro p
  induction p with
  | nil =>
      intro R t k hget hfree
      have ht : R = t := Option.some.inj hget
      subst ht
      show ensurePath R [k] = some (R ++ [(k, TomlValue.table false [])])
      rw [ensurePath, lookupKV_eq_none_of_not_contains hfree]
      rfl
  | cons k0 p' ih =>
      intro R t k hget hfree
      rw [getPath] at hget
      cases h : lookupKV R k0 with
      | none => rw [h] at hget; exact absurd hget (by simp)
      | some v =>
          cases v with
          | table inl sub =>
              rw [h] at hget
              have hget2 : getPath sub p' = some t := hget
              show ensurePath R (k0 :: (p' ++ [k])) = _
              rw [ensurePath_cons_table h, updateAt_cons_table h]
              rw [ih sub t k hget2 hfree]
          | str s => rw [h] at hget; exact absurd hget (by simp)
          | int n => rw [h] at hget; exact absurd hget (by simp)
          | float m e => rw [h] at hget; exact absurd hget (by simp)
          | bool b => rw [h] at hget; exact absurd hget (by simp)
          | arr xs => rw [h] at hget; exact absurd hget (by simp)
          | tup xs => rw [h] at hget; exact absurd hget (by simp)

theorem bnot_eq_false {b : Bool} (h : (!b) = false) : b = true := by
  cases b
  · exact absurd h (by decide)
  · rfl

theorem bnot_eq_true {b : Bool} (h : (!b) = true) : b = false := by
  cases b
  · rfl
  · exact absurd h (by decide)

theorem isSectionEntry_false_elim {st : EncStrategy} {k : String} {inl : Bool}
    {sub : Entries} (h : isSectionEntry st (k, .table inl sub) = false) :
    (st.preserve && inl) = true :=
  bnot_eq_false h

theorem isSectionEntry_true_elim {st : EncStrategy} {k : String} {inl : Bool}
    {sub : Entries} (h : isSectionEntry st (k, .table inl sub) = true) :
    (st.preserve && inl) = false :=
  bnot_eq_true h

theorem isSectionEntry_nontable_str (st : EncStrategy) (k : String) (s : String) :
    isSectionEntry st (k, .str s) = false := rfl

theorem encLines_cons_kv (st : EncStrategy) (pfx : List String) (k : String)
    (v : TomlValue) (rest : Entries) (h : isSectionEntry st (k, v) = false) :
    encLines st pfx ((k, v) :: rest)
      = (Line.kv k v :: (encLines st pfx rest).1, (encLines st pfx rest).2) := by
  cases v with
  | table inl sub =>
      have hpi : (st.preserve && inl) = true := isSectionEntry_false_elim h
      rw [encLines.eq_2, if_pos hpi]
  | str s => rw [encLines.eq_3 st pfx k _ rest (fun _ _ hx => TomlValue.noConfusion hx)]
  | int n => rw [encLines.eq_3 st pfx k _ rest (fun _ _ hx => TomlValue.noConfusion hx)]
  | float m e => rw [encLines.eq_3 st pfx k _ rest (fun _ _ hx => TomlValue.noConfusion hx)]
  | bool b => rw [encLines.eq_3 st pfx k _ rest (fun _ _ hx => TomlValue.noConfusion hx)]
  | arr xs => rw [encLines.eq_3 st pfx k _ rest (fun _ _ hx => TomlValue.noConfusion hx)]
  | tup xs => rw [encLines.eq_3 st pfx k _ rest (fun _ _ hx => TomlValue.noConfusion hx)]

theorem encLines_cons_sec (st : EncStrategy) (pfx : List String) (k : String)
    (inl : Bool) (sub rest : Entries) (h : (st.preserve && inl) = false) :
    encLines st pfx ((k, .table inl sub) :: rest)
      = ((encLines st pfx rest).1,
          (Line.header (pfx ++ [k]) ::
            ((encLines st (pfx ++ [k]) sub).1 ++ (encLines st (pfx ++ [k]) sub).2))
            ++ (encLines st pfx rest).2) := by
  rw [encLines.eq_2, if_neg (by simp [h])]

theorem reparseTable_cons_kv (st : EncStrategy) (k : String)
    (v : TomlValue) (rest : Entries) (h : isSectionEntry st (k, v) = false) :
    reparseTable st ((k, v) :: rest)
      = ((k, reparseVal v) :: (reparseTable st rest).1, (reparseTable st rest).2) := by
  cases v with
  | table inl sub =>
      have hpi : (st.preserve && inl) = true := isSectionEntry_false_elim h
      rw [reparseTable.eq_2, if_pos hpi]
  | str s => rw [reparseTable.eq_3 st k _ rest (fun _ _ hx => TomlValue.noConfusion hx)]
  | int n => rw [reparseTable.eq_3 st k _ rest (fun _ _ hx => TomlValue.noConfusion hx)]
  | float m e => rw [reparseTable.eq_3 st k _ rest (fun _ _ hx => TomlValue.noConfusion hx)]
  | bool b => rw [reparseTable.eq_3 st k _ rest (fun _ _ hx => TomlValue.noConfusion hx)]
  | arr xs => rw [reparseTable.eq_3 st k _ rest (fun _ _ hx => TomlValue.noConfusion hx)]
  | tup xs => rw [reparseTable.eq_3 st k _ rest (fun _ _ hx => TomlValue.noConfusion hx)]

theorem reparseTable_cons_sec (st : EncStrategy) (k : String)
    (inl : Bool) (sub rest : Entries) (h : (st.preserve && inl) = false) :
    reparseTable st ((k, .table inl sub) :: rest)
      = ((reparseTable st rest).1,
          (k, TomlValue.table false ((reparseTable st sub).1 ++ (reparseTable st sub).2))
            :: (reparseTable st rest).2) := by
  rw [reparseTable.eq_2, if_neg (by simp [h])]

theorem encLines_kv_fst (st : EncStrategy) (pfx : List String) (k : String)
    (v : TomlValue) (rest : Entries) (h : isSectionEntry st (k, v) = false) :
    (encLines st pfx ((k, v) :: rest)).1 = Line.kv k v :: (encLines st pfx rest).1 := by
  rw [encLines_cons_kv st pfx k v rest h]

theorem encLines_kv_snd (st : EncStrategy) (pfx : List String) (k : String)
    (v : TomlValue) (rest : Entries) (h : isSectionEntry st (k, v) = false) :
    (encLines st pfx ((k, v) :: rest)).2 = (encLines st pfx rest).2 := by
  rw [encLines_cons_kv st pfx k v rest h]

theorem encLines_sec_fst (st : EncStrategy) (pfx : List String) (k : String)
    (inl : Bool) (sub rest : Entries) (h : (st.preserve && inl) = false) :
    (encLines st pfx ((k, .table inl sub) :: rest)).1 = (encLines st pfx rest).1 := by
  rw [encLines_cons_sec st pfx k inl sub rest h]

theorem encLines_sec_snd (st : EncStrategy) (pfx : List String) (k : String)
    (inl : Bool) (sub rest : Entries) (h : (st.preserve && inl) = false) :
    (encLines st pfx ((k, .table inl sub) :: rest)).2
      = (Line.header (pfx ++ [k]) ::
          ((encLines st (pfx ++ [k]) sub).1 ++ (encLines st (pfx ++ [k]) sub).2))
          ++ (encLines st pfx rest).2 := by
  rw [encLines_cons_sec st pfx k inl sub rest h]

theorem reparseTable_kv_fst (st : EncStrategy) (k : String)
    (v : TomlValue) (rest : Entries) (h : isSectionEntry st (k, v) = false) :
    (reparseTable st ((k, v) :: rest)).1
      = (k, reparseVal v) :: (reparseTable st rest).1 := by
  rw [reparseTable_cons_kv st k v rest h]

theorem reparseTable_kv_snd (st : EncStrategy) (k : String)
    (v : TomlValue) (rest : Entries) (h : isSectionEntry st (k, v) = false) :
    (reparseTable st ((k, v) :: rest)).2 = (reparseTable st rest).2 := by
  rw [reparseTable_cons_kv st k v rest h]

theorem reparseTable_sec_fst (st : EncStrategy) (k : String)
    (inl : Bool) (sub rest : Entries) (h : (st.preserve && inl) = false) :
    (reparseTable st ((k, .table inl sub) :: rest)).1 = (reparseTable st rest).1 := by
  rw [reparseTable_cons_sec st k inl sub rest h]

theorem reparseTable_sec_snd (st : EncStrategy) (k : String)
    (inl : Bool) (sub rest : Entries) (h : (st.preserve && inl) = false) :
    (reparseTable st ((k, .table inl sub) :: rest)).2
      = (k, TomlValue.table false ((reparseTable st sub).1 ++ (reparseTable st sub).2))
          :: (reparseTable st rest).2 := by
  rw [reparseTable_cons_sec st k inl sub rest h]

theorem containsKey_cons_false_elim {k0 k : String} {v : TomlValue} {es : Entries}
    (h : containsKey ((k0, v) :: es) k = false) :
    k0 ≠ k ∧ containsKey es k = false := by
  constructor
  · intro he
    subst he
    rw [containsKey_cons_self] at h
    exact absurd h (by simp)
  · rw [containsKey, lookupKV] at h
    by_cases he : k0 = k
    · rw [if_pos he] at h
      exact absurd h (by simp)
    · rw [if_neg he] at h
      exact h

theorem nodup_cons_elim {k : String} {v : TomlValue} {es : Entries}
    (h : nodupKeys ((k, v) :: es) = true) :
    containsKey es k = false ∧ nodupKeys es = true := by
  rw [nodupKeys] at h
  simp only [Bool.and_eq_true] at h
  exact ⟨bnot_eq_true h.1, h.2⟩

theorem wfEnt_cons_elim {k : String} {v : TomlValue} {es : Entries}
    (h : wfEnt ((k, v) :: es) = true) : wfV v = true ∧ wfEnt es = true := by
  rw [wfEnt] at h
  simp only [Bool.and_eq_true] at h
  exact h

theorem wfV_table_elim {inl : Bool} {es : Entries}
    (h : wfV (.table inl es) = true) : nodupKeys es = true ∧ wfEnt es = true := by
  rw [wfV] at h
  simp only [Bool.and_eq_true] at h
  exact h

theorem reparseTable_keys (st : EncStrategy) : ∀ (es : Entries) (k : String),
    containsKey es k = false →
    containsKey (reparseTable st es).1 k = false
      ∧ containsKey (reparseTable st es).2 k = false := by
  intro es
  induction es with
  | nil =>
      intro k _
      rw [reparseTable]
      exact ⟨rfl, rfl⟩
  | cons e rest ih =>
      intro k hfree
      obtain ⟨k0, v⟩ := e
      obtain ⟨hne, hfree'⟩ := containsKey_cons_false_elim hfree
      have hih := ih k hfree'
      by_cases hsec : isSectionEntry st (k0, v) = true
      · cases v with
        | table inl sub =>
            rw [reparseTable_cons_sec st k0 inl sub rest (isSectionEntry_true_elim hsec)]
            exact ⟨hih.1, containsKey_cons_false hne hih.2⟩
        | str s => exact absurd hsec (by simp [isSectionEntry])
        | int n => exact absurd hsec (by simp [isSectionEntry])
        | float m e => exact absurd hsec (by simp [isSectionEntry])
        | bool b => exact absurd hsec (by simp [isSectionEntry])
        | arr xs => exact absurd hsec (by simp [isSectionEntry])
        | tup xs => exact absurd hsec (by simp [isSectionEntry])
      · rw [reparseTable_cons_kv st k0 v rest (by
          cases hb : isSectionEntry st (k0, v)
          · rfl
          · exact absurd hb hsec)]
        exact ⟨containsKey_cons_false hne hih.1, hih.2⟩

theorem reparseTable_split (st : EncStrategy) : ∀ (es : Entries),
    nodupKeys es = true → ∀ k, containsKey (reparseTable st es).1 k = true →
    containsKey (reparseTable st es).2 k = false := by
  intro es
  induction es with
  | nil =>
      intro _ k h1
      rw [reparseTable] at h1
      exact absurd h1 (by simp [containsKey, lookupKV])
  | cons e rest ih =>
      intro hnd k h1
      obtain ⟨k0, v⟩ := e
      obtain ⟨hf0, hnd'⟩ := nodup_cons_elim hnd
      by_cases hsec : isSectionEntry st (k0, v) = true
      · cases v with
        | table inl sub =>
            rw [reparseTable_cons_sec st k0 inl sub rest (isSectionEntry_true_elim hsec)]
              at h1 ⊢
            have hne : k0 ≠ k := by
              intro he
              subst he
              exact absurd h1 (by
                have := (reparseTable_keys st rest k0 hf0).1
                simp [this])
            exact containsKey_cons_false hne (ih hnd' k h1)
        | str s => exact absurd hsec (by simp [isSectionEntry])
        | int n => exact absurd hsec (by simp [isSectionEntry])
        | float m e => exact absurd hsec (by simp [isSectionEntry])
        | bool b => exact absurd hsec (by simp [isSectionEntry])
        | arr xs => exact absurd hsec (by simp [isSectionEntry])
        | tup xs => exact absurd hsec (by simp [isSectionEntry])
      · have hkv : isSectionEntry st (k0, v) = false := by
          cases hb : isSectionEntry st (k0, v)
          · rfl
          · exact absurd hb hsec
        rw [reparseTable_cons_kv st k0 v rest hkv] at h1 ⊢
        rcases containsKey_cons_elim h1 with he | hmem
        · subst he
          exact (reparseTable_keys st rest k0 hf0).2
        · exact ih hnd' k hmem

theorem kv_phase (st : EncStrategy) : ∀ (es R t : Entries) (p : List String),
    getPath R p = some t →
    (∀ k, containsKey (reparseTable st es).1 k = true → containsKey t k = false) →
    nodupKeys es = true →
    ∃ R', procLines (R, p) ((encLines st p es).1.map reparseLine) = some (R', p)
      ∧ updateAt R p (fun c => some (c ++ (reparseTable st es).1)) = some R'
      ∧ getPath R' p = some (t ++ (reparseTable st es).1) := by
  intro es
  induction es with
  | nil =>
      intro R t p hget hdisj hnd
      refine ⟨R, ?_, ?_, ?_⟩
      · rw [encLines]
        rfl
      · have hagree : (fun c => some (c ++ (reparseTable st ([] : Entries)).1)) t
            = (some : Entries → Option Entries) t := by
          show some (t ++ (reparseTable st ([] : Entries)).1) = some t
          rw [reparseTable]
          show some (t ++ []) = some t
          rw [List.append_nil]
        rw [updateAt_eq_of_agree p R t _ some hget hagree]
        exact updateAt_some_id p R t hget
      · rw [reparseTable]
        show getPath R p = some (t ++ [])
        rw [List.append_nil]
        exact hget
  | cons e rest ih =>
      intro R t p hget hdisj hnd
      obtain ⟨k, v⟩ := e
      obtain ⟨hf0, hnd'⟩ := nodup_cons_elim hnd
      by_cases hsec : isSectionEntry st (k, v) = true
      · cases v with
        | table inl sub =>
            have hpi := isSectionEntry_true_elim hsec
            rw [reparseTable_sec_fst st k inl sub rest hpi] at hdisj
            rw [encLines_sec_fst st p k inl sub rest hpi,
              reparseTable_sec_fst st k inl sub rest hpi]
            exact ih R t p hget hdisj hnd'
        | str s => exact absurd hsec (by simp [isSectionEntry])
        | int n => exact absurd hsec (by simp [isSectionEntry])
        | float m e => exact absurd hsec (by simp [isSectionEntry])
        | bool b => exact absurd hsec (by simp [isSectionEntry])
        | arr xs => exact absurd hsec (by simp [isSectionEntry])
        | tup xs => exact absurd hsec (by simp [isSectionEntry])
      · have hkv : isSectionEntry st (k, v) = false := by
          cases hb : isSectionEntry st (k, v)
          · rfl
          · exact absurd hb hsec
        rw [reparseTable_kv_fst st k v rest hkv] at hdisj
        rw [encLines_kv_fst st p k v rest hkv, reparseTable_kv_fst st k v rest hkv]
        have hfree_t : containsKey t k = false :=
          hdisj k (containsKey_cons_self k (reparseVal v) (reparseTable st rest).1)
        have hstep : (fun es2 => if containsKey es2 k then none
            else some (es2 ++ [(k, reparseVal v)])) t
              = some (t ++ [(k, reparseVal v)]) := by
          show (if containsKey t k then none else some (t ++ [(k, reparseVal v)])) = _
          rw [hfree_t]
          rfl
        obtain ⟨R1, hupd1, hget1⟩ := updateAt_exists p R t
          (fun es2 => if containsKey es2 k then none else some (es2 ++ [(k, reparseVal v)]))
          (t ++ [(k, reparseVal v)]) hget hstep
        have hdisj1 : ∀ k2, containsKey (reparseTable st rest).1 k2 = true →
            containsKey (t ++ [(k, reparseVal v)]) k2 = false := by
          intro k2 hk2
          have hne : k ≠ k2 := by
            intro he
            subst he
            have hz := (reparseTable_keys st rest k hf0).1
            rw [hz] at hk2
            exact absurd hk2 (by simp)
          exact containsKey_append_false
            (hdisj k2 (containsKey_cons_of_mem k k2 (reparseVal v) _ hk2))
            (containsKey_single_false hne)
        obtain ⟨R2, hproc2, hupd2, hget2⟩ :=
          ih R1 (t ++ [(k, reparseVal v)]) p hget1 hdisj1 hnd'
        have hpl : procLine (R, p) (Line.kv k (reparseVal v)) = some (R1, p) := by
          show (updateAt R p (fun es2 => if containsKey es2 k then none
            else some (es2 ++ [(k, reparseVal v)]))).map (fun root' => (root', p))
              = some (R1, p)
          rw [hupd1]
          rfl
        refine ⟨R2, ?_, ?_, ?_⟩
        · show procLines (R, p) (Line.kv k (reparseVal v)
              :: (encLines st p rest).1.map reparseLine) = some (R2, p)
          rw [procLines, hpl, Option.some_bind]
          exact hproc2
        · have hcomp := updateAt_comp p R R1 R2 _ _ hupd1 hupd2
          have hagree : (fun t2 => ((fun es2 => if containsKey es2 k then none
                else some (es2 ++ [(k, reparseVal v)])) t2).bind
                  (fun c => some (c ++ (reparseTable st rest).1))) t
              = (fun c => some (c ++ ((k, reparseVal v)
                  :: (reparseTable st rest).1))) t := by
            show ((if containsKey t k then none
                else some (t ++ [(k, reparseVal v)])).bind
                  (fun c => some (c ++ (reparseTable st rest).1)))
              = some (t ++ ((k, reparseVal v) :: (reparseTable st rest).1))
            rw [hfree_t]
            show some ((t ++ [(k, reparseVal v)]) ++ (reparseTable st rest).1) = _
            rw [List.append_assoc]
            rfl
          rw [← updateAt_eq_of_agree p R t
            (fun t2 => ((fun es2 => if containsKey es2 k then none
              else some (es2 ++ [(k, reparseVal v)])) t2).bind
                (fun c => some (c ++ (reparseTable st rest).1)))
            (fun c => some (c ++ ((k, reparseVal v) :: (reparseTable st rest).1)))
            hget hagree]
          exact hcomp
        · have hassoc : (t ++ [(k, reparseVal v)]) ++ (reparseTable st rest).1
              = t ++ ((k, reparseVal v) :: (reparseTable st rest).1) := by
            rw [List.append_assoc]
            rfl
          rw [← hassoc]
          exact hget2

theorem sec_phase_nil (st : EncStrategy) (R t : Entries) (p cur : List String)
    (hget : getPath R p = some t) :
    ∃ R' cur', procLines (R, cur) ((encLines st p ([] : Entries)).2.map reparseLine)
        = some (R', cur')
      ∧ updateAt R p (fun c => some (c ++ (reparseTable st ([] : Entries)).2)) = some R'
      ∧ getPath R' p = some (t ++ (reparseTable st ([] : Entries)).2) := by
  refine ⟨R, cur, ?_, ?_, ?_⟩
  · rw [encLines]
    rfl
  · have hagree : (fun c => some (c ++ (reparseTable st ([] : Entries)).2)) t
        = (some : Entries → Option Entries) t := by
      show some (t ++ (reparseTable st ([] : Entries)).2) = some t
      rw [reparseTable]
      show some (t ++ []) = some t
      rw [List.append_nil]
    rw [updateAt_eq_of_agree p R t
      (fun c => some (c ++ (reparseTable st ([] : Entries)).2)) some hget hagree]
    exact updateAt_some_id p R t hget
  · rw [reparseTable]
    show getPath R p = some (t ++ [])
    rw [List.append_nil]
    exact hget

theorem sec_phase (st : EncStrategy) : ∀ (n : Nat) (es : Entries), entsSize es ≤ n →
    ∀ (R t : Entries) (p cur : List String),
    getPath R p = some t →
    (∀ k, containsKey (reparseTable st es).2 k = true → containsKey t k = false) →
    nodupKeys es = true → wfEnt es = true →
    ∃ R' cur', procLines (R, cur) ((encLines st p es).2.map reparseLine) = some (R', cur')
      ∧ updateAt R p (fun c => some (c ++ (reparseTable st es).2)) = some R'
      ∧ getPath R' p = some (t ++ (reparseTable st es).2) := by
  intro n
  induction n with
  | zero =>
      intro es hsize R t p cur hget _ _ _
      cases es with
      | nil => exact sec_phase_nil st R t p cur hget
      | cons e rest =>
          obtain ⟨k, v⟩ := e
          simp only [entsSize] at hsize
          omega
  | succ n ihn =>
      intro es hsize R t p cur hget hdisj hnd hwf
      cases es with
      | nil => exact sec_phase_nil st R t p cur hget
      | cons e rest =>
          obtain ⟨k, v⟩ := e
          obtain ⟨hf0, hnd'⟩ := nodup_cons_elim hnd
          obtain ⟨hwfv, hwf'⟩ := wfEnt_cons_elim hwf
          by_cases hsec : isSectionEntry st (k, v) = true
          · cases v with
            | table inl sub =>
                have hpi := isSectionEntry_true_elim hsec
                have hndsub := (wfV_table_elim hwfv).1
                have hwfsub := (wfV_table_elim hwfv).2
                simp only [entsSize, valSize] at hsize
                rw [reparseTable_sec_snd st k inl sub rest hpi] at hdisj
                rw [encLines_sec_snd st p k inl sub rest hpi,
                  reparseTable_sec_snd st k inl sub rest hpi]
                have hkhead : containsKey t k = false :=
                  hdisj k (containsKey_cons_self k _ (reparseTable st rest).2)
                -- header: create the section table at p ++ [k]
                have hE1 := ensurePath_append_one p R t k hget hkhead
                have hstep1 : (fun c => some (c ++ [(k, TomlValue.table false [])])) t
                    = some (t ++ [(k, TomlValue.table false [])]) := rfl
                obtain ⟨R2, hupd1, hget2p⟩ := updateAt_exists p R t
                  (fun c => some (c ++ [(k, TomlValue.table false [])]))
                  (t ++ [(k, TomlValue.table false [])]) hget hstep1
                have hproc_header : procLine (R, cur) (Line.header (p ++ [k]))
                    = some (R2, p ++ [k]) := by
                  show (ensurePath R (p ++ [k])).map (fun root' => (root', p ++ [k]))
                    = some (R2, p ++ [k])
                  rw [hE1, hupd1]
                  rfl
                have hgetsub : getPath R2 (p ++ [k]) = some [] := by
                  rw [getPath_append p [k] R2, hget2p, Option.some_bind]
                  rw [getPath_cons_table (lookupKV_append_fresh t k _ hkhead) []]
                  rfl
                -- kv lines of the child
                obtain ⟨R3, hproc3, hupd3, hget3⟩ := kv_phase st sub R2 [] (p ++ [k])
                  hgetsub (fun _ _ => rfl) hndsub
                rw [List.nil_append] at hget3
                -- section lines of the child
                have hsplitsub : ∀ k2, containsKey (reparseTable st sub).2 k2 = true →
                    containsKey (reparseTable st sub).1 k2 = false := by
                  intro k2 h2
                  cases hc : containsKey (reparseTable st sub).1 k2
                  · rfl
                  · rw [reparseTable_split st sub hndsub k2 hc] at h2
                    exact absurd h2 (by simp)
                obtain ⟨R4, cur4, hproc4, hupd4, hget4⟩ := ihn sub (by omega) R3
                  (reparseTable st sub).1 (p ++ [k]) (p ++ [k]) hget3 hsplitsub
                  hndsub hwfsub
                -- combine the child's two phases into one update at p ++ [k]
                have hcomp34 := updateAt_comp (p ++ [k]) R2 R3 R4
                  (fun c => some (c ++ (reparseTable st sub).1))
                  (fun c => some (c ++ (reparseTable st sub).2)) hupd3 hupd4
                have hagreesub : (fun t2 => ((fun c => some (c ++ (reparseTable st sub).1))
                      t2).bind (fun c => some (c ++ (reparseTable st sub).2))) ([] : Entries)
                    = (fun c => some (c ++ ((reparseTable st sub).1
                        ++ (reparseTable st sub).2))) ([] : Entries) := by
                  show some (([] ++ (reparseTable st sub).1) ++ (reparseTable st sub).2)
                    = some ([] ++ ((reparseTable st sub).1 ++ (reparseTable st sub).2))
                  rw [List.append_assoc]
                have hupdchild : updateAt R2 (p ++ [k])
                    (fun c => some (c ++ ((reparseTable st sub).1
                      ++ (reparseTable st sub).2))) = some R4 := by
                  rw [← updateAt_eq_of_agree (p ++ [k]) R2 []
                    (fun t2 => ((fun c => some (c ++ (reparseTable st sub).1)) t2).bind
                      (fun c => some (c ++ (reparseTable st sub).2)))
                    (fun c => some (c ++ ((reparseTable st sub).1
                      ++ (reparseTable st sub).2)))
                    hgetsub hagreesub]
                  exact hcomp34
                -- view the child update as an update at p
                have hupdchildp : updateAt R2 p
                    (fun es2 => updateAt es2 [k]
                      (fun c => some (c ++ ((reparseTable st sub).1
                        ++ (reparseTable st sub).2)))) = some R4 := by
                  rw [← updateAt_append p [k] R2]
                  exact hupdchild
                -- its effect on the table at p
                have hh2 : (fun es2 => updateAt es2 [k]
                      (fun c => some (c ++ ((reparseTable st sub).1
                        ++ (reparseTable st sub).2))))
                      (t ++ [(k, TomlValue.table false [])])
                    = some (t ++ [(k, TomlValue.table false ((reparseTable st sub).1
                        ++ (reparseTable st sub).2))]) := by
                  show updateAt (t ++ [(k, TomlValue.table false [])]) [k]
                    (fun c => some (c ++ ((reparseTable st sub).1
                      ++ (reparseTable st sub).2))) = _
                  rw [updateAt_cons_table (lookupKV_append_fresh t k _ hkhead) []]
                  show some (replaceKV (t ++ [(k, TomlValue.table false [])]) k
                    (TomlValue.table false ([] ++ ((reparseTable st sub).1
                      ++ (reparseTable st sub).2)))) = _
                  rw [replaceKV_append_fresh t k _ _ hkhead, List.nil_append]
                obtain ⟨R4x, hupd4x, hget4p⟩ := updateAt_exists p R2
                  (t ++ [(k, TomlValue.table false [])])
                  (fun es2 => updateAt es2 [k]
                    (fun c => some (c ++ ((reparseTable st sub).1
                      ++ (reparseTable st sub).2))))
                  (t ++ [(k, TomlValue.table false ((reparseTable st sub).1
                    ++ (reparseTable st sub).2))]) hget2p hh2
                have hR4x : R4x = R4 := Option.some.inj (hupd4x.symm.trans hupdchildp)
                rw [hR4x] at hget4p
                -- the remaining sibling sections
                have hdisjrest : ∀ k2, containsKey (reparseTable st rest).2 k2 = true →
                    containsKey (t ++ [(k, TomlValue.table false ((reparseTable st sub).1
                      ++ (reparseTable st sub).2))]) k2 = false := by
                  intro k2 hk2
                  have hne : k ≠ k2 := by
                    intro he
                    subst he
                    have hz := (reparseTable_keys st rest k hf0).2
                    rw [hz] at hk2
                    exact absurd hk2 (by simp)
                  exact containsKey_append_false
                    (hdisj k2 (containsKey_cons_of_mem k k2 _ _ hk2))
                    (containsKey_single_false hne)
                obtain ⟨R5, cur5, hproc5, hupd5, hget5⟩ := ihn rest (by omega) R4
                  (t ++ [(k, TomlValue.table false ((reparseTable st sub).1
                    ++ (reparseTable st sub).2))]) p cur4 hget4p hdisjrest hnd' hwf'
                refine ⟨R5, cur5, ?_, ?_, ?_⟩
                · rw [List.map_append, List.map_cons, List.map_append, List.cons_append]
                  show procLines (R, cur) (Line.header (p ++ [k])
                      :: (((encLines st (p ++ [k]) sub).1.map reparseLine
                        ++ (encLines st (p ++ [k]) sub).2.map reparseLine)
                      ++ (encLines st p rest).2.map reparseLine)) = some (R5, cur5)
                  rw [procLines, hproc_header, Option.some_bind]
                  rw [procLines_append, procLines_append]
                  rw [hproc3, Option.some_bind, hproc4, Option.some_bind]
                  exact hproc5
                · have hcomp12 := updateAt_comp p R R2 R4
                    (fun c => some (c ++ [(k, TomlValue.table false [])]))
                    (fun es2 => updateAt es2 [k]
                      (fun c => some (c ++ ((reparseTable st sub).1
                        ++ (reparseTable st sub).2)))) hupd1 hupdchildp
                  have hcomp125 := updateAt_comp p R R4 R5
                    (fun t2 => ((fun c => some (c ++ [(k, TomlValue.table false [])]))
                      t2).bind (fun es2 => updateAt es2 [k]
                        (fun c => some (c ++ ((reparseTable st sub).1
                          ++ (reparseTable st sub).2)))))
                    (fun c => some (c ++ (reparseTable st rest).2)) hcomp12 hupd5
                  have hagreeall : (fun t3 => ((fun t2 => ((fun c => some (c
                          ++ [(k, TomlValue.table false [])])) t2).bind
                        (fun es2 => updateAt es2 [k]
                          (fun c => some (c ++ ((reparseTable st sub).1
                            ++ (reparseTable st sub).2))))) t3).bind
                        (fun c => some (c ++ (reparseTable st rest).2))) t
                      = (fun c => some (c ++ ((k, TomlValue.table false
                          ((reparseTable st sub).1 ++ (reparseTable st sub).2))
                            :: (reparseTable st rest).2))) t := by
                    show ((updateAt (t ++ [(k, TomlValue.table false [])]) [k]
                        (fun c => some (c ++ ((reparseTable st sub).1
                          ++ (reparseTable st sub).2)))).bind
                        (fun c => some (c ++ (reparseTable st rest).2)))
                      = some (t ++ ((k, TomlValue.table false
                          ((reparseTable st sub).1 ++ (reparseTable st sub).2))
                            :: (reparseTable st rest).2))
                    rw [show updateAt (t ++ [(k, TomlValue.table false [])]) [k]
                        (fun c => some (c ++ ((reparseTable st sub).1
                          ++ (reparseTable st sub).2)))
                        = some (t ++ [(k, TomlValue.table false ((reparseTable st sub).1
                            ++ (reparseTable st sub).2))]) from hh2]
                    rw [Option.some_bind]
                    show some ((t ++ [(k, TomlValue.table false ((reparseTable st sub).1
                        ++ (reparseTable st sub).2))]) ++ (reparseTable st rest).2) = _
                    rw [List.append_assoc]
                    rfl
                  rw [← updateAt_eq_of_agree p R t
                    (fun t3 => ((fun t2 => ((fun c => some (c
                        ++ [(k, TomlValue.table false [])])) t2).bind
                      (fun es2 => updateAt es2 [k]
                        (fun c => some (c ++ ((reparseTable st sub).1
                          ++ (reparseTable st sub).2))))) t3).bind
                      (fun c => some (c ++ (reparseTable st rest).2)))
                    (fun c => some (c ++ ((k, TomlValue.table false
                        ((reparseTable st sub).1 ++ (reparseTable st sub).2))
                          :: (reparseTable st rest).2)))
                    hget hagreeall]
                  exact hcomp125
                · have hassoc : (t ++ [(k, TomlValue.table false ((reparseTable st sub).1
                      ++ (reparseTable st sub).2))]) ++ (reparseTable st rest).2
                      = t ++ ((k, TomlValue.table false ((reparseTable st sub).1
                          ++ (reparseTable st sub).2)) :: (reparseTable st rest).2) := by
                    rw [List.append_assoc]
                    rfl
                  rw [← hassoc]
                  exact hget5
            | str s => exact absurd hsec (by simp [isSectionEntry])
            | int n2 => exact absurd hsec (by simp [isSectionEntry])
            | float m e2 => exact absurd hsec (by simp [isSectionEntry])
            | bool b => exact absurd hsec (by simp [isSectionEntry])
            | arr xs => exact absurd hsec (by simp [isSectionEntry])
            | tup xs => exact absurd hsec (by simp [isSectionEntry])
          · have hkv : isSectionEntry st (k, v) = false := by
              cases hb : isSectionEntry st (k, v)
              · rfl
              · exact absurd hb hsec
            simp only [entsSize] at hsize
            rw [reparseTable_kv_snd st k v rest hkv] at hdisj
            rw [encLines_kv_snd st p k v rest hkv, reparseTable_kv_snd st k v rest hkv]
            exact ihn rest (by omega) R t p cur hget hdisj hnd' hwf'

theorem contains_of_rt1 (st : EncStrategy) {es : Entries} {k : String}
    (h : containsKey (reparseTable st es).1 k = true) : containsKey es k = true := by
  cases hc : containsKey es k
  · rw [(reparseTable_keys st es k hc).1] at h
    exact absurd h (by simp)
  · rfl

theorem contains_of_rt2 (st : EncStrategy) {es : Entries} {k : String}
    (h : containsKey (reparseTable st es).2 k = true) : containsKey es k = true := by
  cases hc : containsKey es k
  · rw [(reparseTable_keys st es k hc).2] at h
    exact absurd h (by simp)
  · rfl

theorem doc_phase (st : EncStrategy) (es : Entries) (R t : Entries) (p : List String)
    (hget : getPath R p = some t)
    (hdisj : ∀ k, containsKey es k = true → containsKey t k = false)
    (hnd : nodupKeys es = true) (hwf : wfEnt es = true) :
    ∃ R' cur', procLines (R, p)
        (((encLines st p es).1 ++ (encLines st p es).2).map reparseLine)
        = some (R', cur')
      ∧ updateAt R p (fun c => some (c ++ reparseDoc st es)) = some R'
      ∧ getPath R' p = some (t ++ reparseDoc st es) := by
  obtain ⟨R1, hproc1, hupd1, hget1⟩ := kv_phase st es R t p hget
    (fun k hk => hdisj k (contains_of_rt1 st hk)) hnd
  have hdisj2 : ∀ k, containsKey (reparseTable st es).2 k = true →
      containsKey (t ++ (reparseTable st es).1) k = false := by
    intro k hk
    have h1 : containsKey (reparseTable st es).1 k = false := by
      cases hc : containsKey (reparseTable st es).1 k
      · rfl
      · rw [reparseTable_split st es hnd k hc] at hk
        exact absurd hk (by simp)
    exact containsKey_append_false (hdisj k (contains_of_rt2 st hk)) h1
  obtain ⟨R2, cur2, hproc2, hupd2, hget2⟩ := sec_phase st (entsSize es) es
    (Nat.le_refl _) R1 (t ++ (reparseTable st es).1) p p hget1 hdisj2 hnd hwf
  refine ⟨R2, cur2, ?_, ?_, ?_⟩
  · rw [List.map_append, procLines_append, hproc1, Option.some_bind]
    exact hproc2
  · have hcomp := updateAt_comp p R R1 R2
      (fun c => some (c ++ (reparseTable st es).1))
      (fun c => some (c ++ (reparseTable st es).2)) hupd1 hupd2
    have hagree : (fun t2 => ((fun c => some (c ++ (reparseTable st es).1)) t2).bind
          (fun c => some (c ++ (reparseTable st es).2))) t
        = (fun c => some (c ++ reparseDoc st es)) t := by
      show some ((t ++ (reparseTable st es).1) ++ (reparseTable st es).2)
        = some (t ++ reparseDoc st es)
      rw [List.append_assoc]
      rfl
    rw [← updateAt_eq_of_agree p R t
      (fun t2 => ((fun c => some (c ++ (reparseTable st es).1)) t2).bind
        (fun c => some (c ++ (reparseTable st es).2)))
      (fun c => some (c ++ reparseDoc st es)) hget hagree]
    exact hcomp
  · have hassoc : (t ++ (reparseTable st es).1) ++ (reparseTable st es).2
        = t ++ reparseDoc st es := by
      rw [List.append_assoc]
      rfl
    rw [← hassoc]
    exact hget2

theorem encLines_headers (st : EncStrategy) : ∀ (n : Nat) (es : Entries),
    entsSize es ≤ n → ∀ (pfx : List String),
    (∀ p, Line.header p ∉ (encLines st pfx es).1)
    ∧ (∀ p, Line.header p ∈ (encLines st pfx es).2 → p ≠ []) := by
  intro n
  induction n with
  | zero =>
      intro es hsize pfx
      cases es with
      | nil =>
          rw [encLines]
          exact ⟨fun p hp => by simp at hp, fun p hp => by simp at hp⟩
      | cons e rest =>
          obtain ⟨k, v⟩ := e
          simp only [entsSize] at hsize
          omega
  | succ n ihn =>
      intro es hsize pfx
      cases es with
      | nil =>
          rw [encLines]
          exact ⟨fun p hp => by simp at hp, fun p hp => by simp at hp⟩
      | cons e rest =>
          obtain ⟨k, v⟩ := e
          by_cases hsec : isSectionEntry st (k, v) = true
          · cases v with
            | table inl sub =>
                have hpi := isSectionEntry_true_elim hsec
                simp only [entsSize, valSize] at hsize
                constructor
                · intro p hp
                  rw [encLines_sec_fst st pfx k inl sub rest hpi] at hp
                  exact (ihn rest (by omega) pfx).1 p hp
                · intro p hp
                  rw [encLines_sec_snd st pfx k inl sub rest hpi] at hp
                  rcases List.mem_append.mp hp with hp | hp
                  · rcases List.mem_cons.mp hp with hp | hp
                    · have hpe : p = pfx ++ [k] := by
                        injection hp with hh
                      rw [hpe]
                      simp
                    · rcases List.mem_append.mp hp with hp | hp
                      · exact absurd hp ((ihn sub (by omega) (pfx ++ [k])).1 p)
                      · exact (ihn sub (by omega) (pfx ++ [k])).2 p hp
                  · exact (ihn rest (by omega) pfx).2 p hp
            | str s => exact absurd hsec (by simp [isSectionEntry])
            | int n2 => exact absurd hsec (by simp [isSectionEntry])
            | float m e2 => exact absurd hsec (by simp [isSectionEntry])
            | bool b => exact absurd hsec (by simp [isSectionEntry])
            | arr xs => exact absurd hsec (by simp [isSectionEntry])
            | tup xs => exact absurd hsec (by simp [isSectionEntry])
          · have hkv : isSectionEntry st (k, v) = false := by
              cases hb : isSectionEntry st (k, v)
              · rfl
              · exact absurd hb hsec
            simp only [entsSize] at hsize
            constructor
            · intro p hp
              rw [encLines_kv_fst st pfx k v rest hkv] at hp
              rcases List.mem_cons.mp hp with hp | hp
              · exact Line.noConfusion hp
              · exact (ihn rest (by omega) pfx).1 p hp
            · intro p hp
              rw [encLines_kv_snd st pfx k v rest hkv] at hp
              exact (ihn rest (by omega) pfx).2 p hp

theorem decode_encodeDoc (st : EncStrategy) (hsep : WfSep st.sep) (es : Entries)
    (hnd : nodupKeys es = true) (hwf : wfEnt es = true) :
    decode (encodeDoc st es) = some (reparseDoc st es) := by
  show ((parseAllLines (splitLines (linesToChars st
      ((encLines st [] es).1 ++ (encLines st [] es).2)))).bind
        (procLines ([], []))).map Prod.fst = _
  rw [splitLines_linesToChars st hsep]
  rw [parseAllLines_map st hsep _ (by
    intro p hp
    rcases List.mem_append.mp hp with hp | hp
    · exact absurd hp ((encLines_headers st (entsSize es) es (Nat.le_refl _) []).1 p)
    · exact (encLines_headers st (entsSize es) es (Nat.le_refl _) []).2 p hp)]
  rw [Option.some_bind]
  rw [procLines_append]
  obtain ⟨R', cur', hproc, hupd, hgetR⟩ :=
    doc_phase st es [] [] [] rfl (fun _ _ => rfl) hnd hwf
  rw [hproc, Option.some_bind]
  have hR' : some (([] : Entries) ++ reparseDoc st es) = some R' := hupd
  have hRid : R' = reparseDoc st es := by
    have hx := Option.some.inj hR'
    rw [List.nil_append] at hx
    exact hx.symm
  show Option.map Prod.fst (some (R', cur')) = some (reparseDoc st es)
  rw [hRid]
  rfl

theorem lookupKV_cons_ne {k0 k : String} (v : TomlValue) (es : Entries)
    (h : k0 ≠ k) : lookupKV ((k0, v) :: es) k = lookupKV es k := by
  rw [lookupKV, if_neg h]

theorem lookup_seqify : ∀ (es : Entries) (k : String),
    lookupKV (seqifyEnt es) k = Option.map seqifyV (lookupKV es k) := by
  intro es
  induction es with
  | nil => intro k; rfl
  | cons e es ih =>
      intro k
      obtain ⟨k0, v⟩ := e
      show (if k0 = k then some (seqifyV v) else lookupKV (seqifyEnt es) k)
        = Option.map seqifyV (if k0 = k then some v else lookupKV es k)
      by_cases he : k0 = k
      · rw [if_pos he, if_pos he]
        rfl
      · rw [if_neg he, if_neg he, ih]

theorem seqifyEnt_length : ∀ es : Entries, (seqifyEnt es).length = es.length := by
  intro es
  induction es with
  | nil => rfl
  | cons e es ih =>
      obtain ⟨k, v⟩ := e
      show (seqifyEnt es).length + 1 = es.length + 1
      rw [ih]

theorem reparseValEnt_length : ∀ es : Entries,
    (reparseValEnt es).length = es.length := by
  intro es
  induction es with
  | nil => rfl
  | cons e es ih =>
      obtain ⟨k, v⟩ := e
      show (reparseValEnt es).length + 1 = es.length + 1
      rw [ih]

theorem rpLen (st : EncStrategy) : ∀ es : Entries,
    (reparseTable st es).1.length + (reparseTable st es).2.length = es.length := by
  intro es
  induction es with
  | nil =>
      rw [reparseTable]
      rfl
  | cons e rest ih =>
      obtain ⟨k, v⟩ := e
      by_cases hsec : isSectionEntry st (k, v) = true
      · cases v with
        | table inl sub =>
            have hpi := isSectionEntry_true_elim hsec
            rw [reparseTable_sec_fst st k inl sub rest hpi,
              reparseTable_sec_snd st k inl sub rest hpi]
            simp only [List.length_cons]
            omega
        | str s => exact absurd hsec (by simp [isSectionEntry])
        | int n2 => exact absurd hsec (by simp [isSectionEntry])
        | float m e2 => exact absurd hsec (by simp [isSectionEntry])
        | bool b => exact absurd hsec (by simp [isSectionEntry])
        | arr xs => exact absurd hsec (by simp [isSectionEntry])
        | tup xs => exact absurd hsec (by simp [isSectionEntry])
      · have hkv : isSectionEntry st (k, v) = false := by
          cases hb : isSectionEntry st (k, v)
          · rfl
          · exact absurd hb hsec
        rw [reparseTable_kv_fst st k v rest hkv, reparseTable_kv_snd st k v rest hkv]
        simp only [List.length_cons]
        omega

theorem pyEqVals_append : ∀ (A B E : Entries),
    pyEqVals (A ++ B) E = (pyEqVals A E && pyEqVals B E) := by
  intro A
  induction A with
  | nil =>
      intro B E
      show pyEqVals B E = (true && pyEqVals B E)
      rw [Bool.true_and]
  | cons e A ih =>
      intro B E
      obtain ⟨k, v⟩ := e
      show ((match lookupKV E k with | some w => pyEqV v w | none => false)
          && pyEqVals (A ++ B) E)
        = (((match lookupKV E k with | some w => pyEqV v w | none => false)
          && pyEqVals A E) && pyEqVals B E)
      rw [ih B E, Bool.and_assoc]

theorem pyEq_reparse_seqify : ∀ n : Nat,
    (∀ v, valSize v ≤ n → wfV v = true → pyEqV (reparseVal v) (seqifyV v) = true)
    ∧ (∀ xs, seqSize xs ≤ n → wfL xs = true →
        pyEqL (reparseValL xs) (seqifyL xs) = true)
    ∧ (∀ es E, entsSize es ≤ n →
        (∀ k, containsKey es k = true →
          lookupKV E k = Option.map seqifyV (lookupKV es k)) →
        nodupKeys es = true → wfEnt es = true →
        pyEqVals (reparseValEnt es) E = true) := by
  intro n
  induction n with
  | zero =>
      refine ⟨?_, ?_, ?_⟩
      · intro v hv
        cases v <;> simp [valSize] at hv
      · intro xs hxs _
        cases xs with
        | nil => rfl
        | cons x xs => simp only [seqSize] at hxs; omega
      · intro es E hes _ _ _
        cases es with
        | nil => rfl
        | cons e es =>
            obtain ⟨k, v⟩ := e
            simp only [entsSize] at hes
            omega
  | succ n ihn =>
      refine ⟨?_, ?_, ?_⟩
      · intro v hv hwf
        cases v with
        | str s => show (s == s) = true; simp
        | int a => show (a == a) = true; simp
        | float m e => show (m * (10 : Int) ^ (e + 1) == m * (10 : Int) ^ (e + 1)) = true; simp
        | bool b => show (b == b) = true; simp
        | arr xs =>
            show pyEqL (reparseValL xs) (seqifyL xs) = true
            simp only [valSize] at hv
            exact ihn.2.1 xs (by omega) hwf
        | tup xs =>
            show pyEqL (reparseValL xs) (seqifyL xs) = true
            simp only [valSize] at hv
            exact ihn.2.1 xs (by omega) hwf
        | table inl es2 =>
            obtain ⟨hnd2, hwf2⟩ := wfV_table_elim hwf
            show (((reparseValEnt es2).length == (seqifyEnt es2).length)
              && pyEqVals (reparseValEnt es2) (seqifyEnt es2)) = true
            simp only [valSize] at hv
            rw [reparseValEnt_length, seqifyEnt_length]
            rw [ihn.2.2 es2 (seqifyEnt es2) (by omega) (fun k _ => lookup_seqify es2 k) hnd2 hwf2]
            simp
      · intro xs hxs hwf
        cases xs with
        | nil => rfl
        | cons x xs =>
            show (pyEqV (reparseVal x) (seqifyV x)
              && pyEqL (reparseValL xs) (seqifyL xs)) = true
            have hwf2 : wfV x = true ∧ wfL xs = true := by
              have hx : (wfV x && wfL xs) = true := hwf
              simp only [Bool.and_eq_true] at hx
              exact hx
            simp only [seqSize] at hxs
            rw [ihn.1 x (by omega) hwf2.1, ihn.2.1 xs (by omega) hwf2.2]
            rfl
      · intro es E hes hH hnd hwf
        cases es with
        | nil => rfl
        | cons e es =>
            obtain ⟨k, v⟩ := e
            obtain ⟨hf0, hnd'⟩ := nodup_cons_elim hnd
            obtain ⟨hwfv, hwf'⟩ := wfEnt_cons_elim hwf
            simp only [entsSize] at hes
            have hEk : lookupKV E k = some (seqifyV v) := by
              rw [hH k (containsKey_cons_self k v es), lookupKV_cons_self]
              rfl
            show ((match lookupKV E k with
                | some w => pyEqV (reparseVal v) w
                | none => false) && pyEqVals (reparseValEnt es) E) = true
            rw [hEk]
            show (pyEqV (reparseVal v) (seqifyV v)
              && pyEqVals (reparseValEnt es) E) = true
            have hH2 : ∀ k2, containsKey es k2 = true →
                lookupKV E k2 = Option.map seqifyV (lookupKV es k2) := by
              intro k2 hk2
              have hne : k ≠ k2 := by
                intro he
                subst he
                rw [hf0] at hk2
                exact absurd hk2 (by simp)
              rw [hH k2 (containsKey_cons_of_mem k k2 v es hk2),
                lookupKV_cons_ne v es hne]
            rw [ihn.1 v (by omega) hwfv, ihn.2.2 es E (by omega) hH2 hnd' hwf']
            rfl

theorem pyEqV_reparse (v : TomlValue) (hwf : wfV v = true) :
    pyEqV (reparseVal v) (seqifyV v) = true :=
  (pyEq_reparse_seqify (valSize v)).1 v (Nat.le_refl _) hwf

theorem pyEq_reparseTable (st : EncStrategy) : ∀ (n : Nat) (es E : Entries),
    entsSize es ≤ n →
    (∀ k, containsKey es k = true →
      lookupKV E k = Option.map seqifyV (lookupKV es k)) →
    nodupKeys es = true → wfEnt es = true →
    pyEqVals (reparseTable st es).1 E = true
      ∧ pyEqVals (reparseTable st es).2 E = true := by
  intro n
  induction n with
  | zero =>
      intro es E hes _ _ _
      cases es with
      | nil =>
          rw [reparseTable]
          exact ⟨rfl, rfl⟩
      | cons e es =>
          obtain ⟨k, v⟩ := e
          simp only [entsSize] at hes
          omega
  | succ n ihn =>
      intro es E hes hH hnd hwf
      cases es with
      | nil =>
          rw [reparseTable]
          exact ⟨rfl, rfl⟩
      | cons e rest =>
          obtain ⟨k, v⟩ := e
          obtain ⟨hf0, hnd'⟩ := nodup_cons_elim hnd
          obtain ⟨hwfv, hwf'⟩ := wfEnt_cons_elim hwf
          have hH2 : ∀ k2, containsKey rest k2 = true →
              lookupKV E k2 = Option.map seqifyV (lookupKV rest k2) := by
            intro k2 hk2
            have hne : k ≠ k2 := by
              intro he
              subst he
              rw [hf0] at hk2
              exact absurd hk2 (by simp)
            rw [hH k2 (containsKey_cons_of_mem k k2 v rest hk2),
              lookupKV_cons_ne v rest hne]
          have hEk : lookupKV E k = some (seqifyV v) := by
            rw [hH k (containsKey_cons_self k v rest), lookupKV_cons_self]
            rfl
          by_cases hsec : isSectionEntry st (k, v) = true
          · cases v with
            | table inl sub =>
                have hpi := isSectionEntry_true_elim hsec
                have hndsub := (wfV_table_elim hwfv).1
                have hwfsub := (wfV_table_elim hwfv).2
                simp only [entsSize, valSize] at hes
                have hrest := ihn rest E (by omega) hH2 hnd' hwf'
                rw [reparseTable_sec_fst st k inl sub rest hpi,
                  reparseTable_sec_snd st k inl sub rest hpi]
                refine ⟨hrest.1, ?_⟩
                show ((match lookupKV E k with
                    | some w => pyEqV (TomlValue.table false
                        ((reparseTable st sub).1 ++ (reparseTable st sub).2)) w
                    | none => false) && pyEqVals (reparseTable st rest).2 E) = true
                rw [hEk]
                show ((pyEqV (TomlValue.table false
                      ((reparseTable st sub).1 ++ (reparseTable st sub).2))
                    (TomlValue.table inl (seqifyEnt sub)))
                  && pyEqVals (reparseTable st rest).2 E) = true
                show (((((reparseTable st sub).1 ++ (reparseTable st sub).2).length
                      == (seqifyEnt sub).length)
                    && pyEqVals ((reparseTable st sub).1 ++ (reparseTable st sub).2)
                      (seqifyEnt sub))
                  && pyEqVals (reparseTable st rest).2 E) = true
                have hlen : ((reparseTable st sub).1 ++ (reparseTable st sub).2).length
                    = (seqifyEnt sub).length := by
                  rw [List.length_append, seqifyEnt_length]
                  exact rpLen st sub
                rw [hlen]
                have hsub := ihn sub (seqifyEnt sub) (by omega)
                  (fun k2 _ => lookup_seqify sub k2) hndsub hwfsub
                rw [pyEqVals_append, hsub.1, hsub.2, hrest.2]
                simp
            | str s => exact absurd hsec (by simp [isSectionEntry])
            | int n2 => exact absurd hsec (by simp [isSectionEntry])
            | float m e2 => exact absurd hsec (by simp [isSectionEntry])
            | bool b => exact absurd hsec (by simp [isSectionEntry])
            | arr xs => exact absurd hsec (by simp [isSectionEntry])
            | tup xs => exact absurd hsec (by simp [isSectionEntry])
          · have hkv : isSectionEntry st (k, v) = false := by
              cases hb : isSectionEntry st (k, v)
              · rfl
              · exact absurd hb hsec
            simp only [entsSize] at hes
            have hrest := ihn rest E (by omega) hH2 hnd' hwf'
            rw [reparseTable_kv_fst st k v rest hkv,
              reparseTable_kv_snd st k v rest hkv]
            refine ⟨?_, hrest.2⟩
            show ((match lookupKV E k with
                | some w => pyEqV (reparseVal v) w
                | none => false) && pyEqVals (reparseTable st rest).1 E) = true
            rw [hEk]
            show (pyEqV (reparseVal v) (seqifyV v)
              && pyEqVals (reparseTable st rest).1 E) = true
            rw [pyEqV_reparse v hwfv, hrest.1]
            rfl

theorem pyEq_reparseDoc (st : EncStrategy) (es : Entries)
    (hnd : nodupKeys es = true) (hwf : wfEnt es = true) :
    pyEqEnt (reparseDoc st es) (seqifyEnt es) = true := by
  show (((reparseDoc st es).length == (seqifyEnt es).length)
    && pyEqVals (reparseDoc st es) (seqifyEnt es)) = true
  have hlen : (reparseDoc st es).length = (seqifyEnt es).length := by
    show ((reparseTable st es).1 ++ (reparseTable st es).2).length
      = (seqifyEnt es).length
    rw [List.length_append, seqifyEnt_length]
    exact rpLen st es
  rw [hlen]
  have hmain := pyEq_reparseTable st (entsSize es) es (seqifyEnt es) (Nat.le_refl _)
    (fun k _ => lookup_seqify es k) hnd hwf
  show (((seqifyEnt es).length == (seqifyEnt es).length)
    && pyEqVals ((reparseTable st es).1 ++ (reparseTable st es).2)
      (seqifyEnt es)) = true
  rw [pyEqVals_append, hmain.1, hmain.2]
  simp

theorem seqify_id : ∀ n : Nat,
    (∀ v, valSize v ≤ n → tupFreeV v = true → seqifyV v = v)
    ∧ (∀ xs, seqSize xs ≤ n → tupFreeL xs = true → seqifyL xs = xs)
    ∧ (∀ es, entsSize es ≤ n → tupFreeEnt es = true → seqifyEnt es = es) := by
  intro n
  induction n with
  | zero =>
      refine ⟨?_, ?_, ?_⟩
      · intro v hv
        cases v <;> simp [valSize] at hv
      · intro xs hxs _
        cases xs with
        | nil => rfl
        | cons x xs => simp only [seqSize] at hxs; omega
      · intro es hes _
        cases es with
        | nil => rfl
        | cons e es =>
            obtain ⟨k, v⟩ := e
            simp only [entsSize] at hes
            omega
  | succ n ihn =>
      refine ⟨?_, ?_, ?_⟩
      · intro v hv htf
        cases v with
        | str s => rfl
        | int a => rfl
        | float m e => rfl
        | bool b => rfl
        | arr xs =>
            show TomlValue.arr (seqifyL xs) = TomlValue.arr xs
            simp only [valSize] at hv
            rw [ihn.2.1 xs (by omega) htf]
        | tup xs => exact absurd htf (by simp [tupFreeV])
        | table inl es2 =>
            show TomlValue.table inl (seqifyEnt es2) = TomlValue.table inl es2
            simp only [valSize] at hv
            rw [ihn.2.2 es2 (by omega) htf]
      · intro xs hxs htf
        cases xs with
        | nil => rfl
        | cons x xs =>
            have htf2 : tupFreeV x = true ∧ tupFreeL xs = true := by
              have hx : (tupFreeV x && tupFreeL xs) = true := htf
              simp only [Bool.and_eq_true] at hx
              exact hx
            show seqifyV x :: seqifyL xs = x :: xs
            simp only [seqSize] at hxs
            rw [ihn.1 x (by omega) htf2.1, ihn.2.1 xs (by omega) htf2.2]
      · intro es hes htf
        cases es with
        | nil => rfl
        | cons e es =>
            obtain ⟨k, v⟩ := e
            have htf2 : tupFreeV v = true ∧ tupFreeEnt es = true := by
              have hx : (tupFreeV v && tupFreeEnt es) = true := htf
              simp only [Bool.and_eq_true] at hx
              exact hx
            show (k, seqifyV v) :: seqifyEnt es = (k, v) :: es
            simp only [entsSize] at hes
            rw [ihn.1 v (by omega) htf2.1, ihn.2.2 es (by omega) htf2.2]

theorem seqifyEnt_id (es : Entries) (h : tupFreeEnt es = true) : seqifyEnt es = es :=
  (seqify_id (entsSize es)).2.2 es (Nat.le_refl _) h

/-- C1: for every document built purely from the supported native
scalar and container types, well-formed in the way a Python mapping
guarantees (distinct keys at every table level), and for every encoder
strategy (any preserve-inline choice, any well-formed array separator),
decoding the encoded text succeeds, and the decoded value is
Python-equal (`==`) to the original document whenever it is tuple-free;
tuples are the exception: in general the decoded value is Python-equal
to the document with every tuple replaced by the sequence of the same
elements. -/
theorem roundtrip_decode_encode (st : EncStrategy) (hsep : WfSep st.sep)
    (es : Entries) (hnd : nodupKeys es = true) (hwf : wfEnt es = true) :
    decode (encodeDoc st es) = some (reparseDoc st es)
      ∧ pyEqEnt (reparseDoc st es) (seqifyEnt es) = true
      ∧ (tupFreeEnt es = true → pyEqEnt (reparseDoc st es) es = true) := by
  refine ⟨decode_encodeDoc st hsep es hnd hwf, pyEq_reparseDoc st es hnd hwf, ?_⟩
  intro htf
  have h := pyEq_reparseDoc st es hnd hwf
  rw [seqifyEnt_id es htf] at h
  exact h

/-- C1 witness: the round-trip theorem applied to the default strategy
and the concrete sample documents, with every hypothesis checked by
computation. -/
theorem roundtrip_decode_encode_witness :
    WfSep defaultStrategy.sep
    ∧ nodupKeys sampleDoc = true ∧ wfEnt sampleDoc = true
    ∧ (decode (encodeDoc defaultStrategy sampleDoc)
        = some (reparseDoc defaultStrategy sampleDoc)
      ∧ pyEqEnt (reparseDoc defaultStrategy sampleDoc) (seqifyEnt sampleDoc) = true
      ∧ (tupFreeEnt sampleDoc = true
          → pyEqEnt (reparseDoc defaultStrategy sampleDoc) sampleDoc = true))
    ∧ tupFreeEnt sampleDocTF = true
    ∧ (decode (encodeDoc defaultStrategy sampleDocTF)
        = some (reparseDoc defaultStrategy sampleDocTF)
      ∧ pyEqEnt (reparseDoc defaultStrategy sampleDocTF) (seqifyEnt sampleDocTF) = true
      ∧ (tupFreeEnt sampleDocTF = true
          → pyEqEnt (reparseDoc defaultStrategy sampleDocTF) sampleDocTF = true)) :=
  ⟨⟨[' '], rfl, by decide⟩, by rfl, by rfl,
    roundtrip_decode_encode defaultStrategy ⟨[' '], rfl, by decide⟩ sampleDoc
      (by rfl) (by rfl),
    by rfl,
    roundtrip_decode_encode defaultStrategy ⟨[' '], rfl, by decide⟩ sampleDocTF
      (by rfl) (by rfl)⟩

theorem render_reparse : ∀ (st : EncStrategy) (n : Nat),
    (∀ v, valSize v ≤ n → renderValue st (reparseVal v) = renderValue st v)
    ∧ (∀ xs, seqSize xs ≤ n → renderList st (reparseValL xs) = renderList st xs)
    ∧ (∀ es, entsSize es ≤ n → renderInline st (reparseValEnt es) = renderInline st es) := by
  intro st n
  induction n with
  | zero =>
      refine ⟨?_, ?_, ?_⟩
      · intro v hv
        cases v <;> simp [valSize] at hv
      · intro xs hxs
        cases xs with
        | nil => rfl
        | cons x xs => simp only [seqSize] at hxs; omega
      · intro es hes
        cases es with
        | nil => rfl
        | cons e es =>
            obtain ⟨k, v⟩ := e
            simp only [entsSize] at hes
            omega
  | succ n ihn =>
      refine ⟨?_, ?_, ?_⟩
      · intro v hv
        cases v with
        | str s => rfl
        | int a => rfl
        | float m e => rfl
        | bool b => rfl
        | arr xs =>
            show '[' :: (renderList st (reparseValL xs) ++ [']'])
              = '[' :: (renderList st xs ++ [']'])
            simp only [valSize] at hv
            rw [ihn.2.1 xs (by omega)]
        | tup xs =>
            show '[' :: (renderList st (reparseValL xs) ++ [']'])
              = '[' :: (renderList st xs ++ [']'])
            simp only [valSize] at hv
            rw [ihn.2.1 xs (by omega)]
        | table inl es2 =>
            show '\x7b' :: (renderInline st (reparseValEnt es2) ++ ['\x7d'])
              = '\x7b' :: (renderInline st es2 ++ ['\x7d'])
            simp only [valSize] at hv
            rw [ihn.2.2 es2 (by omega)]
      · intro xs hxs
        cases xs with
        | nil => rfl
        | cons x xs =>
            cases xs with
            | nil =>
                show renderValue st (reparseVal x) = renderValue st x
                simp only [seqSize] at hxs
                exact ihn.1 x (by omega)
            | cons y ys =>
                show renderValue st (reparseVal x)
                    ++ (st.sep.data ++ renderList st (reparseValL (y :: ys)))
                  = renderValue st x ++ (st.sep.data ++ renderList st (y :: ys))
                simp only [seqSize] at hxs
                rw [ihn.1 x (by omega), ihn.2.1 (y :: ys) (by simp only [seqSize]; omega)]
      · intro es hes
        cases es with
        | nil => rfl
        | cons e es =>
            obtain ⟨k, v⟩ := e
            cases es with
            | nil =>
                show renderKey k ++ (' ' :: '=' :: ' ' :: renderValue st (reparseVal v))
                  = renderKey k ++ (' ' :: '=' :: ' ' :: renderValue st v)
                simp only [entsSize] at hes
                rw [ihn.1 v (by omega)]
            | cons e2 es2 =>
                show renderKey k ++ (' ' :: '=' :: ' ' :: renderValue st (reparseVal v))
                    ++ (',' :: ' ' :: renderInline st (reparseValEnt (e2 :: es2)))
                  = renderKey k ++ (' ' :: '=' :: ' ' :: renderValue st v)
                    ++ (',' :: ' ' :: renderInline st (e2 :: es2))
                simp only [entsSize] at hes
                rw [ihn.1 v (by omega), ihn.2.2 (e2 :: es2) (by
                  obtain ⟨k2, v2⟩ := e2
                  simp only [entsSize] at hes ⊢
                  omega)]

theorem reparseVal_nonsection (st : EncStrategy) (k : String) (v : TomlValue)
    (h : isSectionEntry st (k, v) = false) :
    isSectionEntry st (k, reparseVal v) = false := by
  cases v with
  | str s => rfl
  | int a => rfl
  | float m e => rfl
  | bool b => rfl
  | arr xs => rfl
  | tup xs => rfl
  | table inl sub =>
      have hpi : (st.preserve && inl) = true := isSectionEntry_false_elim h
      simp only [Bool.and_eq_true] at hpi
      show (!(st.preserve && true)) = false
      rw [Bool.and_true, hpi.1]
      rfl

theorem rp1_nonsection (st : EncStrategy) : ∀ es : Entries,
    ∀ e ∈ (reparseTable st es).1, isSectionEntry st e = false := by
  intro es
  induction es with
  | nil =>
      intro e he
      rw [reparseTable] at he
      simp at he
  | cons e0 rest ih =>
      intro e he
      obtain ⟨k, v⟩ := e0
      by_cases hsec : isSectionEntry st (k, v) = true
      · cases v with
        | table inl sub =>
            rw [reparseTable_sec_fst st k inl sub rest
              (isSectionEntry_true_elim hsec)] at he
            exact ih e he
        | str s => exact absurd hsec (by simp [isSectionEntry])
        | int n2 => exact absurd hsec (by simp [isSectionEntry])
        | float m e2 => exact absurd hsec (by simp [isSectionEntry])
        | bool b => exact absurd hsec (by simp [isSectionEntry])
        | arr xs => exact absurd hsec (by simp [isSectionEntry])
        | tup xs => exact absurd hsec (by simp [isSectionEntry])
      · have hkv : isSectionEntry st (k, v) = false := by
          cases hb : isSectionEntry st (k, v)
          · rfl
          · exact absurd hb hsec
        rw [reparseTable_kv_fst st k v rest hkv] at he
        rcases List.mem_cons.mp he with he | he
        · subst he
          exact reparseVal_nonsection st k v hkv
        · exact ih e he

theorem encLines_kvOnly (st : EncStrategy) : ∀ (es : Entries) (pfx : List String),
    (∀ e ∈ es, isSectionEntry st e = false) →
    encLines st pfx es = (es.map (fun e => Line.kv e.1 e.2), []) := by
  intro es
  induction es with
  | nil =>
      intro pfx _
      rw [encLines]
      rfl
  | cons e rest ih =>
      intro pfx h
      obtain ⟨k, v⟩ := e
      rw [encLines_cons_kv st pfx k v rest (h (k, v) (by simp))]
      rw [ih pfx (fun e2 he2 => h e2 (by simp [he2]))]
      rfl

theorem encLines_append (st : EncStrategy) : ∀ (A B : Entries) (pfx : List String),
    encLines st pfx (A ++ B)
      = ((encLines st pfx A).1 ++ (encLines st pfx B).1,
          (encLines st pfx A).2 ++ (encLines st pfx B).2) := by
  intro A
  induction A with
  | nil =>
      intro B pfx
      rw [encLines]
      rfl
  | cons e A ih =>
      intro B pfx
      obtain ⟨k, v⟩ := e
      by_cases hsec : isSectionEntry st (k, v) = true
      · cases v with
        | table inl sub =>
            have hpi := isSectionEntry_true_elim hsec
            show encLines st pfx ((k, TomlValue.table inl sub) :: (A ++ B)) = _
            rw [encLines_cons_sec st pfx k inl sub (A ++ B) hpi, ih B pfx]
            rw [encLines_sec_fst st pfx k inl sub A hpi,
              encLines_sec_snd st pfx k inl sub A hpi]
            rw [List.append_assoc]
        | str s => exact absurd hsec (by simp [isSectionEntry])
        | int n2 => exact absurd hsec (by simp [isSectionEntry])
        | float m e2 => exact absurd hsec (by simp [isSectionEntry])
        | bool b => exact absurd hsec (by simp [isSectionEntry])
        | arr xs => exact absurd hsec (by simp [isSectionEntry])
        | tup xs => exact absurd hsec (by simp [isSectionEntry])
      · have hkv : isSectionEntry st (k, v) = false := by
          cases hb : isSectionEntry st (k, v)
          · rfl
          · exact absurd hb hsec
        show encLines st pfx ((k, v) :: (A ++ B)) = _
        rw [encLines_cons_kv st pfx k v (A ++ B) hkv, ih B pfx]
        rw [encLines_kv_fst st pfx k v A hkv, encLines_kv_snd st pfx k v A hkv]
        rfl

theorem linesToChars_congr (st : EncStrategy) : ∀ (ls1 ls2 : List Line),
    ls1.map (renderLine st) = ls2.map (renderLine st) →
    linesToChars st ls1 = linesToChars st ls2 := by
  intro ls1
  induction ls1 with
  | nil =>
      intro ls2 h
      cases ls2 with
      | nil => rfl
      | cons l ls => simp at h
  | cons l1 ls1 ih =>
      intro ls2 h
      cases ls2 with
      | nil => simp at h
      | cons l2 ls2 =>
          simp only [List.map_cons, List.cons.injEq] at h
          show renderLine st l1 ++ ('\n' :: linesToChars st ls1)
            = renderLine st l2 ++ ('\n' :: linesToChars st ls2)
          rw [h.1, ih ls2 h.2]

theorem encLines_reparse (st : EncStrategy) : ∀ (n : Nat) (es : Entries),
    entsSize es ≤ n → ∀ p : List String,
    (encLines st p (reparseDoc st es)).1.map (renderLine st)
        = (encLines st p es).1.map (renderLine st)
    ∧ (encLines st p (reparseDoc st es)).2.map (renderLine st)
        = (encLines st p es).2.map (renderLine st) := by
  intro n
  induction n with
  | zero =>
      intro es hsize p
      cases es with
      | nil =>
          have h0 : reparseDoc st ([] : Entries) = [] := by
            show (reparseTable st []).1 ++ (reparseTable st []).2 = []
            rw [reparseTable]
            rfl
          rw [h0]
          exact ⟨rfl, rfl⟩
      | cons e rest =>
          obtain ⟨k, v⟩ := e
          simp only [entsSize] at hsize
          omega
  | succ n ihn =>
      intro es hsize p
      cases es with
      | nil =>
          have h0 : reparseDoc st ([] : Entries) = [] := by
            show (reparseTable st []).1 ++ (reparseTable st []).2 = []
            rw [reparseTable]
            rfl
          rw [h0]
          exact ⟨rfl, rfl⟩
      | cons e rest =>
          obtain ⟨k, v⟩ := e
          by_cases hsec : isSectionEntry st (k, v) = true
          · cases v with
            | table inl sub =>
                have hpi := isSectionEntry_true_elim hsec
                simp only [entsSize, valSize] at hsize
                have hdoc : reparseDoc st ((k, TomlValue.table inl sub) :: rest)
                    = (reparseTable st rest).1
                      ++ ((k, TomlValue.table false (reparseDoc st sub))
                        :: (reparseTable st rest).2) := by
                  show (reparseTable st ((k, TomlValue.table inl sub) :: rest)).1
                    ++ (reparseTable st ((k, TomlValue.table inl sub) :: rest)).2 = _
                  rw [reparseTable_sec_fst st k inl sub rest hpi,
                    reparseTable_sec_snd st k inl sub rest hpi]
                  rfl
                rw [hdoc]
                rw [encLines_append st (reparseTable st rest).1
                  ((k, TomlValue.table false (reparseDoc st sub))
                    :: (reparseTable st rest).2) p]
                rw [encLines_kvOnly st (reparseTable st rest).1 p
                  (rp1_nonsection st rest)]
                have hsecf : (st.preserve && false) = false := by simp
                rw [encLines_sec_fst st p k false (reparseDoc st sub)
                    (reparseTable st rest).2 hsecf,
                  encLines_sec_snd st p k false (reparseDoc st sub)
                    (reparseTable st rest).2 hsecf]
                rw [encLines_sec_fst st p k inl sub rest hpi,
                  encLines_sec_snd st p k inl sub rest hpi]
                have hrest := ihn rest (by omega) p
                rw [show reparseDoc st rest
                    = (reparseTable st rest).1 ++ (reparseTable st rest).2 from rfl,
                  encLines_append st (reparseTable st rest).1 (reparseTable st rest).2 p,
                  encLines_kvOnly st (reparseTable st rest).1 p
                    (rp1_nonsection st rest)] at hrest
                have hsub := ihn sub (by omega) (p ++ [k])
                constructor
                · exact hrest.1
                · show ((Line.header (p ++ [k])
                        :: ((encLines st (p ++ [k]) (reparseDoc st sub)).1
                          ++ (encLines st (p ++ [k]) (reparseDoc st sub)).2))
                      ++ (encLines st p (reparseTable st rest).2).2).map (renderLine st)
                    = ((Line.header (p ++ [k])
                        :: ((encLines st (p ++ [k]) sub).1
                          ++ (encLines st (p ++ [k]) sub).2))
                      ++ (encLines st p rest).2).map (renderLine st)
                  have h2 : (encLines st p (reparseTable st rest).2).2.map (renderLine st)
                      = (encLines st p rest).2.map (renderLine st) := hrest.2
                  rw [List.map_append, List.map_append, List.map_cons, List.map_cons,
                    List.map_append, List.map_append]
                  rw [hsub.1, hsub.2, h2]
            | str s => exact absurd hsec (by simp [isSectionEntry])
            | int n2 => exact absurd hsec (by simp [isSectionEntry])
            | float m e2 => exact absurd hsec (by simp [isSectionEntry])
            | bool b => exact absurd hsec (by simp [isSectionEntry])
            | arr xs => exact absurd hsec (by simp [isSectionEntry])
            | tup xs => exact absurd hsec (by simp [isSectionEntry])
          · have hkv : isSectionEntry st (k, v) = false := by
              cases hb : isSectionEntry st (k, v)
              · rfl
              · exact absurd hb hsec
            simp only [entsSize] at hsize
            have hdoc : reparseDoc st ((k, v) :: rest)
                = (k, reparseVal v) :: reparseDoc st rest := by
              show (reparseTable st ((k, v) :: rest)).1
                ++ (reparseTable st ((k, v) :: rest)).2 = _
              rw [reparseTable_kv_fst st k v rest hkv,
                reparseTable_kv_snd st k v rest hkv]
              rfl
            rw [hdoc]
            have hrvkv := reparseVal_nonsection st k v hkv
            rw [encLines_kv_fst st p k (reparseVal v) _ hrvkv,
              encLines_kv_snd st p k (reparseVal v) _ hrvkv,
              encLines_kv_fst st p k v rest hkv, encLines_kv_snd st p k v rest hkv]
            have hih := ihn rest (by omega) p
            constructor
            · simp only [List.map_cons]
              rw [hih.1]
              have hrv : renderLine st (Line.kv k (reparseVal v))
                  = renderLine st (Line.kv k v) := by
                show renderKey k ++ (' ' :: '=' :: ' ' :: renderValue st (reparseVal v))
                  = renderKey k ++ (' ' :: '=' :: ' ' :: renderValue st v)
                rw [(render_reparse st (valSize v)).1 v (Nat.le_refl _)]
              rw [hrv]
            · exact hih.2

theorem encodeDoc_reparse (st : EncStrategy) (es : Entries) :
    encodeDoc st (reparseDoc st es) = encodeDoc st es := by
  show (⟨linesToChars st ((encLines st [] (reparseDoc st es)).1
      ++ (encLines st [] (reparseDoc st es)).2)⟩ : String)
    = ⟨linesToChars st ((encLines st [] es).1 ++ (encLines st [] es).2)⟩
  have h := encLines_reparse st (entsSize es) es (Nat.le_refl _) []
  have hc : linesToChars st ((encLines st [] (reparseDoc st es)).1
        ++ (encLines st [] (reparseDoc st es)).2)
      = linesToChars st ((encLines st [] es).1 ++ (encLines st [] es).2) := by
    apply linesToChars_congr
    rw [List.map_append, List.map_append, h.1, h.2]
  rw [hc]

/-- C7: encoding is idempotent after one decode: for every well-formed
document built from the supported native scalar and container types and
every encoder strategy, decoding the encoded text succeeds, and
re-encoding the decoded value under the same strategy reproduces the
first serialization byte for byte. -/
theorem encode_idempotent (st : EncStrategy) (hsep : WfSep st.sep)
    (es : Entries) (hnd : nodupKeys es = true) (hwf : wfEnt es = true) :
    ∃ u, decode (encodeDoc st es) = some u
      ∧ encodeDoc st u = encodeDoc st es :=
  ⟨reparseDoc st es, decode_encodeDoc st hsep es hnd hwf, encodeDoc_reparse st es⟩

/-- C7 witness: idempotence applied to the default strategy and the
concrete sample document, with every hypothesis checked by
computation. -/
theorem encode_idempotent_witness :
    WfSep defaultStrategy.sep ∧ nodupKeys sampleDoc = true ∧ wfEnt sampleDoc = true
    ∧ ∃ u, decode (encodeDoc defaultStrategy sampleDoc) = some u
        ∧ encodeDoc defaultStrategy u = encodeDoc defaultStrategy sampleDoc :=
  ⟨⟨[' '], rfl, by decide⟩, by rfl, by rfl,
    encode_idempotent defaultStrategy ⟨[' '], rfl, by decide⟩ sampleDoc
      (by rfl) (by rfl)⟩

end DomToml
